import Mathlib

/-!
# DaCH cache controllers: `cache_wo` (write-back, direct mapped, multi-port) and
`raw_cache` (single line, write-through)

Shallow embedding of `inc/cache_wo.h` and `src/raw_cache.h`.

* C++ arrays and the main-memory pointer are total maps `Nat → α`; an array
  store `a[i] = v` is `write a i v`.
* `ap_uint<W>` values are naturals reduced `% 2 ^ W` where they are produced,
  `ap_int<W>` values are integers in two's complement range (`toSigned`).
* `for` loops are folds over `List.range`, in source order.
* The streams `_wr_addr[p]`, `_wr_data[p]` are FIFO lists, head = next element
  to be read.  A read from an empty stream never returns (`Outcome.blocked`).
* `address.h` and `stream_dep.h` are not among the sources; the address
  decomposition and the streams follow the specification text.
-/

namespace DaCH

/-- Array store `a[i] = v`. -/
def write {α : Type} (a : Nat → α) (i : Nat) (v : α) : Nat → α :=
  fun j => if j = i then v else a j

/-- Value of an integer after assignment to an `ap_int<w>` (two's complement wrap). -/
def toSigned (w : Nat) (x : Int) : Int :=
  let m := x % ((2 ^ w : Nat) : Int)
  if 2 * m < ((2 ^ w : Nat) : Int) then m else m - ((2 ^ w : Nat) : Int)

/-- Value of an integer after assignment to an `ap_uint<w>`. -/
def toUnsigned (w : Nat) (x : Int) : Nat :=
  (x % ((2 ^ w : Nat) : Int)).toNat

/-! ## Template parameters of `cache_wo` -/

/-- Template parameters `ADDR_SIZE`, `LINE_SIZE`, `OFF_SIZE`, `N_PORTS` of `cache_wo`. -/
structure Config where
  ADDR_SIZE : Nat
  LINE_SIZE : Nat
  OFF_SIZE : Nat
  N_PORTS : Nat
deriving DecidableEq, Repr

namespace Config

/-- `static const size_t TAG_SIZE = ADDR_SIZE - (LINE_SIZE + OFF_SIZE)`. -/
def TAG_SIZE (c : Config) : Nat := c.ADDR_SIZE - (c.LINE_SIZE + c.OFF_SIZE)

/-- `static const size_t N_LINES = 1 << LINE_SIZE`. -/
def N_LINES (c : Config) : Nat := 1 <<< c.LINE_SIZE

/-- `static const size_t N_ENTRIES_PER_LINE = 1 << OFF_SIZE`. -/
def N_ENTRIES_PER_LINE (c : Config) : Nat := 1 <<< c.OFF_SIZE

/-- The widths fit: `TAG_SIZE` does not underflow. -/
def WF (c : Config) : Prop := c.LINE_SIZE + c.OFF_SIZE ≤ c.ADDR_SIZE

instance (c : Config) : Decidable c.WF := by unfold WF; infer_instance

end Config

/-! ## Address decomposition (`address.h`, not among the sources) -/

/-- Modelled from the spec: the class `address` of `address.h`, which is not among the
sources.  Fields as used by `cache_wo`: `tag` = high bits, `line` = middle bits,
`offset` = low bits, `cache_index = line * entries_per_line + offset`,
`main_base` = address with the offset bits cleared; the `first_of_line` cache index
is the cache index at offset 0. -/
structure addr_t where
  _addr_main : Nat
  _tag : Nat
  _line : Nat
  _off : Nat
  _addr_cache : Nat
  _addr_cache_first_of_line : Nat
  _addr_main_first_of_line : Nat
deriving DecidableEq, Repr

/-- Modelled from the spec: `decompose(addr)`, the constructor of `address` from an
`ADDR_SIZE`-bit main-memory address (section 3: `OFF_SIZE` low bits, `LINE_SIZE` middle
bits, the remaining high bits form the tag). -/
def decompose (c : Config) (addr_main : Nat) : addr_t :=
  let a := addr_main % 2 ^ c.ADDR_SIZE
  let off := a % 2 ^ c.OFF_SIZE
  let line := (a / 2 ^ c.OFF_SIZE) % 2 ^ c.LINE_SIZE
  let tag := (a / 2 ^ (c.LINE_SIZE + c.OFF_SIZE)) % 2 ^ c.TAG_SIZE
  { _addr_main := a
    _tag := tag
    _line := line
    _off := off
    _addr_cache := line * c.N_ENTRIES_PER_LINE + off
    _addr_cache_first_of_line := line * c.N_ENTRIES_PER_LINE
    _addr_main_first_of_line := a - off }

/-- Modelled from the spec: `compose(tag, line, offset) → addr`, the inverse of
`decompose`, as an `ADDR_SIZE`-bit value. -/
def compose (c : Config) (tag line off : Nat) : Nat :=
  (tag * 2 ^ (c.LINE_SIZE + c.OFF_SIZE) + line * 2 ^ c.OFF_SIZE + off) % 2 ^ c.ADDR_SIZE

/-- Modelled from the spec: `address::build(tag, line, off)`, the reverse constructor
used for write-back targeting (`off` defaults to 0 in the calls of `cache_wo`). -/
def build (c : Config) (tag line off : Nat) : addr_t :=
  decompose c (compose c tag line off)

/-! ## Streams (`stream_dep.h`, not among the sources) -/

/-- Modelled from the spec: the class `stream_dep<T, DEPTH>` of `stream_dep.h`, which is
not among the sources: a per-port FIFO queue (sections 4.2 and 5), head = next element
to be read. The depth only bounds the producer and is not modelled. -/
abbrev stream_dep (α : Type) : Type := List α

/-- Modelled from the spec: `read_dep` (and `read`), the blocking dequeue: the next
element and the remaining stream, `none` when the stream is empty and the read never
returns. -/
def stream_dep.read_dep {α : Type} (q : stream_dep α) : Option (α × stream_dep α) :=
  match q with
  | [] => none
  | x :: rest => some (x, rest)

/-- Modelled from the spec: `write_dep` (and `write`), the enqueue at the tail. -/
def stream_dep.write_dep {α : Type} (q : stream_dep α) (x : α) : stream_dep α :=
  q ++ [x]

/-! ## `cache_wo` -/

/-- Data members of `cache_wo<T, ADDR_SIZE, LINE_SIZE, OFF_SIZE, N_PORTS>`, the main
memory behind `_main_mem`, and the function-local `static int curr_port` of `set`. -/
structure cache_wo (T : Type) where
  _wr_data : Nat → stream_dep T
  _wr_addr : Nat → stream_dep Int
  _valid : Nat → Bool
  _dirty : Nat → Bool
  _tag : Nat → Nat
  _cache_mem : Nat → T
  _main_mem : Nat → T
  set_curr_port : Nat

namespace cache_wo

variable {T : Type}

/-- `inline bool hit(addr_t addr)`. -/
def hit (s : cache_wo T) (addr : addr_t) : Bool :=
  s._valid addr._line && (addr._tag == s._tag addr._line)

/-- Body of `SPILL_LOOP` for one `off`. -/
def spill_body (addr : addr_t) (s : cache_wo T) (off : Nat) : cache_wo T :=
  { s with _main_mem := write s._main_mem (addr._addr_main_first_of_line + off)
                          (s._cache_mem (addr._addr_cache_first_of_line + off)) }

/-- `void spill(addr_t addr)`: store line from cache to main memory. -/
def spill (c : Config) (s : cache_wo T) (addr : addr_t) : cache_wo T :=
  let s1 := (List.range c.N_ENTRIES_PER_LINE).foldl (spill_body addr) s
  { s1 with _dirty := write s1._dirty addr._line false }

/-- Body of `FILL_LOOP` for one `off`. -/
def fill_body (addr : addr_t) (s : cache_wo T) (off : Nat) : cache_wo T :=
  { s with _cache_mem := write s._cache_mem (addr._addr_cache_first_of_line + off)
                           (s._main_mem (addr._addr_main_first_of_line + off)) }

/-- The part of `fill` after the conditional spill: `FILL_LOOP` and the three
assignments to `_tag`, `_valid`, `_dirty`. -/
def fill_load (c : Config) (s : cache_wo T) (addr : addr_t) : cache_wo T :=
  let s1 := (List.range c.N_ENTRIES_PER_LINE).foldl (fill_body addr) s
  let s2 := { s1 with _tag := write s1._tag addr._line addr._tag }
  let s3 := { s2 with _valid := write s2._valid addr._line true }
  { s3 with _dirty := write s3._dirty addr._line false }

/-- `void fill(addr_t addr)`: load line from main to cache memory (taking care of
writing back dirty lines). -/
def fill (c : Config) (s : cache_wo T) (addr : addr_t) : cache_wo T :=
  let s1 :=
    if s._valid addr._line && s._dirty addr._line then
      spill c s (build c (s._tag addr._line) addr._line 0)
    else s
  fill_load c s1 addr

/-- Body of `FLUSH_LOOP` for one `line`. -/
def flush_body (c : Config) (s : cache_wo T) (line : Nat) : cache_wo T :=
  if s._valid line && s._dirty line then spill c s (build c (s._tag line) line 0) else s

/-- `void flush()`: store all valid dirty lines from cache to main memory. -/
def flush (c : Config) (s : cache_wo T) : cache_wo T :=
  (List.range c.N_LINES).foldl (flush_body c) s

/-- The loop `for (line ...) _valid[line] = false;` at the start of `operate`. -/
def invalidate (c : Config) (s : cache_wo T) : cache_wo T :=
  (List.range c.N_LINES).foldl (fun st line => { st with _valid := write st._valid line false }) s

/-- Result of one iteration of `OPERATE_LOOP`. -/
inductive Outcome (T : Type) where
  -- a `read_dep` on an empty stream: the iteration never completes
  | blocked : Outcome T
  -- `addr_main < 0`: `break`, with the state at that point
  | stopped : cache_wo T → Outcome T
  -- the request `(addr_main, data)` was serviced; resulting state and next `curr_port`
  | serviced : Int → T → cache_wo T → Nat → Outcome T

/-- One iteration of `OPERATE_LOOP` (non-synthesis build) with `curr_port`. -/
def operate_iter (c : Config) (s : cache_wo T) (curr_port : Nat) : Outcome T :=
  match stream_dep.read_dep (s._wr_addr curr_port) with
  | none => Outcome.blocked
  | some (addr_main, rest) =>
    let s1 := { s with _wr_addr := write s._wr_addr curr_port rest }
    if addr_main < 0 then Outcome.stopped s1
    else
      let addr := decompose c addr_main.toNat
      let s2 := if !hit s1 addr then fill c s1 addr else s1
      match stream_dep.read_dep (s2._wr_data curr_port) with
      | none => Outcome.blocked
      | some (data, drest) =>
        let s3 := { s2 with _wr_data := write s2._wr_data curr_port drest }
        let s4 := { s3 with _cache_mem := write s3._cache_mem addr._addr_cache data }
        let s5 := { s4 with _dirty := write s4._dirty addr._line true }
        Outcome.serviced addr_main data s5 ((curr_port + 1) % c.N_PORTS)

/-- `OPERATE_LOOP`: iterate until `break`; `none` when a read blocks for ever (or the
iteration bound is used up, which `operate_fuel` excludes). -/
def operate_loop (c : Config) : Nat → cache_wo T → Nat → Option (cache_wo T)
  | 0, _, _ => none
  | fuel + 1, s, curr_port =>
    match operate_iter c s curr_port with
    | Outcome.blocked => none
    | Outcome.stopped s1 => some s1
    | Outcome.serviced _ _ s1 port1 => operate_loop c fuel s1 port1

/-- The requests serviced by `OPERATE_LOOP`, in service order, each with the port it
was read from and the cache state right after it was serviced. -/
def operate_trace (c : Config) : Nat → cache_wo T → Nat → List (Nat × Int × T × cache_wo T)
  | 0, _, _ => []
  | fuel + 1, s, curr_port =>
    match operate_iter c s curr_port with
    | Outcome.blocked => []
    | Outcome.stopped _ => []
    | Outcome.serviced a d s1 port1 => (curr_port, a, d, s1) :: operate_trace c fuel s1 port1

/-- Every iteration reads one address, so the number of queued addresses plus one
bounds the number of iterations. -/
def operate_fuel (c : Config) (s : cache_wo T) : Nat :=
  ((List.range c.N_PORTS).map (fun p => (s._wr_addr p).length)).sum + 1

/-- `void operate()`: invalidate all lines, run `OPERATE_LOOP` from port 0, `flush`. -/
def operate (c : Config) (s : cache_wo T) : Option (cache_wo T) :=
  let s0 := invalidate c s
  (operate_loop c (operate_fuel c s0) s0 0).map (flush c)

/-- `void stop_operation()`: `_wr_addr[port].write(-1)` for every port. -/
def stop_operation (c : Config) (s : cache_wo T) : cache_wo T :=
  (List.range c.N_PORTS).foldl
    (fun st port => { st with _wr_addr := write st._wr_addr port
                                 ((st._wr_addr port).write_dep (toSigned c.ADDR_SIZE (-1))) }) s

/-- `void set(ap_uint<ADDR_SIZE> addr_main, T data)`: the address is written to the
stream of `ap_int<ADDR_SIZE>`. -/
def set (c : Config) (s : cache_wo T) (addr_main : Nat) (data : T) : cache_wo T :=
  let s1 := { s with
    _wr_addr := write s._wr_addr s.set_curr_port
      ((s._wr_addr s.set_curr_port).write_dep (toSigned c.ADDR_SIZE (addr_main : Int))) }
  let s2 := { s1 with
    _wr_data := write s1._wr_data s1.set_curr_port
      ((s1._wr_data s1.set_curr_port).write_dep data) }
  { s2 with set_curr_port := (s2.set_curr_port + 1) % c.N_PORTS }

/-- `cache[addr_main] = data`: `operator[](const int addr_main)` builds
`inner(this, addr_main)` (conversion to `ap_uint<ADDR_SIZE>`), `operator=` calls `set`. -/
def store (c : Config) (s : cache_wo T) (addr_main : Int) (data : T) : cache_wo T :=
  set c s (toUnsigned c.ADDR_SIZE addr_main) data

/-- The fills performed by `OPERATE_LOOP`, in order: for every serviced request that
missed, the line index filled, the tag installed, and the tag of the line spilled by
`fill` first (`none` when `fill` did not spill). -/
def operate_fills (c : Config) : Nat → cache_wo T → Nat → List (Nat × Nat × Option Nat)
  | 0, _, _ => []
  | fuel + 1, s, curr_port =>
    match operate_iter c s curr_port with
    | Outcome.blocked => []
    | Outcome.stopped _ => []
    | Outcome.serviced a _ s1 port1 =>
      let addr := decompose c a.toNat
      (if hit s addr then []
       else [(addr._line, addr._tag,
              if s._valid addr._line && s._dirty addr._line then some (s._tag addr._line)
              else none)])
        ++ operate_fills c fuel s1 port1

/-- A sequence of stores `cache[a] = v;` issued in order through `operator[]`. -/
def submit (c : Config) (s : cache_wo T) (l : List (Int × T)) : cache_wo T :=
  l.foldl (fun st r => store c st r.1 r.2) s

/-! ### Specification predicates for `cache_wo` -/

/-- The requests of `l` that a producer starting at port `p` puts on port `q`, in
order: request number `i` goes to port `(p + i) % N`. -/
def dealt (N : Nat) : Nat → List (Int × T) → Nat → List (Int × T)
  | _, [], _ => []
  | p, r :: l, q => (if p = q then [r] else []) ++ dealt N ((p + 1) % N) l q

/-- The streams of `s` hold the requests `l` dealt from port `p`, each address stream
ending with the sentinel. -/
def Holds (c : Config) (s : cache_wo T) (p : Nat) (l : List (Int × T)) : Prop :=
  ∀ q, q < c.N_PORTS →
    s._wr_addr q = (dealt c.N_PORTS p l q).map (fun r => r.1) ++ [-1]
    ∧ s._wr_data q = (dealt c.N_PORTS p l q).map (fun r => r.2)


/-- What the first `n` iterations of `FLUSH_LOOP` have done. -/
structure FlushedUpTo (c : Config) (s r : cache_wo T) (n : Nat) : Prop where
  valid_eq : r._valid = s._valid
  tag_eq : r._tag = s._tag
  cache_eq : r._cache_mem = s._cache_mem
  wr_addr_eq : r._wr_addr = s._wr_addr
  wr_data_eq : r._wr_data = s._wr_data
  port_eq : r.set_curr_port = s.set_curr_port
  dirty_eq : ∀ i, r._dirty i = if i < n ∧ s._valid i = true then false else s._dirty i
  written : ∀ i, i < n → s._valid i = true → s._dirty i = true →
    ∀ off, off < c.N_ENTRIES_PER_LINE →
      r._main_mem (compose c (s._tag i) i 0 + off) = s._cache_mem (i * c.N_ENTRIES_PER_LINE + off)
  frame : ∀ x, (∀ i, i < n → s._valid i = true → s._dirty i = true →
      ¬ (compose c (s._tag i) i 0 ≤ x ∧ x < compose c (s._tag i) i 0 + c.N_ENTRIES_PER_LINE)) →
    r._main_mem x = s._main_mem x

/-- Line `i` satisfies `dirty[i] ⟹ valid[i]` in state `s`. -/
def DirtyImpValid (s : cache_wo T) (i : Nat) : Prop :=
  s._dirty i = true → s._valid i = true

instance (s : cache_wo T) (i : Nat) : Decidable (DirtyImpValid s i) := by
  unfold DirtyImpValid; infer_instance

/-- The cache states at the observable instants of `operate`: right after the
invalidation loop, after each serviced request, and (when `operate` returns) after the
final flush. -/
def operate_instants (c : Config) (s : cache_wo T) : List (cache_wo T) :=
  let s0 := invalidate c s
  s0 :: ((operate_trace c (operate_fuel c s0) s0 0).map (fun e => e.2.2.2)
    ++ (operate c s).toList)

end cache_wo

/-! ## `raw_cache` -/

/-- Template parameters `ADDR_SIZE`, `TAG_SIZE`, `N_WORDS_PER_LINE` of `raw_cache`. -/
structure RawConfig where
  ADDR_SIZE : Nat
  TAG_SIZE : Nat
  N_WORDS_PER_LINE : Nat
deriving DecidableEq, Repr

namespace RawConfig

/-- `static const size_t OFF_SIZE = (ADDR_SIZE - TAG_SIZE)`. -/
def OFF_SIZE (c : RawConfig) : Nat := c.ADDR_SIZE - c.TAG_SIZE

/-- Width of the address argument, `(ADDR_SIZE > 0) ? ADDR_SIZE : 1`. -/
def ADDR_WIDTH (c : RawConfig) : Nat := if c.ADDR_SIZE > 0 then c.ADDR_SIZE else 1

/-- Width of the member `m_tag`, `(TAG_SIZE > 0) ? TAG_SIZE : 1`. -/
def TAG_WIDTH (c : RawConfig) : Nat := if c.TAG_SIZE > 0 then c.TAG_SIZE else 1

end RawConfig

/-- Modelled from the spec: the class `address<ADDR_SIZE, TAG_SIZE, 0, 0>` used by
`raw_cache` (its header is not among the sources), with the two fields `raw_cache`
reads. -/
structure addr_type where
  m_addr_main : Nat
  m_tag : Nat
deriving DecidableEq, Repr

/-- Modelled from the spec: construction of `addr_type` from the address argument; the
tag is the `TAG_SIZE` high bits of the address (the bits above the `OFF_SIZE` low
bits), and is 0 when `TAG_SIZE = 0`. -/
def addr_type.decode (c : RawConfig) (addr_main : Nat) : addr_type :=
  let a := addr_main % 2 ^ c.ADDR_WIDTH
  { m_addr_main := a
    m_tag := (a / 2 ^ c.OFF_SIZE) % 2 ^ c.TAG_SIZE }

/-- Data members of `raw_cache<T, ADDR_SIZE, TAG_SIZE, N_WORDS_PER_LINE>`; `line_type`
is `std::array<T, N_WORDS_PER_LINE>`, here `Fin N → T`. -/
structure raw_cache (T : Type) (N : Nat) where
  m_valid : Bool
  m_line : Fin N → T
  m_tag : Nat

namespace raw_cache

variable {T : Type} {N : Nat}

/-- The `unsigned int` constant `-1U << OFF_SIZE` (32 bits; the C++ shift is undefined
for `OFF_SIZE ≥ 32`, where this model yields 0). -/
def line_mask (c : RawConfig) : Nat := ((2 ^ 32 - 1) <<< c.OFF_SIZE) % 2 ^ 32

/-- Index of `main_line[0]`: `addr.m_addr_main & (-1U << OFF_SIZE)`. -/
def main_line (c : RawConfig) (addr : addr_type) : Nat :=
  addr.m_addr_main &&& line_mask c

/-- `void init()`. -/
def init (s : raw_cache T N) : raw_cache T N :=
  { s with m_valid := false }

/-- `inline bool hit(const addr_type &addr)`. -/
def hit (s : raw_cache T N) (addr : addr_type) : Bool :=
  s.m_valid && (addr.m_tag == s.m_tag)

/-- `void get_line(const T * const main_mem, addr_main, line_type &line)`: returns the
object state and the content of the out-parameter `line`. -/
def get_line (c : RawConfig) (s : raw_cache T N) (main_mem : Nat → T) (addr_main : Nat)
    (line : Fin N → T) : raw_cache T N × (Fin N → T) :=
  let addr := addr_type.decode c addr_main
  if hit s addr then
    (s, (List.finRange N).foldl (fun ln off => Function.update ln off (s.m_line off)) line)
  else
    let base := main_line c addr
    (s, (List.finRange N).foldl
          (fun ln off => Function.update ln off (main_mem (base + off.val))) line)

/-- Body of the loop of `set_line` for one `off`, on the pair (main memory, `m_line`). -/
def set_line_body (base : Nat) (line : Fin N → T) (st : (Nat → T) × (Fin N → T))
    (off : Fin N) : (Nat → T) × (Fin N → T) :=
  (write st.1 (base + off.val) (line off), Function.update st.2 off (line off))

/-- `void set_line(T * const main_mem, addr_main, const line_type &line)`: returns the
object state and the main memory. -/
def set_line (c : RawConfig) (s : raw_cache T N) (main_mem : Nat → T) (addr_main : Nat)
    (line : Fin N → T) : raw_cache T N × (Nat → T) :=
  let addr := addr_type.decode c addr_main
  let base := main_line c addr
  let r := (List.finRange N).foldl (set_line_body base line) (main_mem, s.m_line)
  let s1 := { s with m_line := r.2 }
  let s2 := { s1 with m_tag := addr.m_tag % 2 ^ c.TAG_WIDTH }
  ({ s2 with m_valid := true }, r.1)

end raw_cache

/-! ## Scenario of section 8: `ADDR_SIZE=8, LINE_SIZE=2, OFF_SIZE=1, N_PORTS=1` -/

/-- The configuration of the concrete scenario. -/
def cfg8 : Config := { ADDR_SIZE := 8, LINE_SIZE := 2, OFF_SIZE := 1, N_PORTS := 1 }

/-- A cache over `mem` with the given queue contents on port 0 and cleared arrays. -/
def mkCache {T : Type} (d : T) (mem : Nat → T) (addrs : List Int) (datas : List T) :
    cache_wo T :=
  { _wr_data := fun p => if p = 0 then datas else []
    _wr_addr := fun p => if p = 0 then addrs else []
    _valid := fun _ => false
    _dirty := fun _ => false
    _tag := fun _ => 0
    _cache_mem := fun _ => d
    _main_mem := mem
    set_curr_port := 0 }

/-- The cache `s0` (arbitrary arrays and memory) with empty streams and the producer
port counter at 0. -/
def idle {T : Type} (s0 : cache_wo T) : cache_wo T :=
  { s0 with _wr_data := fun _ => [], _wr_addr := fun _ => [], set_curr_port := 0 }

/-- The scenario of section 8: stores to addresses `0,1,8,9,16,17,0,1` with values
`v1..v8`, then `stop_operation`. -/
def scenario {T : Type} (s0 : cache_wo T) (v1 v2 v3 v4 v5 v6 v7 v8 : T) : cache_wo T :=
  let q1 := cache_wo.store cfg8 (idle s0) 0 v1
  let q2 := cache_wo.store cfg8 q1 1 v2
  let q3 := cache_wo.store cfg8 q2 8 v3
  let q4 := cache_wo.store cfg8 q3 9 v4
  let q5 := cache_wo.store cfg8 q4 16 v5
  let q6 := cache_wo.store cfg8 q5 17 v6
  let q7 := cache_wo.store cfg8 q6 0 v7
  let q8 := cache_wo.store cfg8 q7 1 v8
  cache_wo.stop_operation cfg8 q8

/-- Two writes to line 0 and one to line 1, then the sentinel. -/
def demo1 : cache_wo Nat := mkCache 0 (fun i => 100 + i) [0, 1, 2, -1] [7, 8, 9]

/-- State of `demo1` when `OPERATE_LOOP` has popped the sentinel. -/
def demo1_popped : cache_wo Nat :=
  match cache_wo.operate_loop cfg8 4 (cache_wo.invalidate cfg8 demo1) 0 with
  | some s => s
  | none => demo1

/-- Line 0 is valid and dirty with resident tag 0; storage word `i` holds `50 + i`,
memory word `i` holds `100 + i`. -/
def demo2 : cache_wo Nat :=
  { _wr_data := fun _ => []
    _wr_addr := fun _ => []
    _valid := fun i => decide (i = 0)
    _dirty := fun i => decide (i = 0)
    _tag := fun _ => 0
    _cache_mem := fun i => 50 + i
    _main_mem := fun i => 100 + i
    set_curr_port := 0 }

/-- Stale flags: `_dirty` holds `true` everywhere before `operate` starts; one write to
line 1 is queued, then the sentinel. -/
def demo3 : cache_wo Nat :=
  { _wr_data := fun p => if p = 0 then [9] else []
    _wr_addr := fun p => if p = 0 then [2, -1] else []
    _valid := fun _ => true
    _dirty := fun _ => true
    _tag := fun _ => 0
    _cache_mem := fun _ => 0
    _main_mem := fun i => 100 + i
    set_curr_port := 0 }

/-- The scenario widths with two ports. -/
def cfg8p2 : Config := { ADDR_SIZE := 8, LINE_SIZE := 2, OFF_SIZE := 1, N_PORTS := 2 }

/-- Two ports: port 0 holds the writes `(0, 10), (4, 30)` and the sentinel, port 1 the
write `(2, 20)` and the sentinel. -/
def demo4 : cache_wo Nat :=
  { _wr_data := fun p => if p = 0 then [10, 30] else if p = 1 then [20] else []
    _wr_addr := fun p => if p = 0 then [0, 4, -1] else if p = 1 then [2, -1] else []
    _valid := fun _ => false
    _dirty := fun _ => false
    _tag := fun _ => 0
    _cache_mem := fun _ => 0
    _main_mem := fun i => 100 + i
    set_curr_port := 0 }

/-- Three stores `cache[0] = 10; cache[200] = 20; cache[4] = 30;` on two ports, then
`stop_operation`. -/
def demo9 : cache_wo Nat :=
  cache_wo.stop_operation cfg8p2
    (cache_wo.store cfg8p2
      (cache_wo.store cfg8p2
        (cache_wo.store cfg8p2 (idle (mkCache 0 (fun i => 100 + i) [] [])) 0 10) 200 20) 4 30)

/-- One store `cache[128] = 77;` on one port, then `stop_operation`. -/
def demo10 : cache_wo Nat :=
  cache_wo.stop_operation cfg8
    (cache_wo.store cfg8 (idle (mkCache 0 (fun i => 100 + i) [] [])) 128 77)

/-- Single-line cache with 8-bit addresses, 6 tag bits and 4 words per line. -/
def rcfg8 : RawConfig := { ADDR_SIZE := 8, TAG_SIZE := 6, N_WORDS_PER_LINE := 4 }

/-- An initialised (invalid) single-line cache with stale tag 3 and stale line. -/
def rdemo : raw_cache Nat 4 := raw_cache.init { m_valid := true, m_line := fun _ => 0, m_tag := 3 }

/-- A valid single-line cache holding tag 3. -/
def rdemo_valid : raw_cache Nat 4 := { m_valid := true, m_line := fun i => 70 + i.val, m_tag := 3 }

/-- The line `[10, 11, 12, 13]`. -/
def rline : Fin 4 → Nat := fun i => 10 + i.val

/-- An engine with empty streams. -/
def demo11 : cache_wo Nat := idle (mkCache 0 (fun i => 100 + i) [] [])

/-- Line 0 valid and dirty with tag 0 (as `demo2`); port 0 holds the write `(1, 9)`,
which hits, then the sentinel. -/
def demo12 : cache_wo Nat :=
  { demo2 with _wr_addr := fun p => if p = 0 then [1, -1] else []
               _wr_data := fun p => if p = 0 then [9] else [] }

/-- State of `demo12` after the write `(1, 9)` has been serviced. -/
def demo12_after : cache_wo Nat :=
  match cache_wo.operate_iter cfg8 demo12 0 with
  | cache_wo.Outcome.serviced _ _ s1 _ => s1
  | _ => demo12

/-- Line 0 valid and dirty with tag 0 (as `demo2`); port 0 holds the write `(9, 7)`,
which misses on line 0 and evicts it, then the sentinel. -/
def demo17 : cache_wo Nat :=
  { demo2 with _wr_addr := fun p => if p = 0 then [9, -1] else []
               _wr_data := fun p => if p = 0 then [7] else [] }

/-- State of `demo17` after the write `(9, 7)` has been serviced. -/
def demo17_after : cache_wo Nat :=
  match cache_wo.operate_iter cfg8 demo17 0 with
  | cache_wo.Outcome.serviced _ _ s1 _ => s1
  | _ => demo17

/-- A call on a `raw_cache` object: `set_line(main_mem, addr, line)` or
`get_line(main_mem, addr, line)` (with the prior content of the caller's `line`). -/
inductive raw_cache.Op (T : Type) (N : Nat) where
  | set_line : Nat → (Fin N → T) → raw_cache.Op T N
  | get_line : Nat → (Fin N → T) → raw_cache.Op T N

/-- The address argument of a call. -/
def raw_cache.Op.addr {T : Type} {N : Nat} : raw_cache.Op T N → Nat
  | raw_cache.Op.set_line a _ => a
  | raw_cache.Op.get_line a _ => a

/-- The cache object and main memory after one call. -/
def raw_cache.step {T : Type} {N : Nat} (c : RawConfig) (st : raw_cache T N × (Nat → T))
    (op : raw_cache.Op T N) : raw_cache T N × (Nat → T) :=
  match op with
  | raw_cache.Op.set_line a line => raw_cache.set_line c st.1 st.2 a line
  | raw_cache.Op.get_line a line => ((raw_cache.get_line c st.1 st.2 a line).1, st.2)

/-- The cache object and main memory after a sequence of calls, main memory having no
other writer. -/
def raw_cache.run {T : Type} {N : Nat} (c : RawConfig) (st : raw_cache T N × (Nat → T))
    (ops : List (raw_cache.Op T N)) : raw_cache T N × (Nat → T) :=
  ops.foldl (raw_cache.step c) st

/-- The cache is coherent with memory: if valid, the cached line equals the
`N_WORDS_PER_LINE` memory words at the line base of the addresses having the stored
tag. -/
def raw_cache.Coherent {T : Type} {N : Nat} (c : RawConfig) (s : raw_cache T N)
    (mem : Nat → T) : Prop :=
  s.m_valid = true → ∀ a, a < 2 ^ c.ADDR_SIZE → (addr_type.decode c a).m_tag = s.m_tag →
    ∀ off : Fin N, s.m_line off = mem (raw_cache.main_line c (addr_type.decode c a) + off.val)

/-- Single-line cache with 40-bit addresses, 36 tag bits (4 offset bits), 2 words per
line. -/
def rcfg40 : RawConfig := { ADDR_SIZE := 40, TAG_SIZE := 36, N_WORDS_PER_LINE := 2 }

/-- Single-line cache with 8-bit addresses and no tag bits, 4 words per line. -/
def rcfg0 : RawConfig := { ADDR_SIZE := 8, TAG_SIZE := 0, N_WORDS_PER_LINE := 4 }

/-- An initialised two-word single-line cache. -/
def rdemo2 : raw_cache Nat 2 := raw_cache.init { m_valid := true, m_line := fun _ => 0, m_tag := 0 }

/-- The line `[10, 11]`. -/
def rline2 : Fin 2 → Nat := fun i => 10 + i.val

/-- Main memory as seen through the cache: the cached word where the line of the
address is resident (valid, with the tag of the address), the memory word elsewhere. -/
def cache_wo.view {T : Type} (c : Config) (s : cache_wo T) : Nat → T :=
  fun x =>
    if x < 2 ^ c.ADDR_SIZE ∧ s._valid (decompose c x)._line = true
        ∧ s._tag (decompose c x)._line = (decompose c x)._tag
    then s._cache_mem (decompose c x)._addr_cache
    else s._main_mem x

/-- Every valid line is dirty and holds a `TAG_SIZE`-bit tag (what `operate` maintains
from the invalidation loop on). -/
def cache_wo.Live {T : Type} (c : Config) (s : cache_wo T) : Prop :=
  ∀ l, l < c.N_LINES → s._valid l = true → s._dirty l = true ∧ s._tag l < 2 ^ c.TAG_SIZE

/-- The direct assignments `mem[a_1] := v_1; ...; mem[a_k] := v_k`, applied in order. -/
def direct {T : Type} (mem : Nat → T) (reqs : List (Int × T)) : Nat → T :=
  reqs.foldl (fun m r => write m r.1.toNat r.2) mem

/-- State of `demo3` after its write `(2, 9)` on line 1 has been serviced. -/
def demo3_after : cache_wo Nat :=
  match cache_wo.operate_iter cfg8 (cache_wo.invalidate cfg8 demo3) 0 with
  | cache_wo.Outcome.serviced _ _ s1 _ => s1
  | _ => demo3

/-- Modelled from the spec: `main_base`, the address with its `OFF_SIZE` offset bits
cleared (section 3), for the single-line cache. -/
def raw_cache.main_base (c : RawConfig) (addr_main : Nat) : Nat :=
  addr_main - addr_main % 2 ^ c.OFF_SIZE

/-! # Lemmas -/

/-! ## Basic facts: array stores and address arithmetic -/

theorem write_same {α : Type} (a : Nat → α) (i : Nat) (v : α) : write a i v i = v := by
  simp [write]

theorem write_other {α : Type} (a : Nat → α) (i j : Nat) (v : α) (h : j ≠ i) :
    write a i v j = a j := by
  simp [write, h]

theorem N_LINES_eq (c : Config) : c.N_LINES = 2 ^ c.LINE_SIZE := by
  simp [Config.N_LINES, Nat.shiftLeft_eq]

theorem N_ENTRIES_PER_LINE_eq (c : Config) : c.N_ENTRIES_PER_LINE = 2 ^ c.OFF_SIZE := by
  simp [Config.N_ENTRIES_PER_LINE, Nat.shiftLeft_eq]

theorem ADDR_SIZE_split (c : Config) (h : c.WF) :
    2 ^ c.ADDR_SIZE = 2 ^ (c.LINE_SIZE + c.OFF_SIZE) * 2 ^ c.TAG_SIZE := by
  rw [← pow_add]
  congr 1
  unfold Config.WF at h
  unfold Config.TAG_SIZE
  omega

theorem line_off_lt (P Q l o : Nat) (hl : l < Q) (ho : o < P) : l * P + o < Q * P := by
  have h1 : (l + 1) * P ≤ Q * P := Nat.mul_le_mul_right P hl
  have h2 : (l + 1) * P = l * P + P := by ring
  omega

/-- The composed address, written without the reduction to `ADDR_SIZE` bits. -/
theorem compose_eq (c : Config) (h : c.WF) (t l o : Nat) (hl : l < 2 ^ c.LINE_SIZE)
    (ho : o < 2 ^ c.OFF_SIZE) :
    compose c t l o
      = (t % 2 ^ c.TAG_SIZE) * 2 ^ (c.LINE_SIZE + c.OFF_SIZE) + l * 2 ^ c.OFF_SIZE + o := by
  unfold compose
  rw [ADDR_SIZE_split c h, Nat.mod_mul]
  have hlt : l * 2 ^ c.OFF_SIZE + o < 2 ^ (c.LINE_SIZE + c.OFF_SIZE) := by
    rw [pow_add]; exact line_off_lt _ _ l o hl ho
  have hpos : 0 < 2 ^ (c.LINE_SIZE + c.OFF_SIZE) := Nat.two_pow_pos _
  have e1 : (t * 2 ^ (c.LINE_SIZE + c.OFF_SIZE) + l * 2 ^ c.OFF_SIZE + o)
      % 2 ^ (c.LINE_SIZE + c.OFF_SIZE) = l * 2 ^ c.OFF_SIZE + o := by
    rw [Nat.add_assoc, Nat.add_comm, Nat.add_mul_mod_self_right, Nat.mod_eq_of_lt hlt]
  have e2 : (t * 2 ^ (c.LINE_SIZE + c.OFF_SIZE) + l * 2 ^ c.OFF_SIZE + o)
      / 2 ^ (c.LINE_SIZE + c.OFF_SIZE) = t := by
    rw [Nat.add_assoc, Nat.add_comm, Nat.add_mul_div_right _ _ hpos, Nat.div_eq_of_lt hlt]
    simp
  rw [e1, e2]
  ring

theorem compose_lt (c : Config) (t l o : Nat) : compose c t l o < 2 ^ c.ADDR_SIZE :=
  Nat.mod_lt _ (Nat.two_pow_pos _)

/-- The line index of any word of the line built from `(t, l)` is `l`. -/
theorem line_of_compose (c : Config) (h : c.WF) (t l o : Nat) (hl : l < 2 ^ c.LINE_SIZE)
    (ho : o < 2 ^ c.OFF_SIZE) :
    ((compose c t l 0 + o) / 2 ^ c.OFF_SIZE) % 2 ^ c.LINE_SIZE = l := by
  have hP : 0 < 2 ^ c.OFF_SIZE := Nat.two_pow_pos _
  rw [compose_eq c h t l 0 hl hP, pow_add]
  have e : t % 2 ^ c.TAG_SIZE * (2 ^ c.LINE_SIZE * 2 ^ c.OFF_SIZE) + l * 2 ^ c.OFF_SIZE + 0 + o
      = o + (t % 2 ^ c.TAG_SIZE * 2 ^ c.LINE_SIZE + l) * 2 ^ c.OFF_SIZE := by ring
  rw [e, Nat.add_mul_div_right _ _ hP, Nat.div_eq_of_lt ho, Nat.zero_add,
    Nat.add_comm, Nat.add_mul_mod_self_right, Nat.mod_eq_of_lt hl]

/-- Lines built for different line indices do not overlap in main memory. -/
theorem compose_disjoint (c : Config) (h : c.WF) (t1 t2 l1 l2 o1 o2 : Nat)
    (hl1 : l1 < 2 ^ c.LINE_SIZE) (hl2 : l2 < 2 ^ c.LINE_SIZE) (hne : l1 ≠ l2)
    (ho1 : o1 < 2 ^ c.OFF_SIZE) (ho2 : o2 < 2 ^ c.OFF_SIZE) :
    compose c t1 l1 0 + o1 ≠ compose c t2 l2 0 + o2 := by
  intro e
  apply hne
  rw [← line_of_compose c h t1 l1 o1 hl1 ho1, ← line_of_compose c h t2 l2 o2 hl2 ho2, e]

/-- Fields of the address built for line `l` with offset 0. -/
theorem build_zero (c : Config) (h : c.WF) (t l : Nat) (hl : l < 2 ^ c.LINE_SIZE) :
    (build c t l 0)._line = l
    ∧ (build c t l 0)._tag = t % 2 ^ c.TAG_SIZE
    ∧ (build c t l 0)._addr_cache_first_of_line = l * c.N_ENTRIES_PER_LINE
    ∧ (build c t l 0)._addr_main_first_of_line = compose c t l 0 := by
  have hP : 0 < 2 ^ c.OFF_SIZE := Nat.two_pow_pos _
  have hline := line_of_compose c h t l 0 hl hP
  simp only [Nat.add_zero] at hline
  have hoff : compose c t l 0 % 2 ^ c.OFF_SIZE = 0 := by
    rw [compose_eq c h t l 0 hl hP, pow_add]
    have e : t % 2 ^ c.TAG_SIZE * (2 ^ c.LINE_SIZE * 2 ^ c.OFF_SIZE) + l * 2 ^ c.OFF_SIZE + 0
        = (t % 2 ^ c.TAG_SIZE * 2 ^ c.LINE_SIZE + l) * 2 ^ c.OFF_SIZE := by ring
    rw [e]; exact Nat.mul_mod_left _ _
  have htag : compose c t l 0 / 2 ^ (c.LINE_SIZE + c.OFF_SIZE) % 2 ^ c.TAG_SIZE
      = t % 2 ^ c.TAG_SIZE := by
    rw [compose_eq c h t l 0 hl hP]
    have hlt : l * 2 ^ c.OFF_SIZE + 0 < 2 ^ (c.LINE_SIZE + c.OFF_SIZE) := by
      rw [pow_add]; exact line_off_lt _ _ l 0 hl hP
    have hpos : 0 < 2 ^ (c.LINE_SIZE + c.OFF_SIZE) := Nat.two_pow_pos _
    rw [Nat.add_assoc, Nat.add_comm, Nat.add_mul_div_right _ _ hpos, Nat.div_eq_of_lt hlt]
    simp
  have hmod : compose c t l 0 % 2 ^ c.ADDR_SIZE = compose c t l 0 :=
    Nat.mod_eq_of_lt (compose_lt c t l 0)
  refine ⟨?_, ?_, ?_, ?_⟩ <;> simp only [build, decompose, hmod, hline, hoff, htag, Nat.sub_zero]

/-! ## Closed forms of the loops of `cache_wo` -/

namespace cache_wo

variable {T : Type}

theorem spill_loop_eq (addr : addr_t) (s : cache_wo T) (n : Nat) :
    (List.range n).foldl (spill_body addr) s
      = { s with _main_mem := fun x =>
            if addr._addr_main_first_of_line ≤ x ∧ x < addr._addr_main_first_of_line + n
            then s._cache_mem (addr._addr_cache_first_of_line + (x - addr._addr_main_first_of_line))
            else s._main_mem x } := by
  induction n with
  | zero =>
    cases s
    simp only [List.range_zero, List.foldl_nil, Nat.add_zero]
    congr 1
    funext x
    rw [if_neg (by omega)]
  | succ n ih =>
    rw [List.range_succ, List.foldl_append, ih]
    simp only [List.foldl_cons, List.foldl_nil, spill_body]
    congr 1
    funext x
    simp only [write]
    split_ifs <;> first | rfl | omega | (congr 1; omega)

theorem fill_loop_eq (addr : addr_t) (s : cache_wo T) (n : Nat) :
    (List.range n).foldl (fill_body addr) s
      = { s with _cache_mem := fun x =>
            if addr._addr_cache_first_of_line ≤ x ∧ x < addr._addr_cache_first_of_line + n
            then s._main_mem (addr._addr_main_first_of_line + (x - addr._addr_cache_first_of_line))
            else s._cache_mem x } := by
  induction n with
  | zero =>
    cases s
    simp only [List.range_zero, List.foldl_nil, Nat.add_zero]
    congr 1
    funext x
    rw [if_neg (by omega)]
  | succ n ih =>
    rw [List.range_succ, List.foldl_append, ih]
    simp only [List.foldl_cons, List.foldl_nil, fill_body]
    congr 1
    funext x
    simp only [write]
    split_ifs <;> first | rfl | omega | (congr 1; omega)

/-- Closed form of `spill`. -/
theorem spill_eq (c : Config) (s : cache_wo T) (addr : addr_t) :
    spill c s addr
      = { s with
          _main_mem := fun x =>
            if addr._addr_main_first_of_line ≤ x
                ∧ x < addr._addr_main_first_of_line + c.N_ENTRIES_PER_LINE
            then s._cache_mem (addr._addr_cache_first_of_line + (x - addr._addr_main_first_of_line))
            else s._main_mem x
          _dirty := write s._dirty addr._line false } := by
  simp only [spill, spill_loop_eq]

/-- Closed form of the tail of `fill`. -/
theorem fill_load_eq (c : Config) (s : cache_wo T) (addr : addr_t) :
    fill_load c s addr
      = { s with
          _cache_mem := fun x =>
            if addr._addr_cache_first_of_line ≤ x
                ∧ x < addr._addr_cache_first_of_line + c.N_ENTRIES_PER_LINE
            then s._main_mem (addr._addr_main_first_of_line + (x - addr._addr_cache_first_of_line))
            else s._cache_mem x
          _tag := write s._tag addr._line addr._tag
          _valid := write s._valid addr._line true
          _dirty := write s._dirty addr._line false } := by
  simp only [fill_load, fill_loop_eq]

theorem flush_loop_inv (c : Config) (h : c.WF) (s : cache_wo T) (n : Nat)
    (hn : n ≤ c.N_LINES) :
    FlushedUpTo c s ((List.range n).foldl (flush_body c) s) n := by
  induction n with
  | zero =>
    simp only [List.range_zero, List.foldl_nil]
    exact ⟨rfl, rfl, rfl, rfl, rfl, rfl, fun i => by simp, fun i hi => by omega, fun x _ => rfl⟩
  | succ n ih =>
    have I := ih (by omega)
    rw [List.range_succ, List.foldl_append]
    simp only [List.foldl_cons, List.foldl_nil]
    generalize (List.range n).foldl (flush_body c) s = r at I
    have hnl : n < 2 ^ c.LINE_SIZE := by rw [← N_LINES_eq]; omega
    have hE := N_ENTRIES_PER_LINE_eq c
    have hdn : r._dirty n = s._dirty n := by rw [I.dirty_eq n]; simp
    unfold flush_body
    rw [I.valid_eq, hdn, I.tag_eq]
    by_cases hvd : (s._valid n && s._dirty n) = true
    · rw [if_pos hvd, spill_eq]
      obtain ⟨bl, _, bc, bm⟩ := build_zero c h (s._tag n) n hnl
      simp only [Bool.and_eq_true] at hvd
      refine ⟨I.valid_eq, I.tag_eq, I.cache_eq, I.wr_addr_eq, I.wr_data_eq, I.port_eq, ?_, ?_, ?_⟩
      · intro i
        simp only [bl, write]
        by_cases hin : i = n
        · subst hin; simp [hvd.1]
        · rw [if_neg hin, I.dirty_eq i]
          have : i < n + 1 ↔ i < n := by omega
          simp only [this]
      · intro i hi hv hd off hoff
        simp only [bc, bm, I.cache_eq]
        by_cases hin : i = n
        · subst hin
          rw [if_pos (by omega)]
          congr 1; omega
        · have hil : i < 2 ^ c.LINE_SIZE := by omega
          rw [if_neg, I.written i (by omega) hv hd off hoff]
          intro hcon
          have hx : compose c (s._tag i) i 0 + off - compose c (s._tag n) n 0 < 2 ^ c.OFF_SIZE := by
            omega
          apply compose_disjoint c h (s._tag i) (s._tag n) i n off
            (compose c (s._tag i) i 0 + off - compose c (s._tag n) n 0) hil hnl hin (by omega) hx
          omega
      · intro x hx
        simp only [bm]
        rw [if_neg (hx n (by omega) hvd.1 hvd.2)]
        exact I.frame x (fun i hi => hx i (by omega))
    · rw [if_neg hvd]
      simp only [Bool.and_eq_true, not_and, Bool.not_eq_true] at hvd
      refine ⟨I.valid_eq, I.tag_eq, I.cache_eq, I.wr_addr_eq, I.wr_data_eq, I.port_eq, ?_, ?_, ?_⟩
      · intro i
        rw [I.dirty_eq i]
        by_cases hin : i = n
        · subst hin
          by_cases hv : s._valid i = true
          · simp [hv, hvd hv]
          · simp [hv]
        · have : i < n + 1 ↔ i < n := by omega
          simp only [this]
      · intro i hi hv hd off hoff
        by_cases hin : i = n
        · subst hin; rw [hvd hv] at hd; exact absurd hd (by decide)
        · exact I.written i (by omega) hv hd off hoff
      · intro x hx
        exact I.frame x (fun i hi => hx i (by omega))

/-- Effect of `flush` on a well-formed configuration. -/
theorem flush_spec (c : Config) (h : c.WF) (s : cache_wo T) :
    FlushedUpTo c s (flush c s) c.N_LINES :=
  flush_loop_inv c h s c.N_LINES (Nat.le_refl _)

/-! ## The flag invariant `dirty ⟹ valid`, line by line -/

theorem invalidate_loop_dirty (s : cache_wo T) (l : List Nat) :
    (l.foldl (fun st line => { st with _valid := write st._valid line false }) s)._dirty
      = s._dirty := by
  induction l generalizing s with
  | nil => rfl
  | cons a l ih => rw [List.foldl_cons, ih]

theorem invalidate_dirty (c : Config) (s : cache_wo T) :
    (invalidate c s)._dirty = s._dirty :=
  invalidate_loop_dirty s _

theorem invalidate_loop_valid (s : cache_wo T) (l : List Nat) (i : Nat) :
    (l.foldl (fun st line => { st with _valid := write st._valid line false }) s)._valid i
      = if i ∈ l then false else s._valid i := by
  induction l generalizing s with
  | nil => simp
  | cons a l ih =>
    rw [List.foldl_cons, ih]
    by_cases hi : i ∈ l
    · simp [hi]
    · by_cases hia : i = a
      · subst hia; simp [hi, write]
      · simp [hi, hia, write]

theorem invalidate_valid (c : Config) (s : cache_wo T) (i : Nat) (hi : i < c.N_LINES) :
    (invalidate c s)._valid i = false := by
  unfold invalidate
  rw [invalidate_loop_valid, if_pos (List.mem_range.mpr hi)]

theorem spill_keeps (c : Config) (s : cache_wo T) (addr : addr_t) (i : Nat)
    (h : DirtyImpValid s i) : DirtyImpValid (spill c s addr) i := by
  rw [spill_eq]
  unfold DirtyImpValid at *
  simp only [write]
  split_ifs
  · intro hf; exact absurd hf (by decide)
  · exact h

theorem fill_load_keeps (c : Config) (s : cache_wo T) (addr : addr_t) (i : Nat)
    (h : DirtyImpValid s i) : DirtyImpValid (fill_load c s addr) i := by
  rw [fill_load_eq]
  unfold DirtyImpValid at *
  simp only [write]
  split_ifs
  · intro hf; exact absurd hf (by decide)
  · exact h

theorem fill_keeps (c : Config) (s : cache_wo T) (addr : addr_t) (i : Nat)
    (h : DirtyImpValid s i) : DirtyImpValid (fill c s addr) i := by
  unfold fill
  apply fill_load_keeps
  split_ifs
  · exact spill_keeps c s _ i h
  · exact h

theorem fill_valid_line (c : Config) (s : cache_wo T) (addr : addr_t) :
    (fill c s addr)._valid addr._line = true := by
  unfold fill
  rw [fill_load_eq]
  simp [write]

theorem flush_keeps (c : Config) (s : cache_wo T) (i : Nat) (h : DirtyImpValid s i) :
    DirtyImpValid (flush c s) i := by
  unfold flush
  generalize List.range c.N_LINES = l
  induction l generalizing s with
  | nil => exact h
  | cons a l ih =>
    rw [List.foldl_cons]
    apply ih
    unfold flush_body
    split_ifs
    · exact spill_keeps c s _ i h
    · exact h

/-- One iteration of `OPERATE_LOOP` keeps `dirty[i] ⟹ valid[i]` for every line. -/
theorem operate_iter_keeps (c : Config) (s : cache_wo T) (p : Nat) (i : Nat)
    (h : DirtyImpValid s i) :
    match operate_iter c s p with
    | Outcome.blocked => True
    | Outcome.stopped s1 => DirtyImpValid s1 i
    | Outcome.serviced _ _ s1 _ => DirtyImpValid s1 i := by
  unfold operate_iter
  cases hq : s._wr_addr p with
  | nil => trivial
  | cons addr_main rest =>
    simp only [stream_dep.read_dep]
    by_cases hneg : addr_main < 0
    · rw [if_pos hneg]; exact h
    · rw [if_neg hneg]
      generalize hs1 : ({ s with _wr_addr := write s._wr_addr p rest } : cache_wo T) = s1
      have h1 : DirtyImpValid s1 i := by rw [← hs1]; exact h
      generalize ha : decompose c addr_main.toNat = addr
      by_cases hh : hit s1 addr = true
      · simp only [hh, Bool.not_true, Bool.false_eq_true, if_false]
        cases hd : s1._wr_data p with
        | nil => trivial
        | cons data drest =>
          simp only [stream_dep.read_dep]
          unfold DirtyImpValid at *
          simp only [write]
          split_ifs with hil
          · intro _
            subst hil
            simp only [hit, Bool.and_eq_true] at hh
            exact hh.1
          · exact h1
      · simp only [hh, Bool.not_false, if_true]
        have h2 := fill_keeps c s1 addr i h1
        have hv := fill_valid_line c s1 addr
        generalize fill c s1 addr = s2 at h2 hv
        cases hd : s2._wr_data p with
        | nil => trivial
        | cons data drest =>
          simp only [stream_dep.read_dep]
          unfold DirtyImpValid at *
          simp only [write]
          split_ifs with hil
          · intro _; subst hil; exact hv
          · exact h2

theorem operate_trace_keeps (c : Config) (i : Nat) (fuel : Nat) (s : cache_wo T) (p : Nat)
    (h : DirtyImpValid s i) :
    ∀ e ∈ operate_trace c fuel s p, DirtyImpValid e.2.2.2 i := by
  induction fuel generalizing s p with
  | zero => intro e he; simp [operate_trace] at he
  | succ n ih =>
    intro e he
    unfold operate_trace at he
    have hk := operate_iter_keeps c s p i h
    cases hit : operate_iter c s p with
    | blocked => rw [hit] at he; simp at he
    | stopped s1 => rw [hit] at he; simp at he
    | serviced a d s1 p1 =>
      rw [hit] at he hk
      simp only [List.mem_cons] at he
      rcases he with rfl | he
      · exact hk
      · exact ih s1 p1 hk e he

theorem operate_loop_keeps (c : Config) (i : Nat) (fuel : Nat) (s : cache_wo T) (p : Nat)
    (h : DirtyImpValid s i) (sp : cache_wo T) (hsp : operate_loop c fuel s p = some sp) :
    DirtyImpValid sp i := by
  induction fuel generalizing s p with
  | zero => simp [operate_loop] at hsp
  | succ n ih =>
    unfold operate_loop at hsp
    have hk := operate_iter_keeps c s p i h
    cases hit : operate_iter c s p with
    | blocked => rw [hit] at hsp; simp at hsp
    | stopped s1 =>
      rw [hit] at hsp hk
      simp only [Option.some.injEq] at hsp
      rw [← hsp]; exact hk
    | serviced a d s1 p1 =>
      rw [hit] at hsp hk
      exact ih s1 p1 hk hsp

end cache_wo

/-! ## Loops of `raw_cache` -/

namespace raw_cache

variable {T : Type} {N : Nat}

theorem copy_loop (g : Fin N → T) (l : List (Fin N)) (line : Fin N → T) (j : Fin N) :
    (l.foldl (fun ln off => Function.update ln off (g off)) line) j
      = if j ∈ l then g j else line j := by
  induction l generalizing line with
  | nil => simp
  | cons a l ih =>
    rw [List.foldl_cons, ih]
    by_cases hj : j ∈ l
    · simp [hj]
    · by_cases hja : j = a
      · subst hja; simp [hj]
      · simp [hj, hja]

theorem copy_loop_all (g : Fin N → T) (line : Fin N → T) :
    (List.finRange N).foldl (fun ln off => Function.update ln off (g off)) line = g := by
  funext j
  rw [copy_loop, if_pos (List.mem_finRange j)]

theorem set_line_loop_line (base : Nat) (line : Fin N → T) (l : List (Fin N))
    (st : (Nat → T) × (Fin N → T)) (j : Fin N) :
    (l.foldl (set_line_body base line) st).2 j = if j ∈ l then line j else st.2 j := by
  induction l generalizing st with
  | nil => simp
  | cons a l ih =>
    rw [List.foldl_cons, ih]
    by_cases hj : j ∈ l
    · simp [hj]
    · by_cases hja : j = a
      · subst hja; simp [hj, set_line_body]
      · simp [hj, hja, set_line_body]

theorem set_line_loop_frame (base : Nat) (line : Fin N → T) (l : List (Fin N))
    (st : (Nat → T) × (Fin N → T)) (x : Nat) (hx : ∀ off ∈ l, base + off.val ≠ x) :
    (l.foldl (set_line_body base line) st).1 x = st.1 x := by
  induction l generalizing st with
  | nil => rfl
  | cons a l ih =>
    rw [List.foldl_cons, ih _ (fun off ho => hx off (List.mem_cons_of_mem _ ho))]
    have := hx a (List.mem_cons_self _ _)
    simp only [set_line_body, write]
    rw [if_neg (fun e => this e.symm)]

theorem set_line_loop_mem (base : Nat) (line : Fin N → T) (l : List (Fin N))
    (st : (Nat → T) × (Fin N → T)) (off : Fin N) (ho : off ∈ l) :
    (l.foldl (set_line_body base line) st).1 (base + off.val) = line off := by
  induction l generalizing st with
  | nil => simp at ho
  | cons a l ih =>
    rw [List.foldl_cons]
    by_cases hl : off ∈ l
    · exact ih _ hl
    · have hoa : off = a := by
        rcases List.mem_cons.mp ho with e | e
        · exact e
        · exact absurd e hl
      subst hoa
      rw [set_line_loop_frame]
      · simp [set_line_body, write]
      · intro o2 ho2 e
        apply hl
        have : o2 = off := Fin.ext (by omega)
        rw [← this]; exact ho2

theorem decode_tag_lt (c : RawConfig) (a : Nat) :
    (addr_type.decode c a).m_tag < 2 ^ c.TAG_WIDTH := by
  have h1 : (addr_type.decode c a).m_tag < 2 ^ c.TAG_SIZE :=
    Nat.mod_lt _ (Nat.two_pow_pos _)
  have h2 : 2 ^ c.TAG_SIZE ≤ 2 ^ c.TAG_WIDTH := by
    apply Nat.pow_le_pow_right (by decide)
    unfold RawConfig.TAG_WIDTH
    split_ifs <;> omega
  omega

end raw_cache

/-! ## Service order of `OPERATE_LOOP` -/

namespace cache_wo

variable {T : Type}

theorem fill_wr_data (c : Config) (s : cache_wo T) (addr : addr_t) :
    (fill c s addr)._wr_data = s._wr_data := by
  unfold fill
  rw [fill_load_eq]
  split_ifs
  · rw [spill_eq]
  · rfl

theorem fill_wr_addr (c : Config) (s : cache_wo T) (addr : addr_t) :
    (fill c s addr)._wr_addr = s._wr_addr := by
  unfold fill
  rw [fill_load_eq]
  split_ifs
  · rw [spill_eq]
  · rfl

/-- What a serviced iteration has read from the streams. -/
theorem operate_iter_serviced_inv (c : Config) (s : cache_wo T) (p : Nat) (a : Int) (d : T)
    (s1 : cache_wo T) (p1 : Nat) (h : operate_iter c s p = Outcome.serviced a d s1 p1) :
    (∃ rest, s._wr_addr p = a :: rest ∧ s1._wr_addr = write s._wr_addr p rest)
    ∧ (∃ drest, s._wr_data p = d :: drest ∧ s1._wr_data = write s._wr_data p drest)
    ∧ p1 = (p + 1) % c.N_PORTS ∧ ¬ a < 0 := by
  unfold operate_iter at h
  cases hq : s._wr_addr p with
  | nil => rw [hq] at h; simp [stream_dep.read_dep] at h
  | cons a0 rest =>
    rw [hq] at h
    simp only [stream_dep.read_dep] at h
    by_cases hneg : a0 < 0
    · rw [if_pos hneg] at h; simp at h
    · rw [if_neg hneg] at h
      generalize hs1 : ({ s with _wr_addr := write s._wr_addr p rest } : cache_wo T) = t1 at h
      have hq1 : (if (!hit t1 (decompose c a0.toNat)) = true then fill c t1 (decompose c a0.toNat)
          else t1)._wr_data = s._wr_data := by
        split_ifs
        · rw [fill_wr_data, ← hs1]
        · rw [← hs1]
      have hq2 : (if (!hit t1 (decompose c a0.toNat)) = true then fill c t1 (decompose c a0.toNat)
          else t1)._wr_addr = write s._wr_addr p rest := by
        split_ifs
        · rw [fill_wr_addr, ← hs1]
        · rw [← hs1]
      generalize (if (!hit t1 (decompose c a0.toNat)) = true then fill c t1 (decompose c a0.toNat)
          else t1) = t2 at h hq1 hq2
      cases hd : t2._wr_data p with
      | nil => rw [hd] at h; simp [stream_dep.read_dep] at h
      | cons d0 drest =>
        rw [hd] at h
        simp only [stream_dep.read_dep, Outcome.serviced.injEq] at h
        obtain ⟨ha, hdd, hs, hp⟩ := h
        subst ha hdd
        refine ⟨⟨rest, rfl, ?_⟩, ⟨drest, ?_, ?_⟩, hp.symm, hneg⟩
        · rw [← hs]; exact hq2
        · rw [← hq1]; exact hd
        · rw [← hs, ← hq1]

theorem mod_shift_eq_iff (N p m : Nat) (hp : p < N) : (p + m) % N = p ↔ N ∣ m := by
  constructor
  · intro h
    have h1 : Nat.ModEq N (p + m) (p + 0) := by
      unfold Nat.ModEq
      rw [h, Nat.add_zero, Nat.mod_eq_of_lt hp]
    exact (Nat.modEq_zero_iff_dvd).mp (Nat.ModEq.add_left_cancel' p h1)
  · intro h
    obtain ⟨q, rfl⟩ := h
    rw [Nat.add_mul_mod_self_left, Nat.mod_eq_of_lt hp]

/-- Service order from an arbitrary current port: the `k`-th serviced request was read
from port `(p + k) % N_PORTS`, and is the element number `k / N_PORTS` of that port. -/
theorem operate_trace_order (c : Config) (fuel : Nat) (s : cache_wo T) (p : Nat)
    (hp : p < c.N_PORTS) (k : Nat) (e : Nat × Int × T × cache_wo T)
    (he : (operate_trace c fuel s p)[k]? = some e) :
    e.1 = (p + k) % c.N_PORTS
    ∧ (s._wr_addr ((p + k) % c.N_PORTS))[k / c.N_PORTS]? = some e.2.1
    ∧ (s._wr_data ((p + k) % c.N_PORTS))[k / c.N_PORTS]? = some e.2.2.1 := by
  induction fuel generalizing s p k with
  | zero => simp [operate_trace] at he
  | succ n ih =>
    unfold operate_trace at he
    cases hit : operate_iter c s p with
    | blocked => rw [hit] at he; simp at he
    | stopped s1 => rw [hit] at he; simp at he
    | serviced a d s1 p1 =>
      rw [hit] at he
      simp only at he
      obtain ⟨⟨rest, hq, hq1⟩, ⟨drest, hd, hd1⟩, hp1, _⟩ :=
        operate_iter_serviced_inv c s p a d s1 p1 hit
      have hNpos : 0 < c.N_PORTS := by omega
      cases k with
      | zero =>
        simp only [List.getElem?_cons_zero, Option.some.injEq] at he
        subst he
        simp only [Nat.add_zero, Nat.mod_eq_of_lt hp, Nat.zero_div, hq, hd,
          List.getElem?_cons_zero, and_self]
      | succ k =>
        simp only [List.getElem?_cons_succ] at he
        have hp1lt : p1 < c.N_PORTS := by rw [hp1]; exact Nat.mod_lt _ hNpos
        obtain ⟨e1, e2, e3⟩ := ih s1 p1 hp1lt k he
        have hport : (p1 + k) % c.N_PORTS = (p + (k + 1)) % c.N_PORTS := by
          rw [hp1, Nat.mod_add_mod]; congr 1; omega
        rw [hport] at e1 e2 e3
        refine ⟨e1, ?_, ?_⟩
        · by_cases hsame : (p + (k + 1)) % c.N_PORTS = p
          · have hdvd := (mod_shift_eq_iff c.N_PORTS p (k + 1) hp).mp hsame
            rw [Nat.succ_div, if_pos hdvd, hsame, hq, List.getElem?_cons_succ]
            rw [hq1, hsame, write_same] at e2
            exact e2
          · have hdvd : ¬ c.N_PORTS ∣ k + 1 :=
              fun hd => hsame ((mod_shift_eq_iff c.N_PORTS p (k + 1) hp).mpr hd)
            rw [Nat.succ_div, if_neg hdvd, Nat.add_zero]
            rw [hq1, write_other _ _ _ _ hsame] at e2
            exact e2
        · by_cases hsame : (p + (k + 1)) % c.N_PORTS = p
          · have hdvd := (mod_shift_eq_iff c.N_PORTS p (k + 1) hp).mp hsame
            rw [Nat.succ_div, if_pos hdvd, hsame, hd, List.getElem?_cons_succ]
            rw [hd1, hsame, write_same] at e3
            exact e3
          · have hdvd : ¬ c.N_PORTS ∣ k + 1 :=
              fun hd => hsame ((mod_shift_eq_iff c.N_PORTS p (k + 1) hp).mpr hd)
            rw [Nat.succ_div, if_neg hdvd, Nat.add_zero]
            rw [hd1, write_other _ _ _ _ hsame] at e3
            exact e3

end cache_wo

namespace cache_wo

variable {T : Type}

theorem invalidate_loop_queues (s : cache_wo T) (l : List Nat) :
    (l.foldl (fun st line => { st with _valid := write st._valid line false }) s)._wr_addr
        = s._wr_addr
    ∧ (l.foldl (fun st line => { st with _valid := write st._valid line false }) s)._wr_data
        = s._wr_data := by
  induction l generalizing s with
  | nil => exact ⟨rfl, rfl⟩
  | cons a l ih => rw [List.foldl_cons]; exact ih _

theorem invalidate_wr_addr (c : Config) (s : cache_wo T) :
    (invalidate c s)._wr_addr = s._wr_addr :=
  (invalidate_loop_queues s _).1

theorem invalidate_wr_data (c : Config) (s : cache_wo T) :
    (invalidate c s)._wr_data = s._wr_data :=
  (invalidate_loop_queues s _).2

end cache_wo

/-! ## The iteration bound of `operate` is never the reason for `none` -/

namespace cache_wo

variable {T : Type}

theorem queued_pop {α : Type} (f : Nat → List α) (p : Nat) (a : α) (rest : List α)
    (hf : f p = a :: rest) (N : Nat) :
    ((List.range N).map (fun q => (write f p rest q).length)).sum + (if p < N then 1 else 0)
      = ((List.range N).map (fun q => (f q).length)).sum := by
  induction N with
  | zero => simp
  | succ n ih =>
    simp only [List.range_succ, List.map_append, List.sum_append, List.map_cons, List.map_nil,
      List.sum_cons, List.sum_nil, Nat.add_zero]
    by_cases hpn : p = n
    · subst hpn
      simp only [lt_self_iff_false, if_false, Nat.add_zero] at ih
      rw [write_same, hf, ← ih]
      simp only [List.length_cons, lt_add_iff_pos_right, Nat.lt_one_iff, pos_of_gt, if_true]
      omega
    · rw [write_other _ _ _ _ (fun e => hpn e.symm), ← ih]
      by_cases hlt : p < n
      · have : p < n + 1 := by omega
        simp only [hlt, this, if_true]; omega
      · have : ¬ p < n + 1 := by omega
        simp only [hlt, this, if_false]; omega

/-- A serviced iteration consumes one queued address. -/
theorem operate_fuel_serviced (c : Config) (s : cache_wo T) (p : Nat) (hp : p < c.N_PORTS)
    (a : Int) (d : T) (s1 : cache_wo T) (p1 : Nat)
    (h : operate_iter c s p = Outcome.serviced a d s1 p1) :
    operate_fuel c s1 + 1 = operate_fuel c s := by
  obtain ⟨⟨rest, hq, hq1⟩, _, _, _⟩ := operate_iter_serviced_inv c s p a d s1 p1 h
  have := queued_pop s._wr_addr p a rest hq c.N_PORTS
  rw [if_pos hp] at this
  unfold operate_fuel
  rw [hq1]
  omega

/-- With at least `operate_fuel` iterations allowed, the result of `OPERATE_LOOP` does
not depend on the bound: `none` then means that a stream read blocks. -/
theorem operate_loop_fuel (c : Config) (fuel fuel2 : Nat) (s : cache_wo T) (p : Nat)
    (hp : p < c.N_PORTS) (h1 : operate_fuel c s ≤ fuel) (h2 : operate_fuel c s ≤ fuel2) :
    operate_loop c fuel s p = operate_loop c fuel2 s p := by
  induction fuel generalizing fuel2 s p with
  | zero => unfold operate_fuel at h1; omega
  | succ n ih =>
    cases fuel2 with
    | zero => unfold operate_fuel at h2; omega
    | succ m =>
      unfold operate_loop
      cases hit : operate_iter c s p with
      | blocked => rfl
      | stopped s1 => rfl
      | serviced a d s1 p1 =>
        simp only
        have hf := operate_fuel_serviced c s p hp a d s1 p1 hit
        obtain ⟨_, _, hp1, _⟩ := operate_iter_serviced_inv c s p a d s1 p1 hit
        have hp1lt : p1 < c.N_PORTS := by rw [hp1]; exact Nat.mod_lt _ (by omega)
        exact ih m s1 p1 hp1lt (by omega) (by omega)

end cache_wo

/-! ## The address stream holds `ap_int<ADDR_SIZE>` -/

/-- An address below `2 ^ (w - 1)` is queued unchanged. -/
theorem toSigned_low (w a : Nat) (h : 2 * a < 2 ^ w) : toSigned w (a : Int) = (a : Int) := by
  have hlt : a < 2 ^ w := by omega
  have hm : (a : Int) % ((2 ^ w : Nat) : Int) = (a : Int) := by
    rw [← Int.natCast_mod, Nat.mod_eq_of_lt hlt]
  simp only [toSigned, hm]
  rw [if_pos]
  exact_mod_cast h

/-- An `ADDR_SIZE`-bit address with its top bit set is queued as a negative value,
which `OPERATE_LOOP` takes for the sentinel. -/
theorem toSigned_high (w a : Nat) (h1 : 2 ^ w ≤ 2 * a) (h2 : a < 2 ^ w) :
    toSigned w (a : Int) < 0 := by
  have hm : (a : Int) % ((2 ^ w : Nat) : Int) = (a : Int) := by
    rw [← Int.natCast_mod, Nat.mod_eq_of_lt h2]
  simp only [toSigned, hm]
  rw [if_neg]
  · have : (a : Int) < ((2 ^ w : Nat) : Int) := by exact_mod_cast h2
    omega
  · have : ((2 ^ w : Nat) : Int) ≤ 2 * (a : Int) := by exact_mod_cast h1
    omega

/-! ## Draining the streams -/

namespace cache_wo

variable {T : Type}

/-- A request at the head of both streams of the current port is serviced. -/
theorem operate_iter_serviced (c : Config) (s : cache_wo T) (p : Nat) (a : Int)
    (rest : List Int) (d : T) (drest : List T) (hq : s._wr_addr p = a :: rest)
    (hd : s._wr_data p = d :: drest) (hnn : ¬ a < 0) :
    ∃ s1, operate_iter c s p = Outcome.serviced a d s1 ((p + 1) % c.N_PORTS)
      ∧ s1._wr_addr = write s._wr_addr p rest ∧ s1._wr_data = write s._wr_data p drest := by
  unfold operate_iter
  rw [hq]
  simp only [stream_dep.read_dep, if_neg hnn]
  generalize hs1 : ({ s with _wr_addr := write s._wr_addr p rest } : cache_wo T) = t1
  have hq1 : (if (!hit t1 (decompose c a.toNat)) = true then fill c t1 (decompose c a.toNat)
      else t1)._wr_data = s._wr_data := by
    split_ifs
    · rw [fill_wr_data, ← hs1]
    · rw [← hs1]
  have hq2 : (if (!hit t1 (decompose c a.toNat)) = true then fill c t1 (decompose c a.toNat)
      else t1)._wr_addr = write s._wr_addr p rest := by
    split_ifs
    · rw [fill_wr_addr, ← hs1]
    · rw [← hs1]
  generalize (if (!hit t1 (decompose c a.toNat)) = true then fill c t1 (decompose c a.toNat)
      else t1) = t2 at hq1 hq2
  have hd2 : t2._wr_data p = d :: drest := by rw [hq1]; exact hd
  rw [hd2]
  simp only [stream_dep.read_dep]
  refine ⟨_, rfl, hq2, ?_⟩
  simp only [hq1]

/-- Requests with non-negative queued addresses are serviced one by one, in the order
in which they were dealt, and then the sentinel is popped. -/
theorem operate_drains (c : Config) (l : List (Int × T)) (s : cache_wo T) (p : Nat)
    (hp : p < c.N_PORTS) (hl : ∀ r ∈ l, ¬ r.1 < 0) (hs : Holds c s p l) (fuel : Nat)
    (hf : l.length < fuel) :
    (∃ sp, operate_loop c fuel s p = some sp)
    ∧ (operate_trace c fuel s p).map (fun e => (e.2.1, e.2.2.1)) = l := by
  induction l generalizing s p fuel with
  | nil =>
    cases fuel with
    | zero => simp at hf
    | succ n =>
      have hq : s._wr_addr p = [-1] := by
        have := (hs p hp).1
        simpa [dealt] using this
      have hit : operate_iter c s p
          = Outcome.stopped { s with _wr_addr := write s._wr_addr p [] } := by
        unfold operate_iter
        rw [hq]
        simp [stream_dep.read_dep]
      constructor
      · exact ⟨_, by unfold operate_loop; rw [hit]⟩
      · unfold operate_trace; rw [hit]; rfl
  | cons r l ih =>
    cases fuel with
    | zero => simp at hf
    | succ n =>
      have hNpos : 0 < c.N_PORTS := by omega
      have hq : s._wr_addr p
          = r.1 :: ((dealt c.N_PORTS ((p + 1) % c.N_PORTS) l p).map (fun r => r.1) ++ [-1]) := by
        have := (hs p hp).1
        simpa [dealt] using this
      have hd : s._wr_data p
          = r.2 :: (dealt c.N_PORTS ((p + 1) % c.N_PORTS) l p).map (fun r => r.2) := by
        have := (hs p hp).2
        simpa [dealt] using this
      obtain ⟨s1, hit, ha1, hd1⟩ := operate_iter_serviced c s p r.1 _ r.2 _ hq hd
        (hl r (List.mem_cons_self _ _))
      have hs1 : Holds c s1 ((p + 1) % c.N_PORTS) l := by
        intro q hqN
        rw [ha1, hd1]
        by_cases hqp : q = p
        · subst hqp
          simp only [write_same, and_self]
        · rw [write_other _ _ _ _ hqp, write_other _ _ _ _ hqp]
          have hpq : ¬ p = q := fun e => hqp e.symm
          have := hs q hqN
          simpa [dealt, hpq] using this
      have hrec := ih s1 ((p + 1) % c.N_PORTS) (Nat.mod_lt _ hNpos)
        (fun r0 hr0 => hl r0 (List.mem_cons_of_mem _ hr0)) hs1 n
        (by simp only [List.length_cons] at hf; omega)
      constructor
      · unfold operate_loop; rw [hit]; exact hrec.1
      · unfold operate_trace; rw [hit]
        simp only [List.map_cons, hrec.2]

end cache_wo

/-! ## The producer side: `operator[]`, `set`, `stop_operation` -/

theorem toUnsigned_low (w : Nat) (a : Int) (h0 : 0 ≤ a) (h1 : a < ((2 ^ w : Nat) : Int)) :
    ((toUnsigned w a : Nat) : Int) = a := by
  unfold toUnsigned
  rw [Int.emod_eq_of_lt h0 h1]
  exact Int.toNat_of_nonneg h0

/-- A non-negative address below `2 ^ (ADDR_SIZE - 1)` is queued unchanged by
`operator[]` and `set`. -/
theorem queued_low (w : Nat) (a : Int) (h0 : 0 ≤ a) (h1 : 2 * a < ((2 ^ w : Nat) : Int)) :
    toSigned w ((toUnsigned w a : Nat) : Int) = a := by
  have hlt : a < ((2 ^ w : Nat) : Int) := by omega
  have hu := toUnsigned_low w a h0 hlt
  have h2 : 2 * toUnsigned w a < 2 ^ w := by
    have : (2 : Int) * ((toUnsigned w a : Nat) : Int) < ((2 ^ w : Nat) : Int) := by
      rw [hu]; exact h1
    exact_mod_cast this
  rw [toSigned_low w _ h2, hu]

theorem sentinel_value (w : Nat) (hw : 1 ≤ w) : toSigned w (-1) = -1 := by
  have h2 : 2 ≤ 2 ^ w := by
    calc 2 = 2 ^ 1 := by norm_num
      _ ≤ 2 ^ w := Nat.pow_le_pow_right (by decide) hw
  have hpos : (2 : Int) ≤ ((2 ^ w : Nat) : Int) := by exact_mod_cast h2
  have hm : (-1 : Int) % ((2 ^ w : Nat) : Int) = ((2 ^ w : Nat) : Int) - 1 := by
    rw [← Int.add_emod_self, Int.emod_eq_of_lt (by omega) (by omega)]
    omega
  simp only [toSigned, hm]
  rw [if_neg (by omega)]
  omega

namespace cache_wo

variable {T : Type}

/-- The streams after a sequence of stores issued with the producer counter at `p`. -/
theorem submit_streams (c : Config) (l : List (Int × T))
    (s : cache_wo T) :
    (∀ q, (submit c s l)._wr_addr q = s._wr_addr q
        ++ (dealt c.N_PORTS s.set_curr_port
              (l.map (fun r => (toSigned c.ADDR_SIZE ((toUnsigned c.ADDR_SIZE r.1 : Nat) : Int),
                r.2))) q).map (fun r => r.1))
    ∧ (∀ q, (submit c s l)._wr_data q = s._wr_data q
        ++ (dealt c.N_PORTS s.set_curr_port
              (l.map (fun r => (toSigned c.ADDR_SIZE ((toUnsigned c.ADDR_SIZE r.1 : Nat) : Int),
                r.2))) q).map (fun r => r.2)) := by
  induction l generalizing s with
  | nil => simp [submit, dealt]
  | cons r l ih =>
    have hstep : submit c s (r :: l) = submit c (store c s r.1 r.2) l := rfl
    rw [hstep]
    obtain ⟨ha, hd⟩ := ih (store c s r.1 r.2)
    have hport : (store c s r.1 r.2).set_curr_port = (s.set_curr_port + 1) % c.N_PORTS := rfl
    constructor
    · intro q
      rw [ha q, hport]
      by_cases hq : s.set_curr_port = q
      · subst hq
        simp [store, set, dealt, write, stream_dep.write_dep]
      · have hq2 : ¬ q = s.set_curr_port := fun e => hq e.symm
        simp [store, set, dealt, write, stream_dep.write_dep, hq, hq2]
    · intro q
      rw [hd q, hport]
      by_cases hq : s.set_curr_port = q
      · subst hq
        simp [store, set, dealt, write, stream_dep.write_dep]
      · have hq2 : ¬ q = s.set_curr_port := fun e => hq e.symm
        simp [store, set, dealt, write, stream_dep.write_dep, hq, hq2]

theorem stop_operation_loop (x : Int) (s : cache_wo T) (n : Nat) :
    ((List.range n).foldl
        (fun st port =>
          { st with _wr_addr := write st._wr_addr port ((st._wr_addr port).write_dep x) })
        s)._wr_data = s._wr_data
    ∧ ∀ q, ((List.range n).foldl
        (fun st port =>
          { st with _wr_addr := write st._wr_addr port ((st._wr_addr port).write_dep x) })
        s)._wr_addr q = if q < n then s._wr_addr q ++ [x] else s._wr_addr q := by
  induction n with
  | zero => simp
  | succ n ih =>
    rw [List.range_succ, List.foldl_append]
    simp only [List.foldl_cons, List.foldl_nil]
    refine ⟨ih.1, fun q => ?_⟩
    by_cases hq : q = n
    · subst hq
      rw [write_same, ih.2 q]
      simp [stream_dep.write_dep]
    · rw [write_other _ _ _ _ hq, ih.2 q]
      have : q < n + 1 ↔ q < n := by omega
      simp only [this]

/-- After the stores `l` and `stop_operation`, the streams hold `l` dealt from port 0
followed by the sentinels, provided every address is non-negative and below
`2 ^ (ADDR_SIZE - 1)`. -/
theorem stores_hold (c : Config) (hA : 1 ≤ c.ADDR_SIZE)
    (s0 : cache_wo T) (l : List (Int × T))
    (hl : ∀ r ∈ l, 0 ≤ r.1 ∧ 2 * r.1 < ((2 ^ c.ADDR_SIZE : Nat) : Int)) :
    Holds c (stop_operation c (submit c (idle s0) l)) 0 l := by
  have hconv : l.map (fun r => (toSigned c.ADDR_SIZE ((toUnsigned c.ADDR_SIZE r.1 : Nat) : Int),
      r.2)) = l := by
    conv => rhs; rw [← List.map_id l]
    apply List.map_congr_left
    intro r hr
    obtain ⟨h0, h1⟩ := hl r hr
    simp only [id, queued_low c.ADDR_SIZE r.1 h0 h1]
  obtain ⟨ha, hd⟩ := submit_streams c l (idle s0)
  rw [hconv] at ha hd
  obtain ⟨sd, sa⟩ := stop_operation_loop (toSigned c.ADDR_SIZE (-1)) (submit c (idle s0) l)
    c.N_PORTS
  intro q hq
  unfold stop_operation
  rw [sd, sa q, if_pos hq, ha q, hd q, sentinel_value c.ADDR_SIZE hA]
  simp [idle]

theorem operate_trace_fuel (c : Config) (fuel fuel2 : Nat) (s : cache_wo T) (p : Nat)
    (hp : p < c.N_PORTS) (h1 : operate_fuel c s ≤ fuel) (h2 : operate_fuel c s ≤ fuel2) :
    operate_trace c fuel s p = operate_trace c fuel2 s p := by
  induction fuel generalizing fuel2 s p with
  | zero => unfold operate_fuel at h1; omega
  | succ n ih =>
    cases fuel2 with
    | zero => unfold operate_fuel at h2; omega
    | succ m =>
      unfold operate_trace
      cases hit : operate_iter c s p with
      | blocked => rfl
      | stopped s1 => rfl
      | serviced a d s1 p1 =>
        simp only
        have hf := operate_fuel_serviced c s p hp a d s1 p1 hit
        obtain ⟨_, _, hp1, _⟩ := operate_iter_serviced_inv c s p a d s1 p1 hit
        have hp1lt : p1 < c.N_PORTS := by rw [hp1]; exact Nat.mod_lt _ (by omega)
        rw [ih m s1 p1 hp1lt (by omega) (by omega)]

theorem invalidate_holds (c : Config) (s : cache_wo T) (p : Nat) (l : List (Int × T))
    (h : Holds c s p l) : Holds c (invalidate c s) p l := by
  intro q hq
  rw [invalidate_wr_addr, invalidate_wr_data]
  exact h q hq

/-- Shutdown drains every submitted write whose address is non-negative and below
`2 ^ (ADDR_SIZE - 1)`: `operate` services exactly the submitted writes, in submission
order, then pops a sentinel, flushes and returns. -/
theorem stores_drained (c : Config) (hN : 1 ≤ c.N_PORTS) (hA : 1 ≤ c.ADDR_SIZE)
    (s0 : cache_wo T) (l : List (Int × T))
    (hl : ∀ r ∈ l, 0 ≤ r.1 ∧ 2 * r.1 < ((2 ^ c.ADDR_SIZE : Nat) : Int)) :
    (∃ sf, operate c (stop_operation c (submit c (idle s0) l)) = some sf)
    ∧ (operate_trace c
          (operate_fuel c (invalidate c (stop_operation c (submit c (idle s0) l))))
          (invalidate c (stop_operation c (submit c (idle s0) l))) 0).map
        (fun e => (e.2.1, e.2.2.1)) = l := by
  have hH := invalidate_holds c _ 0 l (stores_hold c hA s0 l hl)
  simp only [operate]
  generalize invalidate c (stop_operation c (submit c (idle s0) l)) = si at hH
  have hnn : ∀ r ∈ l, ¬ r.1 < 0 := fun r hr => by have := (hl r hr).1; omega
  obtain ⟨⟨sp, hsp⟩, htr⟩ := operate_drains c l si 0 (by omega) hnn hH
    (operate_fuel c si + l.length + 1) (by omega)
  have e1 := operate_loop_fuel c (operate_fuel c si) (operate_fuel c si + l.length + 1) si 0
    (by omega) (Nat.le_refl _) (by omega)
  have e2 := operate_trace_fuel c (operate_fuel c si) (operate_fuel c si + l.length + 1) si 0
    (by omega) (Nat.le_refl _) (by omega)
  constructor
  · exact ⟨flush c sp, by rw [e1, hsp]; rfl⟩
  · rw [e2]; exact htr

end cache_wo

/-! ## Evaluation of the scenario configuration -/

theorem write_apply {α : Type} (a : Nat → α) (i j : Nat) (v : α) :
    write a i v j = if j = i then v else a j := rfl

theorem range4 : List.range 4 = [0, 1, 2, 3] := by decide

theorem range2 : List.range 2 = [0, 1] := by decide

theorem range1 : List.range 1 = [0] := by decide

theorem cfg8_lines : cfg8.N_LINES = 4 := by decide

theorem cfg8_entries : cfg8.N_ENTRIES_PER_LINE = 2 := by decide

theorem cfg8_ports : cfg8.N_PORTS = 1 := rfl

theorem dec0 : decompose cfg8 (Int.toNat 0) = ⟨0, 0, 0, 0, 0, 0, 0⟩ := by decide

theorem dec1 : decompose cfg8 (Int.toNat 1) = ⟨1, 0, 0, 1, 1, 0, 0⟩ := by decide

theorem dec8 : decompose cfg8 (Int.toNat 8) = ⟨8, 1, 0, 0, 0, 0, 8⟩ := by decide

theorem dec9 : decompose cfg8 (Int.toNat 9) = ⟨9, 1, 0, 1, 1, 0, 8⟩ := by decide

theorem dec16 : decompose cfg8 (Int.toNat 16) = ⟨16, 2, 0, 0, 0, 0, 16⟩ := by decide

theorem dec17 : decompose cfg8 (Int.toNat 17) = ⟨17, 2, 0, 1, 1, 0, 16⟩ := by decide

theorem bld0 : build cfg8 0 0 0 = ⟨0, 0, 0, 0, 0, 0, 0⟩ := by decide

theorem bld1 : build cfg8 1 0 0 = ⟨8, 1, 0, 0, 0, 0, 8⟩ := by decide

theorem bld2 : build cfg8 2 0 0 = ⟨16, 2, 0, 0, 0, 0, 16⟩ := by decide

theorem conv8 :
    toSigned 8 ((toUnsigned 8 0 : Nat) : Int) = 0 ∧ toSigned 8 ((toUnsigned 8 1 : Nat) : Int) = 1
    ∧ toSigned 8 ((toUnsigned 8 8 : Nat) : Int) = 8 ∧ toSigned 8 ((toUnsigned 8 9 : Nat) : Int) = 9
    ∧ toSigned 8 ((toUnsigned 8 16 : Nat) : Int) = 16
    ∧ toSigned 8 ((toUnsigned 8 17 : Nat) : Int) = 17
    ∧ toSigned 8 (-1) = -1 := by decide

/-- The streams built by the eight stores and `stop_operation` of the scenario. -/
theorem scenario_eq {T : Type} (s0 : cache_wo T) (v1 v2 v3 v4 v5 v6 v7 v8 : T) :
    scenario s0 v1 v2 v3 v4 v5 v6 v7 v8
      = { s0 with
          _wr_addr := fun p => if p = 0 then [0, 1, 8, 9, 16, 17, 0, 1, -1] else []
          _wr_data := fun p => if p = 0 then [v1, v2, v3, v4, v5, v6, v7, v8] else []
          set_curr_port := 0 } := by
  obtain ⟨c0, c1, c8, c9, c16, c17, cm⟩ := conv8
  simp only [scenario, cache_wo.store, cache_wo.set, cache_wo.stop_operation, idle, cfg8,
    stream_dep.write_dep,
    List.range_succ, List.range_zero, List.nil_append, List.foldl_cons, List.foldl_nil,
    write, if_true, Nat.zero_add, Nat.mod_one, c0, c1, c8, c9, c16, c17, cm, List.cons_append]
  congr 1
  · funext p; by_cases hp : p = 0 <;> simp [write, hp]
  · funext p; by_cases hp : p = 0 <;> simp [write, hp]

/-- The state of the scenario when `OPERATE_LOOP` has popped the sentinel. -/
theorem scenario_loop {T : Type} (s0 : cache_wo T) (v1 v2 v3 v4 v5 v6 v7 v8 : T) :
    ∃ sp, cache_wo.operate_loop cfg8
        (cache_wo.operate_fuel cfg8 (cache_wo.invalidate cfg8 (scenario s0 v1 v2 v3 v4 v5 v6 v7 v8)))
        (cache_wo.invalidate cfg8 (scenario s0 v1 v2 v3 v4 v5 v6 v7 v8)) 0 = some sp
      ∧ sp._valid 0 = true ∧ sp._valid 1 = false ∧ sp._valid 2 = false ∧ sp._valid 3 = false
      ∧ sp._dirty 0 = true ∧ sp._tag 0 = 0
      ∧ sp._cache_mem 0 = v7 ∧ sp._cache_mem 1 = v8
      ∧ sp._main_mem = write (write (write (write (write (write s0._main_mem 0 v1) 1 v2) 8 v3)
          9 v4) 16 v5) 17 v6 := by
  rw [scenario_eq]
  simp only [cache_wo.operate_fuel, cache_wo.invalidate, cfg8_lines, range4,
    List.foldl_cons, List.foldl_nil, cfg8_ports, range1,
    List.map_cons, List.map_nil, if_true, List.length_cons, List.length_nil,
    List.sum_cons, List.sum_nil,
    cache_wo.operate_loop, cache_wo.operate_iter, stream_dep.read_dep, write_apply, dec0, dec1, dec8, dec9,
    dec16, dec17, cache_wo.hit, cache_wo.fill, cache_wo.fill_load, cache_wo.spill,
    cache_wo.fill_body, cache_wo.spill_body, bld0, bld1, bld2, cfg8_entries, range2,
    OfNat.ofNat_ne_zero, Nat.zero_add, Nat.add_zero, Bool.false_and, Bool.true_and,
    Bool.not_false, Bool.not_true, lt_self_iff_false, if_false, OfNat.zero_ne_ofNat,
    Nat.mod_one, Nat.reduceEqDiff, Nat.reduceAdd, Int.reduceLT, Int.reduceNeg,
    beq_self_eq_true, Nat.reduceBEq, Bool.false_eq_true, Nat.reduceBNe, reduceIte]
  refine ⟨_, rfl, ?_⟩
  simp only [write_apply, if_true, Nat.reduceEqDiff, OfNat.ofNat_ne_zero, OfNat.zero_ne_ofNat,
    if_false, reduceIte, and_self]

/-- The fills of the scenario: line, installed tag, tag spilled first. -/
theorem scenario_fills {T : Type} (s0 : cache_wo T) (v1 v2 v3 v4 v5 v6 v7 v8 : T) :
    cache_wo.operate_fills cfg8
        (cache_wo.operate_fuel cfg8 (cache_wo.invalidate cfg8 (scenario s0 v1 v2 v3 v4 v5 v6 v7 v8)))
        (cache_wo.invalidate cfg8 (scenario s0 v1 v2 v3 v4 v5 v6 v7 v8)) 0
      = [(0, 0, none), (0, 1, some 0), (0, 2, some 1), (0, 0, some 2)] := by
  rw [scenario_eq]
  simp only [cache_wo.operate_fuel, cache_wo.invalidate, cfg8_lines, range4,
    List.foldl_cons, List.foldl_nil, cfg8_ports, range1,
    List.map_cons, List.map_nil, if_true, List.length_cons, List.length_nil,
    List.sum_cons, List.sum_nil,
    cache_wo.operate_fills, cache_wo.operate_iter, stream_dep.read_dep, write_apply, dec0, dec1, dec8, dec9,
    dec16, dec17, cache_wo.hit, cache_wo.fill, cache_wo.fill_load, cache_wo.spill,
    cache_wo.fill_body, cache_wo.spill_body, bld0, bld1, bld2, cfg8_entries, range2,
    OfNat.ofNat_ne_zero, Nat.zero_add, Nat.add_zero, Bool.false_and, Bool.true_and,
    Bool.not_false, Bool.not_true, lt_self_iff_false, if_false, OfNat.zero_ne_ofNat,
    Nat.mod_one, Nat.reduceEqDiff, Nat.reduceAdd, Int.reduceLT, Int.reduceNeg,
    beq_self_eq_true, Nat.reduceBEq, Bool.false_eq_true, Nat.reduceBNe, reduceIte,
    List.nil_append, List.cons_append, List.append_nil]

/-- The serviced requests of the scenario, each with `tag[0]` and the six memory words
of the three lines right after the request. -/
theorem scenario_trace {T : Type} (s0 : cache_wo T) (v1 v2 v3 v4 v5 v6 v7 v8 : T) :
    (cache_wo.operate_trace cfg8
        (cache_wo.operate_fuel cfg8 (cache_wo.invalidate cfg8 (scenario s0 v1 v2 v3 v4 v5 v6 v7 v8)))
        (cache_wo.invalidate cfg8 (scenario s0 v1 v2 v3 v4 v5 v6 v7 v8)) 0).map
      (fun e => (e.2.1, e.2.2.2._tag 0,
        [e.2.2.2._main_mem 0, e.2.2.2._main_mem 1, e.2.2.2._main_mem 8, e.2.2.2._main_mem 9,
         e.2.2.2._main_mem 16, e.2.2.2._main_mem 17]))
      = [(0, 0, [s0._main_mem 0, s0._main_mem 1, s0._main_mem 8, s0._main_mem 9,
                 s0._main_mem 16, s0._main_mem 17]),
         (1, 0, [s0._main_mem 0, s0._main_mem 1, s0._main_mem 8, s0._main_mem 9,
                 s0._main_mem 16, s0._main_mem 17]),
         (8, 1, [v1, v2, s0._main_mem 8, s0._main_mem 9, s0._main_mem 16, s0._main_mem 17]),
         (9, 1, [v1, v2, s0._main_mem 8, s0._main_mem 9, s0._main_mem 16, s0._main_mem 17]),
         (16, 2, [v1, v2, v3, v4, s0._main_mem 16, s0._main_mem 17]),
         (17, 2, [v1, v2, v3, v4, s0._main_mem 16, s0._main_mem 17]),
         (0, 0, [v1, v2, v3, v4, v5, v6]),
         (1, 0, [v1, v2, v3, v4, v5, v6])] := by
  rw [scenario_eq]
  simp only [cache_wo.operate_fuel, cache_wo.invalidate, cfg8_lines, range4,
    List.foldl_cons, List.foldl_nil, cfg8_ports, range1,
    List.map_cons, List.map_nil, if_true, List.length_cons, List.length_nil,
    List.sum_cons, List.sum_nil,
    cache_wo.operate_trace, cache_wo.operate_iter, stream_dep.read_dep, write_apply, dec0, dec1, dec8, dec9,
    dec16, dec17, cache_wo.hit, cache_wo.fill, cache_wo.fill_load, cache_wo.spill,
    cache_wo.fill_body, cache_wo.spill_body, bld0, bld1, bld2, cfg8_entries, range2,
    OfNat.ofNat_ne_zero, Nat.zero_add, Nat.add_zero, Bool.false_and, Bool.true_and,
    Bool.not_false, Bool.not_true, lt_self_iff_false, if_false, OfNat.zero_ne_ofNat,
    Nat.mod_one, Nat.reduceEqDiff, Nat.reduceAdd, Int.reduceLT, Int.reduceNeg,
    beq_self_eq_true, Nat.reduceBEq, Bool.false_eq_true, Nat.reduceBNe, reduceIte]

/-- The memory left by `flush` in the scenario. -/
theorem scenario_flush {T : Type} (sp : cache_wo T)
    (h0 : sp._valid 0 = true) (h1 : sp._valid 1 = false) (h2 : sp._valid 2 = false)
    (h3 : sp._valid 3 = false) (hd : sp._dirty 0 = true) (ht : sp._tag 0 = 0) :
    (cache_wo.flush cfg8 sp)._main_mem
      = write (write sp._main_mem 0 (sp._cache_mem 0)) 1 (sp._cache_mem 1) := by
  simp only [cache_wo.flush, cache_wo.flush_body, cfg8_lines, range4, List.foldl_cons,
    List.foldl_nil, h0, hd, ht, Bool.and_self, if_true, bld0, cache_wo.spill,
    cache_wo.spill_body, cfg8_entries, range2, Nat.zero_add, Nat.add_zero,
    h1, h2, h3, Bool.false_and, Bool.false_eq_true, if_false]

/-! ## `compose` and `decompose` are inverse -/

/-- Fields of the decomposition of a composed address. -/
theorem decompose_compose (c : Config) (h : c.WF) (t l o : Nat) (ht : t < 2 ^ c.TAG_SIZE)
    (hl : l < 2 ^ c.LINE_SIZE) (ho : o < 2 ^ c.OFF_SIZE) :
    (decompose c (compose c t l o))._tag = t
    ∧ (decompose c (compose c t l o))._line = l
    ∧ (decompose c (compose c t l o))._off = o
    ∧ (decompose c (compose c t l o))._addr_cache = l * c.N_ENTRIES_PER_LINE + o
    ∧ (decompose c (compose c t l o))._addr_main = compose c t l o := by
  have hP : 0 < 2 ^ c.OFF_SIZE := Nat.two_pow_pos _
  have hPQ : 0 < 2 ^ (c.LINE_SIZE + c.OFF_SIZE) := Nat.two_pow_pos _
  have hmod : compose c t l o % 2 ^ c.ADDR_SIZE = compose c t l o :=
    Nat.mod_eq_of_lt (compose_lt c t l o)
  have hce := compose_eq c h t l o hl ho
  rw [Nat.mod_eq_of_lt ht] at hce
  have hoff : compose c t l o % 2 ^ c.OFF_SIZE = o := by
    rw [hce, pow_add]
    have e : t * (2 ^ c.LINE_SIZE * 2 ^ c.OFF_SIZE) + l * 2 ^ c.OFF_SIZE + o
        = o + (t * 2 ^ c.LINE_SIZE + l) * 2 ^ c.OFF_SIZE := by ring
    rw [e, Nat.add_mul_mod_self_right, Nat.mod_eq_of_lt ho]
  have hline : compose c t l o / 2 ^ c.OFF_SIZE % 2 ^ c.LINE_SIZE = l := by
    rw [hce, pow_add]
    have e : t * (2 ^ c.LINE_SIZE * 2 ^ c.OFF_SIZE) + l * 2 ^ c.OFF_SIZE + o
        = o + (t * 2 ^ c.LINE_SIZE + l) * 2 ^ c.OFF_SIZE := by ring
    rw [e, Nat.add_mul_div_right _ _ hP, Nat.div_eq_of_lt ho, Nat.zero_add,
      Nat.add_comm, Nat.add_mul_mod_self_right, Nat.mod_eq_of_lt hl]
  have htag : compose c t l o / 2 ^ (c.LINE_SIZE + c.OFF_SIZE) % 2 ^ c.TAG_SIZE = t := by
    rw [hce]
    have hlt : l * 2 ^ c.OFF_SIZE + o < 2 ^ (c.LINE_SIZE + c.OFF_SIZE) := by
      rw [pow_add]; exact line_off_lt _ _ l o hl ho
    rw [Nat.add_assoc, Nat.add_comm, Nat.add_mul_div_right _ _ hPQ, Nat.div_eq_of_lt hlt,
      Nat.zero_add, Nat.mod_eq_of_lt ht]
  refine ⟨?_, ?_, ?_, ?_, ?_⟩ <;> simp only [decompose, hmod, hline, hoff, htag]

/-- An `ADDR_SIZE`-bit address is the sum of its three fields. -/
theorem decompose_sum (c : Config) (h : c.WF) (a : Nat) (ha : a < 2 ^ c.ADDR_SIZE) :
    (decompose c a)._tag < 2 ^ c.TAG_SIZE
    ∧ (decompose c a)._line < 2 ^ c.LINE_SIZE
    ∧ (decompose c a)._off < 2 ^ c.OFF_SIZE
    ∧ (decompose c a)._tag * 2 ^ (c.LINE_SIZE + c.OFF_SIZE)
        + (decompose c a)._line * 2 ^ c.OFF_SIZE + (decompose c a)._off = a := by
  have hmod : a % 2 ^ c.ADDR_SIZE = a := Nat.mod_eq_of_lt ha
  have hdd : a / 2 ^ (c.LINE_SIZE + c.OFF_SIZE) < 2 ^ c.TAG_SIZE := by
    rw [Nat.div_lt_iff_lt_mul (Nat.two_pow_pos _), Nat.mul_comm, ← ADDR_SIZE_split c h]
    exact ha
  refine ⟨Nat.mod_lt _ (Nat.two_pow_pos _), Nat.mod_lt _ (Nat.two_pow_pos _),
    Nat.mod_lt _ (Nat.two_pow_pos _), ?_⟩
  simp only [decompose, hmod, Nat.mod_eq_of_lt hdd]
  have e1 : a / 2 ^ (c.LINE_SIZE + c.OFF_SIZE) = a / 2 ^ c.OFF_SIZE / 2 ^ c.LINE_SIZE := by
    rw [Nat.div_div_eq_div_mul, ← pow_add, Nat.add_comm]
  have e2 := Nat.div_add_mod a (2 ^ c.OFF_SIZE)
  have e3 := Nat.div_add_mod (a / 2 ^ c.OFF_SIZE) (2 ^ c.LINE_SIZE)
  rw [e1, pow_add]
  calc a / 2 ^ c.OFF_SIZE / 2 ^ c.LINE_SIZE * (2 ^ c.LINE_SIZE * 2 ^ c.OFF_SIZE)
        + a / 2 ^ c.OFF_SIZE % 2 ^ c.LINE_SIZE * 2 ^ c.OFF_SIZE + a % 2 ^ c.OFF_SIZE
      = 2 ^ c.OFF_SIZE * (2 ^ c.LINE_SIZE * (a / 2 ^ c.OFF_SIZE / 2 ^ c.LINE_SIZE)
          + a / 2 ^ c.OFF_SIZE % 2 ^ c.LINE_SIZE) + a % 2 ^ c.OFF_SIZE := by ring
    _ = a := by rw [e3, e2]

/-- Composing the fields of an `ADDR_SIZE`-bit address gives the address back. -/
theorem compose_decompose (c : Config) (h : c.WF) (a : Nat) (ha : a < 2 ^ c.ADDR_SIZE) :
    compose c (decompose c a)._tag (decompose c a)._line (decompose c a)._off = a := by
  obtain ⟨ht, hl, ho, hs⟩ := decompose_sum c h a ha
  rw [compose_eq c h _ _ _ hl ho, Nat.mod_eq_of_lt ht, hs]

/-- Composing tag and line of an address with offset 0 gives its line base. -/
theorem compose_decompose_base (c : Config) (h : c.WF) (a : Nat) (ha : a < 2 ^ c.ADDR_SIZE) :
    compose c (decompose c a)._tag (decompose c a)._line 0
      = (decompose c a)._addr_main_first_of_line := by
  obtain ⟨ht, hl, ho, hs⟩ := decompose_sum c h a ha
  rw [compose_eq c h _ _ 0 hl (Nat.two_pow_pos _), Nat.mod_eq_of_lt ht]
  have hmain : (decompose c a)._addr_main_first_of_line = a - (decompose c a)._off := by
    simp only [decompose, Nat.mod_eq_of_lt ha]
  rw [hmain]
  omega

/-! ## The state left by one serviced request -/

namespace cache_wo

variable {T : Type}

/-- `fill` neither reads nor writes the address streams. -/
theorem fill_wr_addr_irrelevant (c : Config) (s : cache_wo T) (A : Nat → stream_dep Int)
    (addr : addr_t) :
    fill c { s with _wr_addr := A } addr = { fill c s addr with _wr_addr := A } := by
  unfold fill
  simp only [fill_load_eq, spill_eq]
  split_ifs <;> rfl

/-- The state that lines 68-71 of `operate` ("prepare the cache for accessing addr")
leave: the line is filled unless the access hits. -/
theorem operate_iter_serviced_fields (c : Config) (s : cache_wo T) (p : Nat) (a : Int)
    (d : T) (s1 : cache_wo T) (p1 : Nat)
    (h : operate_iter c s p = Outcome.serviced a d s1 p1) :
    s1._valid = (if hit s (decompose c a.toNat) then s
        else fill c s (decompose c a.toNat))._valid
    ∧ s1._tag = (if hit s (decompose c a.toNat) then s
        else fill c s (decompose c a.toNat))._tag
    ∧ s1._main_mem = (if hit s (decompose c a.toNat) then s
        else fill c s (decompose c a.toNat))._main_mem
    ∧ s1._cache_mem = write (if hit s (decompose c a.toNat) then s
        else fill c s (decompose c a.toNat))._cache_mem (decompose c a.toNat)._addr_cache d
    ∧ s1._dirty = write (if hit s (decompose c a.toNat) then s
        else fill c s (decompose c a.toNat))._dirty (decompose c a.toNat)._line true := by
  unfold operate_iter at h
  cases hq : s._wr_addr p with
  | nil => rw [hq] at h; simp [stream_dep.read_dep] at h
  | cons a0 rest =>
    rw [hq] at h
    simp only [stream_dep.read_dep] at h
    by_cases hneg : a0 < 0
    · rw [if_pos hneg] at h; simp at h
    · rw [if_neg hneg] at h
      have hhit : hit ({ s with _wr_addr := write s._wr_addr p rest } : cache_wo T)
          (decompose c a0.toNat) = hit s (decompose c a0.toNat) := rfl
      rw [hhit, fill_wr_addr_irrelevant] at h
      by_cases hh : hit s (decompose c a0.toNat) = true
      · simp only [hh, Bool.not_true, Bool.false_eq_true, if_false] at h
        cases hd : s._wr_data p with
        | nil => rw [hd] at h; simp at h
        | cons d0 drest =>
          rw [hd] at h
          simp only [Outcome.serviced.injEq] at h
          obtain ⟨ha, hdd, hs, _⟩ := h
          subst ha hdd hs
          simp only [hh, if_true, and_self]
      · simp only [hh, Bool.not_false, if_true] at h
        rw [fill_wr_data] at h
        cases hd : s._wr_data p with
        | nil => rw [hd] at h; simp at h
        | cons d0 drest =>
          rw [hd] at h
          simp only [Outcome.serviced.injEq] at h
          obtain ⟨ha, hdd, hs, _⟩ := h
          subst ha hdd hs
          simp only [hh, Bool.false_eq_true, if_false, and_self]

/-- Flags, tags and storage after `fill`, and where main memory may have changed. -/
theorem fill_fields (c : Config) (h : c.WF) (s : cache_wo T) (addr : addr_t)
    (hl : addr._line < 2 ^ c.LINE_SIZE) :
    (fill c s addr)._valid = write s._valid addr._line true
    ∧ (fill c s addr)._tag = write s._tag addr._line addr._tag
    ∧ (fill c s addr)._dirty = write s._dirty addr._line false
    ∧ (∀ x, (fill c s addr)._main_mem x
        = if (s._valid addr._line && s._dirty addr._line) = true
              ∧ compose c (s._tag addr._line) addr._line 0 ≤ x
              ∧ x < compose c (s._tag addr._line) addr._line 0 + c.N_ENTRIES_PER_LINE
          then s._cache_mem (addr._line * c.N_ENTRIES_PER_LINE
                + (x - compose c (s._tag addr._line) addr._line 0))
          else s._main_mem x)
    ∧ (∀ x, (fill c s addr)._cache_mem x
        = if addr._addr_cache_first_of_line ≤ x
              ∧ x < addr._addr_cache_first_of_line + c.N_ENTRIES_PER_LINE
          then (fill c s addr)._main_mem
                (addr._addr_main_first_of_line + (x - addr._addr_cache_first_of_line))
          else s._cache_mem x) := by
  obtain ⟨bl, _, bc, bm⟩ := build_zero c h (s._tag addr._line) addr._line hl
  unfold fill
  rw [fill_load_eq]
  by_cases hvd : (s._valid addr._line && s._dirty addr._line) = true
  · refine ⟨?_, ?_, ?_, fun x => ?_, fun x => ?_⟩
    · simp only [hvd, if_true, spill_eq]
    · simp only [hvd, if_true, spill_eq]
    · simp only [hvd, if_true, spill_eq, bl]
      funext i
      simp only [write]
      split_ifs <;> rfl
    · simp only [hvd, if_true, spill_eq, bc, bm, true_and]
    · simp only [hvd, if_true, spill_eq, bc, bm, true_and]
  · refine ⟨?_, ?_, ?_, fun x => ?_, fun x => ?_⟩ <;>
      simp only [hvd, Bool.false_eq_true, if_false, false_and]

end cache_wo

/-! ## Tags and line bases of `raw_cache` -/

namespace raw_cache

variable {T : Type} {N : Nat}

theorem ADDR_SIZE_le_WIDTH (c : RawConfig) : c.ADDR_SIZE ≤ c.ADDR_WIDTH := by
  unfold RawConfig.ADDR_WIDTH
  split_ifs <;> omega

/-- Decoding an `ADDR_SIZE`-bit address: the address itself, and its tag is the address
shifted right by `OFF_SIZE`. -/
theorem decode_of_lt (c : RawConfig) (hT : c.TAG_SIZE ≤ c.ADDR_SIZE) (a : Nat)
    (ha : a < 2 ^ c.ADDR_SIZE) :
    (addr_type.decode c a).m_addr_main = a
    ∧ (addr_type.decode c a).m_tag = a / 2 ^ c.OFF_SIZE := by
  have hw : a < 2 ^ c.ADDR_WIDTH :=
    Nat.lt_of_lt_of_le ha (Nat.pow_le_pow_right (by decide) (ADDR_SIZE_le_WIDTH c))
  have hsplit : 2 ^ c.ADDR_SIZE = 2 ^ c.OFF_SIZE * 2 ^ c.TAG_SIZE := by
    rw [← pow_add]; congr 1; unfold RawConfig.OFF_SIZE; omega
  have hdiv : a / 2 ^ c.OFF_SIZE < 2 ^ c.TAG_SIZE := by
    rw [Nat.div_lt_iff_lt_mul (Nat.two_pow_pos _), Nat.mul_comm, ← hsplit]; exact ha
  simp only [addr_type.decode, Nat.mod_eq_of_lt hw, Nat.mod_eq_of_lt hdiv, and_self]

/-- The mask has no bit below `OFF_SIZE`. -/
theorem line_mask_low (c : RawConfig) (i : Nat) (hi : i < c.OFF_SIZE) :
    (line_mask c).testBit i = false := by
  unfold line_mask
  rw [Nat.testBit_mod_two_pow, Nat.testBit_shiftLeft]
  have : ¬ i ≥ c.OFF_SIZE := by omega
  simp [this]

/-- The masked address depends only on the bits from `OFF_SIZE` upwards. -/
theorem land_mask_congr (c : RawConfig) (a b : Nat)
    (h : a / 2 ^ c.OFF_SIZE = b / 2 ^ c.OFF_SIZE) :
    a &&& line_mask c = b &&& line_mask c := by
  apply Nat.eq_of_testBit_eq
  intro i
  rw [Nat.testBit_and, Nat.testBit_and]
  by_cases hi : i < c.OFF_SIZE
  · rw [line_mask_low c i hi, Bool.and_false, Bool.and_false]
  · have hab : a.testBit i = b.testBit i := by
      have e : i = c.OFF_SIZE + (i - c.OFF_SIZE) := by omega
      rw [e, ← Nat.testBit_shiftRight, ← Nat.testBit_shiftRight,
        Nat.shiftRight_eq_div_pow, Nat.shiftRight_eq_div_pow, h]
    rw [hab]

/-- Addresses with the same tag have the same line base. -/
theorem main_line_of_tag (c : RawConfig) (hT : c.TAG_SIZE ≤ c.ADDR_SIZE) (a b : Nat)
    (ha : a < 2 ^ c.ADDR_SIZE) (hb : b < 2 ^ c.ADDR_SIZE)
    (htag : (addr_type.decode c a).m_tag = (addr_type.decode c b).m_tag) :
    main_line c (addr_type.decode c a) = main_line c (addr_type.decode c b) := by
  obtain ⟨ea, ta⟩ := decode_of_lt c hT a ha
  obtain ⟨eb, tb⟩ := decode_of_lt c hT b hb
  unfold main_line
  rw [ea, eb]
  apply land_mask_congr
  rw [← ta, ← tb, htag]

/-- For addresses of at most 32 bits and fewer than 32 offset bits, the masked address
is the address with its `OFF_SIZE` low bits cleared. -/
theorem land_mask_32 (c : RawConfig) (hO : c.OFF_SIZE < 32) (a : Nat) (ha : a < 2 ^ 32) :
    a &&& line_mask c = a - a % 2 ^ c.OFF_SIZE := by
  have hr : a - a % 2 ^ c.OFF_SIZE = (a >>> c.OFF_SIZE) <<< c.OFF_SIZE := by
    rw [Nat.shiftLeft_eq, Nat.shiftRight_eq_div_pow]
    have := Nat.div_add_mod a (2 ^ c.OFF_SIZE)
    rw [Nat.mul_comm] at this
    omega
  rw [hr]
  apply Nat.eq_of_testBit_eq
  intro i
  rw [Nat.testBit_and, Nat.testBit_shiftLeft, Nat.testBit_shiftRight]
  unfold line_mask
  rw [Nat.testBit_mod_two_pow, Nat.testBit_shiftLeft, Nat.testBit_two_pow_sub_one]
  by_cases hi : i ≥ c.OFF_SIZE
  · have e : c.OFF_SIZE + (i - c.OFF_SIZE) = i := by omega
    rw [e]
    by_cases h32 : i < 32
    · have : i - c.OFF_SIZE < 32 := by omega
      simp [hi, h32, this]
    · have hz : a.testBit i = false :=
        Nat.testBit_lt_two_pow
          (Nat.lt_of_lt_of_le ha (Nat.pow_le_pow_right (by decide) (by omega)))
      simp [hz]
  · simp [hi]

/-- Fields of the object and the written memory words after `set_line`. -/
theorem set_line_fields (c : RawConfig) (s : raw_cache T N) (mem : Nat → T) (a : Nat)
    (L : Fin N → T) :
    (set_line c s mem a L).1.m_valid = true
    ∧ (set_line c s mem a L).1.m_tag = (addr_type.decode c a).m_tag
    ∧ (set_line c s mem a L).1.m_line = L
    ∧ (∀ off : Fin N,
        (set_line c s mem a L).2 (main_line c (addr_type.decode c a) + off.val) = L off)
    ∧ (∀ x, (∀ off : Fin N, main_line c (addr_type.decode c a) + off.val ≠ x) →
        (set_line c s mem a L).2 x = mem x) := by
  refine ⟨rfl, ?_, ?_, fun off => ?_, fun x hx => ?_⟩
  · simp only [set_line]
    exact Nat.mod_eq_of_lt (decode_tag_lt c a)
  · funext j
    simp only [set_line]
    rw [set_line_loop_line, if_pos (List.mem_finRange j)]
  · simp only [set_line]
    exact set_line_loop_mem _ L _ _ off (List.mem_finRange off)
  · simp only [set_line]
    exact set_line_loop_frame _ L _ _ x (fun off _ => hx off)

/-- The result of `get_line`: the cached line on a hit, the memory words at the line
base on a miss; the object is unchanged. -/
theorem get_line_fields (c : RawConfig) (s : raw_cache T N) (mem : Nat → T) (a : Nat)
    (line0 : Fin N → T) :
    (get_line c s mem a line0).1 = s
    ∧ (get_line c s mem a line0).2
        = if hit s (addr_type.decode c a) then s.m_line
          else fun off => mem (main_line c (addr_type.decode c a) + off.val) := by
  simp only [get_line]
  split_ifs
  · exact ⟨rfl, copy_loop_all _ line0⟩
  · exact ⟨rfl, copy_loop_all _ line0⟩

/-- `set_line` establishes coherence, whatever the state before. -/
theorem set_line_coherent (c : RawConfig) (hT : c.TAG_SIZE ≤ c.ADDR_SIZE)
    (s : raw_cache T N) (mem : Nat → T) (a : Nat) (ha : a < 2 ^ c.ADDR_SIZE) (L : Fin N → T) :
    Coherent c (set_line c s mem a L).1 (set_line c s mem a L).2 := by
  obtain ⟨_, ft, fl, fm, _⟩ := set_line_fields c s mem a L
  intro _ b hb htag off
  rw [ft] at htag
  rw [fl, main_line_of_tag c hT b a hb ha htag]
  exact (fm off).symm

/-- Every sequence of calls with `ADDR_SIZE`-bit addresses keeps the cache coherent. -/
theorem run_coherent (c : RawConfig) (hT : c.TAG_SIZE ≤ c.ADDR_SIZE)
    (ops : List (Op T N)) (st : raw_cache T N × (Nat → T))
    (hops : ∀ op ∈ ops, op.addr < 2 ^ c.ADDR_SIZE) (hst : Coherent c st.1 st.2) :
    Coherent c (run c st ops).1 (run c st ops).2 := by
  induction ops generalizing st with
  | nil => exact hst
  | cons op ops ih =>
    have hrun : run c st (op :: ops) = run c (step c st op) ops := rfl
    rw [hrun]
    apply ih _ (fun o ho => hops o (List.mem_cons_of_mem _ ho))
    have haddr := hops op (List.mem_cons_self _ _)
    cases op with
    | set_line a line => exact set_line_coherent c hT st.1 st.2 a haddr line
    | get_line a line =>
      simp only [step]
      rw [(get_line_fields c st.1 st.2 a line).1]
      exact hst

end raw_cache

/-! ## Transparency of the write-back cache -/

/-- The words of the line built from `(tl, l)` are the addresses with line `l` and tag
`tl`. -/
theorem in_line_of_range (c : Config) (h : c.WF) (tl l x : Nat) (hl : l < 2 ^ c.LINE_SIZE)
    (ht : tl < 2 ^ c.TAG_SIZE)
    (hx : compose c tl l 0 ≤ x ∧ x < compose c tl l 0 + c.N_ENTRIES_PER_LINE) :
    x < 2 ^ c.ADDR_SIZE ∧ (decompose c x)._line = l ∧ (decompose c x)._tag = tl
    ∧ x - compose c tl l 0 = (decompose c x)._off := by
  rw [N_ENTRIES_PER_LINE_eq] at hx
  have ho : x - compose c tl l 0 < 2 ^ c.OFF_SIZE := by omega
  have e0 := compose_eq c h tl l 0 hl (Nat.two_pow_pos _)
  have e1 := compose_eq c h tl l (x - compose c tl l 0) hl ho
  have hx2 : compose c tl l (x - compose c tl l 0) = x := by omega
  obtain ⟨d1, d2, d3, _, _⟩ := decompose_compose c h tl l (x - compose c tl l 0) ht hl ho
  rw [hx2] at d1 d2 d3
  have hlt := compose_lt c tl l (x - compose c tl l 0)
  rw [hx2] at hlt
  exact ⟨hlt, d2, d1, d3.symm⟩

/-- An address is the base of its line plus its offset. -/
theorem range_of_in_line (c : Config) (h : c.WF) (x : Nat) (hx : x < 2 ^ c.ADDR_SIZE) :
    x = compose c (decompose c x)._tag (decompose c x)._line 0 + (decompose c x)._off
    ∧ (decompose c x)._off < c.N_ENTRIES_PER_LINE
    ∧ (decompose c x)._line < 2 ^ c.LINE_SIZE
    ∧ (decompose c x)._tag < 2 ^ c.TAG_SIZE := by
  obtain ⟨ht, hl, ho, hs⟩ := decompose_sum c h x hx
  have e0 := compose_eq c h (decompose c x)._tag (decompose c x)._line 0 hl (Nat.two_pow_pos _)
  rw [Nat.mod_eq_of_lt ht] at e0
  rw [N_ENTRIES_PER_LINE_eq]
  exact ⟨by omega, ho, hl, ht⟩

/-- Two `ADDR_SIZE`-bit addresses with the same tag, line and offset are equal. -/
theorem decompose_inj (c : Config) (h : c.WF) (x y : Nat) (hx : x < 2 ^ c.ADDR_SIZE)
    (hy : y < 2 ^ c.ADDR_SIZE) (ht : (decompose c x)._tag = (decompose c y)._tag)
    (hl : (decompose c x)._line = (decompose c y)._line)
    (ho : (decompose c x)._off = (decompose c y)._off) : x = y := by
  obtain ⟨_, _, _, sx⟩ := decompose_sum c h x hx
  obtain ⟨_, _, _, sy⟩ := decompose_sum c h y hy
  rw [← sx, ← sy, ht, hl, ho]

/-- The cache index determines line and offset. -/
theorem addr_cache_inj (c : Config) (x y : Nat)
    (hci : (decompose c x)._addr_cache = (decompose c y)._addr_cache) :
    (decompose c x)._line = (decompose c y)._line
    ∧ (decompose c x)._off = (decompose c y)._off := by
  have hE := N_ENTRIES_PER_LINE_eq c
  have hP : 0 < 2 ^ c.OFF_SIZE := Nat.two_pow_pos _
  have ox : (decompose c x)._off < 2 ^ c.OFF_SIZE := Nat.mod_lt _ hP
  have oy : (decompose c y)._off < 2 ^ c.OFF_SIZE := Nat.mod_lt _ hP
  have cx : (decompose c x)._addr_cache
      = (decompose c x)._off + (decompose c x)._line * 2 ^ c.OFF_SIZE := by
    rw [← hE, Nat.add_comm]; rfl
  have cy : (decompose c y)._addr_cache
      = (decompose c y)._off + (decompose c y)._line * 2 ^ c.OFF_SIZE := by
    rw [← hE, Nat.add_comm]; rfl
  rw [cx, cy] at hci
  have h1 := congrArg (fun z => z / 2 ^ c.OFF_SIZE) hci
  have h2 := congrArg (fun z => z % 2 ^ c.OFF_SIZE) hci
  simp only [Nat.add_mul_div_right _ _ hP, Nat.div_eq_of_lt ox, Nat.div_eq_of_lt oy,
    Nat.zero_add, Nat.add_mul_mod_self_right, Nat.mod_eq_of_lt ox, Nat.mod_eq_of_lt oy]
    at h1 h2
  exact ⟨h1, h2⟩

namespace cache_wo

variable {T : Type}

/-- Whether a cache index lies in the storage of line `l`. -/
theorem addr_cache_in_line (c : Config) (x l : Nat) :
    (l * c.N_ENTRIES_PER_LINE ≤ (decompose c x)._addr_cache
      ∧ (decompose c x)._addr_cache < l * c.N_ENTRIES_PER_LINE + c.N_ENTRIES_PER_LINE)
    ↔ (decompose c x)._line = l := by
  have hE := N_ENTRIES_PER_LINE_eq c
  have hP : 0 < c.N_ENTRIES_PER_LINE := by rw [hE]; exact Nat.two_pow_pos _
  have ox : (decompose c x)._off < c.N_ENTRIES_PER_LINE := by
    rw [hE]; exact Nat.mod_lt _ (Nat.two_pow_pos _)
  have cx : (decompose c x)._addr_cache
      = (decompose c x)._line * c.N_ENTRIES_PER_LINE + (decompose c x)._off := rfl
  rw [cx]
  constructor
  · intro ⟨h1, h2⟩
    by_contra hne
    rcases Nat.lt_or_gt_of_ne hne with hlt | hgt
    · have : ((decompose c x)._line + 1) * c.N_ENTRIES_PER_LINE ≤ l * c.N_ENTRIES_PER_LINE :=
        Nat.mul_le_mul_right _ hlt
      rw [Nat.add_mul] at this
      omega
    · have : (l + 1) * c.N_ENTRIES_PER_LINE
          ≤ (decompose c x)._line * c.N_ENTRIES_PER_LINE := Nat.mul_le_mul_right _ hgt
      rw [Nat.add_mul] at this
      omega
  · intro e
    rw [e]
    omega

/-- Main memory after `fill`, in terms of the fields of the address. -/
theorem fill_main_mem (c : Config) (h : c.WF) (s : cache_wo T) (addr : addr_t)
    (hl : addr._line < 2 ^ c.LINE_SIZE)
    (ht : s._valid addr._line = true → s._tag addr._line < 2 ^ c.TAG_SIZE) (x : Nat) :
    (fill c s addr)._main_mem x
      = if (s._valid addr._line && s._dirty addr._line) = true
            ∧ x < 2 ^ c.ADDR_SIZE ∧ (decompose c x)._line = addr._line
            ∧ (decompose c x)._tag = s._tag addr._line
        then s._cache_mem (decompose c x)._addr_cache
        else s._main_mem x := by
  obtain ⟨_, _, _, g4, _⟩ := fill_fields c h s addr hl
  rw [g4 x]
  by_cases hvd : (s._valid addr._line && s._dirty addr._line) = true
  · have hv : s._valid addr._line = true := by
      simp only [Bool.and_eq_true] at hvd; exact hvd.1
    by_cases hr : compose c (s._tag addr._line) addr._line 0 ≤ x
        ∧ x < compose c (s._tag addr._line) addr._line 0 + c.N_ENTRIES_PER_LINE
    · obtain ⟨r1, r2, r3, r4⟩ := in_line_of_range c h _ _ x hl (ht hv) hr
      rw [if_pos ⟨hvd, hr⟩, if_pos ⟨hvd, r1, r2, r3⟩, r4, ← r2]
      rfl
    · rw [if_neg (fun hc => hr hc.2), if_neg]
      intro ⟨_, q1, q2, q3⟩
      obtain ⟨e1, e2, _, _⟩ := range_of_in_line c h x q1
      rw [q2, q3] at e1
      exact hr ⟨by omega, by omega⟩
  · rw [if_neg (fun hc => hvd hc.1), if_neg (fun hc => hvd hc.1)]

/-- Cache storage after `fill`, at the cache index of an address. -/
theorem fill_cache_mem (c : Config) (h : c.WF) (s : cache_wo T) (a x : Nat)
    (ha : a < 2 ^ c.ADDR_SIZE) :
    (fill c s (decompose c a))._cache_mem (decompose c x)._addr_cache
      = if (decompose c x)._line = (decompose c a)._line
        then (fill c s (decompose c a))._main_mem
              (compose c (decompose c a)._tag (decompose c a)._line 0 + (decompose c x)._off)
        else s._cache_mem (decompose c x)._addr_cache := by
  have hl : (decompose c a)._line < 2 ^ c.LINE_SIZE := Nat.mod_lt _ (Nat.two_pow_pos _)
  obtain ⟨_, _, _, _, g5⟩ := fill_fields c h s (decompose c a) hl
  rw [g5]
  have hcf : (decompose c a)._addr_cache_first_of_line
      = (decompose c a)._line * c.N_ENTRIES_PER_LINE := rfl
  rw [hcf]
  by_cases hxl : (decompose c x)._line = (decompose c a)._line
  · rw [if_pos ((addr_cache_in_line c x _).mpr hxl), if_pos hxl,
      compose_decompose_base c h a ha]
    congr 2
    have : (decompose c x)._addr_cache
        = (decompose c x)._line * c.N_ENTRIES_PER_LINE + (decompose c x)._off := rfl
    rw [this, hxl]
    omega
  · rw [if_neg (fun hc => hxl ((addr_cache_in_line c x _).mp hc)), if_neg hxl]

end cache_wo

namespace cache_wo

variable {T : Type}

/-- A serviced write that hits updates the view at its address only. -/
theorem view_hit (c : Config) (h : c.WF) (s s1 : cache_wo T) (n : Nat) (d : T)
    (hn : n < 2 ^ c.ADDR_SIZE) (hh : hit s (decompose c n) = true)
    (f1 : s1._valid = s._valid) (f2 : s1._tag = s._tag) (f3 : s1._main_mem = s._main_mem)
    (f4 : s1._cache_mem = write s._cache_mem (decompose c n)._addr_cache d) :
    view c s1 = write (view c s) n d := by
  simp only [hit, Bool.and_eq_true, beq_iff_eq] at hh
  funext x
  simp only [view, write, f1, f2, f3, f4]
  by_cases hxn : x = n
  · subst hxn
    rw [if_pos ⟨hn, hh.1, hh.2.symm⟩, if_pos rfl, if_pos rfl]
  · rw [if_neg hxn]
    by_cases hc : x < 2 ^ c.ADDR_SIZE ∧ s._valid (decompose c x)._line = true
        ∧ s._tag (decompose c x)._line = (decompose c x)._tag
    · rw [if_pos hc, if_pos hc, if_neg]
      intro hci
      obtain ⟨el, eo⟩ := addr_cache_inj c x n hci
      apply hxn
      apply decompose_inj c h x n hc.1 hn _ el eo
      rw [← hc.2.2, el, hh.2]
    · rw [if_neg hc, if_neg hc]

/-- A serviced write that misses (fill, then store) updates the view at its address
only. -/
theorem view_miss (c : Config) (h : c.WF) (s s1 : cache_wo T) (n : Nat) (d : T)
    (hn : n < 2 ^ c.ADDR_SIZE) (hlive : Live c s) (hh : ¬ hit s (decompose c n) = true)
    (f1 : s1._valid = (fill c s (decompose c n))._valid)
    (f2 : s1._tag = (fill c s (decompose c n))._tag)
    (f3 : s1._main_mem = (fill c s (decompose c n))._main_mem)
    (f4 : s1._cache_mem
      = write (fill c s (decompose c n))._cache_mem (decompose c n)._addr_cache d) :
    view c s1 = write (view c s) n d := by
  have hl : (decompose c n)._line < 2 ^ c.LINE_SIZE := Nat.mod_lt _ (Nat.two_pow_pos _)
  have hlN : (decompose c n)._line < c.N_LINES := by rw [N_LINES_eq]; exact hl
  obtain ⟨g1, g2, _, _, _⟩ := fill_fields c h s (decompose c n) hl
  have ht : s._valid (decompose c n)._line = true
      → s._tag (decompose c n)._line < 2 ^ c.TAG_SIZE := fun hv => (hlive _ hlN hv).2
  have gm := fill_main_mem c h s (decompose c n) hl ht
  have gc := fill_cache_mem c h s n
  simp only [hit, Bool.and_eq_true, beq_iff_eq, not_and] at hh
  funext x
  simp only [view, write, f1, f2, f3, f4, g1, g2]
  by_cases hxA : x < 2 ^ c.ADDR_SIZE
  · obtain ⟨ex, _, _, _⟩ := range_of_in_line c h x hxA
    by_cases hxl : (decompose c x)._line = (decompose c n)._line
    · simp only [hxl, if_true, hxA, true_and]
      by_cases hxt : (decompose c n)._tag = (decompose c x)._tag
      · rw [if_pos hxt]
        by_cases hxn : x = n
        · subst hxn
          rw [if_pos rfl, if_pos rfl]
        · have hci : ¬ (decompose c x)._addr_cache = (decompose c n)._addr_cache := by
            intro hci
            exact hxn (decompose_inj c h x n hxA hn hxt.symm hxl (addr_cache_inj c x n hci).2)
          rw [if_neg hci, if_neg hxn, gc x hn, if_pos hxl]
          have hx' : compose c (decompose c n)._tag (decompose c n)._line 0
              + (decompose c x)._off = x := by
            rw [hxt, ← hxl]; exact ex.symm
          rw [hx', gm x]
          have hnot : ¬ (s._valid (decompose c n)._line = true
              ∧ s._tag (decompose c n)._line = (decompose c x)._tag) :=
            fun hc => hh hc.1 (hxt.trans hc.2.symm)
          rw [if_neg hnot, if_neg]
          intro ⟨hvd, _, _, q3⟩
          simp only [Bool.and_eq_true] at hvd
          exact hnot ⟨hvd.1, q3.symm⟩
      · have hxn : ¬ x = n := fun e => hxt (by rw [e])
        rw [if_neg hxt, if_neg hxn, gm x]
        by_cases hc : s._valid (decompose c n)._line = true
            ∧ s._tag (decompose c n)._line = (decompose c x)._tag
        · have hd := (hlive _ hlN hc.1).1
          rw [if_pos hc, if_pos]
          exact ⟨by rw [hc.1, hd]; rfl, hxA, hxl, hc.2.symm⟩
        · rw [if_neg hc, if_neg]
          intro ⟨hvd, _, _, q3⟩
          simp only [Bool.and_eq_true] at hvd
          exact hc ⟨hvd.1, q3.symm⟩
    · have hxn : ¬ x = n := fun e => hxl (by rw [e])
      simp only [hxl, if_false, hxA, true_and, hxn]
      by_cases hc : s._valid (decompose c x)._line = true
          ∧ s._tag (decompose c x)._line = (decompose c x)._tag
      · have hci : ¬ (decompose c x)._addr_cache = (decompose c n)._addr_cache :=
          fun hci => hxl (addr_cache_inj c x n hci).1
        rw [if_pos hc, if_pos hc, if_neg hci, gc x hn, if_neg hxl]
      · rw [if_neg hc, if_neg hc, gm x, if_neg]
        intro ⟨_, _, q2, _⟩
        exact hxl q2
  · have hxn : ¬ x = n := fun e => hxA (by rw [e]; exact hn)
    simp only [hxA, false_and, if_false, hxn]
    rw [gm x, if_neg]
    intro ⟨_, q1, _, _⟩
    exact hxA q1

end cache_wo

namespace cache_wo

variable {T : Type}

/-- A serviced request keeps every valid line dirty and its tag in range. -/
theorem live_serviced (c : Config) (h : c.WF) (s : cache_wo T) (p : Nat) (a : Int) (d : T)
    (s1 : cache_wo T) (p1 : Nat)
    (hserv : operate_iter c s p = Outcome.serviced a d s1 p1) (hlive : Live c s) :
    Live c s1 := by
  obtain ⟨f1, f2, _, _, f5⟩ := operate_iter_serviced_fields c s p a d s1 p1 hserv
  have hl : (decompose c a.toNat)._line < 2 ^ c.LINE_SIZE := Nat.mod_lt _ (Nat.two_pow_pos _)
  obtain ⟨g1, g2, g3, _, _⟩ := fill_fields c h s (decompose c a.toNat) hl
  intro l hlN hv
  by_cases hh : hit s (decompose c a.toNat) = true
  · simp only [hh, if_true] at f1 f2 f5
    rw [f1] at hv
    rw [f2, f5]
    refine ⟨?_, (hlive l hlN hv).2⟩
    by_cases hll : l = (decompose c a.toNat)._line
    · rw [hll, write_same]
    · rw [write_other _ _ _ _ hll]; exact (hlive l hlN hv).1
  · simp only [hh, Bool.false_eq_true, if_false] at f1 f2 f5
    rw [f1, g1] at hv
    rw [f2, f5, g2, g3]
    by_cases hll : l = (decompose c a.toNat)._line
    · rw [hll, write_same, write_same]
      exact ⟨rfl, Nat.mod_lt _ (Nat.two_pow_pos _)⟩
    · rw [write_other _ _ _ _ hll] at hv
      rw [write_other _ _ _ _ hll, write_other _ _ _ _ hll, write_other _ _ _ _ hll]
      exact hlive l hlN hv

/-- One serviced write `(a, d)` is the assignment `mem[a] := d` on the view. -/
theorem view_serviced (c : Config) (h : c.WF) (s : cache_wo T) (p : Nat) (a : Int) (d : T)
    (s1 : cache_wo T) (p1 : Nat)
    (hserv : operate_iter c s p = Outcome.serviced a d s1 p1) (hlive : Live c s)
    (ha : a.toNat < 2 ^ c.ADDR_SIZE) :
    view c s1 = write (view c s) a.toNat d := by
  obtain ⟨f1, f2, f3, f4, _⟩ := operate_iter_serviced_fields c s p a d s1 p1 hserv
  by_cases hh : hit s (decompose c a.toNat) = true
  · simp only [hh, if_true] at f1 f2 f3 f4
    exact view_hit c h s s1 a.toNat d ha hh f1 f2 f3 f4
  · simp only [hh, Bool.false_eq_true, if_false] at f1 f2 f3 f4
    exact view_miss c h s s1 a.toNat d ha hlive hh f1 f2 f3 f4

/-- Popping the sentinel changes the address stream only. -/
theorem operate_iter_stopped_inv (c : Config) (s : cache_wo T) (p : Nat) (s1 : cache_wo T)
    (hstop : operate_iter c s p = Outcome.stopped s1) :
    s1._valid = s._valid ∧ s1._dirty = s._dirty ∧ s1._tag = s._tag
    ∧ s1._cache_mem = s._cache_mem ∧ s1._main_mem = s._main_mem := by
  unfold operate_iter at hstop
  cases hq : s._wr_addr p with
  | nil => rw [hq] at hstop; simp [stream_dep.read_dep] at hstop
  | cons a0 rest =>
    rw [hq] at hstop
    simp only [stream_dep.read_dep] at hstop
    by_cases hneg : a0 < 0
    · rw [if_pos hneg] at hstop
      simp only [Outcome.stopped.injEq] at hstop
      subst hstop
      exact ⟨rfl, rfl, rfl, rfl, rfl⟩
    · rw [if_neg hneg] at hstop
      split at hstop <;> simp at hstop

/-- When `OPERATE_LOOP` pops the sentinel, the view is the initial view updated by the
serviced writes in order. -/
theorem operate_loop_view (c : Config) (h : c.WF) (fuel : Nat) (s : cache_wo T) (p : Nat)
    (sp : cache_wo T) (hlive : Live c s)
    (hb : ∀ e ∈ operate_trace c fuel s p, e.2.1.toNat < 2 ^ c.ADDR_SIZE)
    (hsp : operate_loop c fuel s p = some sp) :
    Live c sp
    ∧ view c sp = direct (view c s) ((operate_trace c fuel s p).map (fun e => (e.2.1, e.2.2.1)))
    := by
  induction fuel generalizing s p with
  | zero => simp [operate_loop] at hsp
  | succ n ih =>
    unfold operate_loop at hsp
    unfold operate_trace at hb ⊢
    cases hit : operate_iter c s p with
    | blocked => rw [hit] at hsp; simp at hsp
    | stopped s1 =>
      rw [hit] at hsp
      simp only [Option.some.injEq] at hsp
      subst hsp
      obtain ⟨e1, e2, e3, e4, e5⟩ := operate_iter_stopped_inv c s p s1 hit
      constructor
      · intro l hl hv
        rw [e1] at hv
        rw [e2, e3]
        exact hlive l hl hv
      · simp only [direct, List.map_nil, List.foldl_nil]
        funext x
        simp only [view, e1, e3, e4, e5]
    | serviced a d s1 p1 =>
      rw [hit] at hsp hb
      simp only at hsp hb
      have ha := hb (p, a, d, s1) (List.mem_cons_self _ _)
      have hl1 := live_serviced c h s p a d s1 p1 hit hlive
      have hv1 := view_serviced c h s p a d s1 p1 hit hlive ha
      obtain ⟨r1, r2⟩ := ih s1 p1 hl1 (fun e he => hb e (List.mem_cons_of_mem _ he)) hsp
      refine ⟨r1, ?_⟩
      rw [r2, hv1]
      simp only [direct, List.map_cons, List.foldl_cons]

theorem invalidate_loop_rest (s : cache_wo T) (l : List Nat) :
    (l.foldl (fun st line => { st with _valid := write st._valid line false }) s)._main_mem
        = s._main_mem
    ∧ (l.foldl (fun st line => { st with _valid := write st._valid line false }) s)._cache_mem
        = s._cache_mem
    ∧ (l.foldl (fun st line => { st with _valid := write st._valid line false }) s)._tag
        = s._tag := by
  induction l generalizing s with
  | nil => exact ⟨rfl, rfl, rfl⟩
  | cons a l ih => rw [List.foldl_cons]; exact ih _

/-- After the invalidation loop no line is valid, and the view is main memory. -/
theorem invalidate_view (c : Config) (s : cache_wo T) :
    Live c (invalidate c s) ∧ view c (invalidate c s) = s._main_mem := by
  constructor
  · intro l hl hv
    rw [invalidate_valid c s l hl] at hv
    exact absurd hv (by decide)
  · funext x
    have hl : (decompose c x)._line < c.N_LINES := by
      rw [N_LINES_eq]; exact Nat.mod_lt _ (Nat.two_pow_pos _)
    simp only [view, invalidate_valid c s _ hl, Bool.false_eq_true, false_and, and_false,
      if_false]
    exact congrFun (invalidate_loop_rest s _).1 x

/-- If every valid line is dirty with a tag in range, `flush` makes main memory equal
to the view. -/
theorem flush_view (c : Config) (h : c.WF) (sp : cache_wo T) (hlive : Live c sp) :
    (flush c sp)._main_mem = view c sp := by
  have F := flush_spec c h sp
  funext x
  simp only [view]
  by_cases hc : x < 2 ^ c.ADDR_SIZE ∧ sp._valid (decompose c x)._line = true
      ∧ sp._tag (decompose c x)._line = (decompose c x)._tag
  · rw [if_pos hc]
    obtain ⟨ex, eo, el, _⟩ := range_of_in_line c h x hc.1
    have hlN : (decompose c x)._line < c.N_LINES := by rw [N_LINES_eq]; exact el
    have hd := (hlive _ hlN hc.2.1).1
    have hw := F.written _ hlN hc.2.1 hd _ eo
    rw [hc.2.2, ← ex] at hw
    exact hw
  · rw [if_neg hc]
    apply F.frame
    intro i hi hv hd hr
    have hiL : i < 2 ^ c.LINE_SIZE := by rw [← N_LINES_eq]; exact hi
    obtain ⟨r1, r2, r3, _⟩ := in_line_of_range c h _ _ x hiL (hlive i hi hv).2 hr
    apply hc
    rw [r2, r3]
    exact ⟨r1, hv, rfl⟩

/-- Words not assigned keep their value under direct assignments. -/
theorem direct_frame (mem : Nat → T) (reqs : List (Int × T)) (x : Nat)
    (hx : ∀ r ∈ reqs, r.1.toNat ≠ x) : direct mem reqs x = mem x := by
  induction reqs generalizing mem with
  | nil => rfl
  | cons r reqs ih =>
    simp only [direct, List.foldl_cons]
    have := ih (write mem r.1.toNat r.2) (fun r0 h0 => hx r0 (List.mem_cons_of_mem _ h0))
    simp only [direct] at this
    rw [this, write_other _ _ _ _ (fun e => hx r (List.mem_cons_self _ _) e.symm)]

end cache_wo

namespace cache_wo

variable {T : Type}

/-- Transparency for a run that returns: main memory after `operate` is the initial
memory updated by the serviced writes, in service order. -/
theorem operate_transparent (c : Config) (h : c.WF) (s sf : cache_wo T)
    (hb : ∀ e ∈ operate_trace c (operate_fuel c (invalidate c s)) (invalidate c s) 0,
      e.2.1.toNat < 2 ^ c.ADDR_SIZE)
    (hret : operate c s = some sf) :
    sf._main_mem = direct s._main_mem
      ((operate_trace c (operate_fuel c (invalidate c s)) (invalidate c s) 0).map
        (fun e => (e.2.1, e.2.2.1))) := by
  simp only [operate, Option.map_eq_some'] at hret
  obtain ⟨sp, hsp, rfl⟩ := hret
  obtain ⟨hl0, hv0⟩ := invalidate_view c s
  obtain ⟨hl1, hv1⟩ := operate_loop_view c h _ _ 0 sp hl0 hb hsp
  rw [flush_view c h sp hl1, hv1, hv0]

/-- End-to-end transparency for submitted stores: after the stores `l` (addresses
non-negative and below `2 ^ (ADDR_SIZE - 1)`) and `stop_operation`, `operate` returns
and leaves main memory equal to the initial memory updated by the assignments of `l`
in order. -/
theorem stores_transparent (c : Config) (h : c.WF) (hN : 1 ≤ c.N_PORTS)
    (hA : 1 ≤ c.ADDR_SIZE) (s0 : cache_wo T) (l : List (Int × T))
    (hl : ∀ r ∈ l, 0 ≤ r.1 ∧ 2 * r.1 < ((2 ^ c.ADDR_SIZE : Nat) : Int)) :
    ∃ sf, operate c (stop_operation c (submit c (idle s0) l)) = some sf
      ∧ sf._main_mem = direct s0._main_mem l := by
  obtain ⟨⟨sf, hsf⟩, htr⟩ := stores_drained c hN hA s0 l hl
  refine ⟨sf, hsf, ?_⟩
  have hb : ∀ e ∈ operate_trace c
      (operate_fuel c (invalidate c (stop_operation c (submit c (idle s0) l))))
      (invalidate c (stop_operation c (submit c (idle s0) l))) 0,
      e.2.1.toNat < 2 ^ c.ADDR_SIZE := by
    intro e he
    have hmem : (e.2.1, e.2.2.1) ∈ l := by
      rw [← htr]
      exact List.mem_map.mpr ⟨e, he, rfl⟩
    obtain ⟨h0, h1⟩ := hl _ hmem
    have : ((e.2.1.toNat : Nat) : Int) < ((2 ^ c.ADDR_SIZE : Nat) : Int) := by
      rw [Int.toNat_of_nonneg h0]
      simp only at h0 h1 ⊢
      omega
    exact_mod_cast this
  have := operate_transparent c h _ sf hb hsf
  rw [htr] at this
  rw [this]
  have hmm : (stop_operation c (submit c (idle s0) l))._main_mem = s0._main_mem := by
    have e1 : ∀ t : cache_wo T, (stop_operation c t)._main_mem = t._main_mem := by
      intro t
      unfold stop_operation
      generalize List.range c.N_PORTS = lp
      induction lp generalizing t with
      | nil => rfl
      | cons a lp ih => rw [List.foldl_cons]; exact ih _
    have e2 : ∀ (t : cache_wo T) (rs : List (Int × T)),
        (submit c t rs)._main_mem = t._main_mem := by
      intro t rs
      induction rs generalizing t with
      | nil => rfl
      | cons r rs ih =>
        have : submit c t (r :: rs) = submit c (store c t r.1 r.2) rs := rfl
        rw [this, ih]
        rfl
    rw [e1, e2]
    rfl
  rw [hmm]

end cache_wo

namespace raw_cache

/-- For `TAG_SIZE ≤ ADDR_SIZE ≤ 32` and fewer than 32 offset bits, the line base of an
`ADDR_SIZE`-bit address is the address with its `OFF_SIZE` low bits cleared, and two
addresses have the same line base exactly when they have the same tag. -/
theorem main_line_32 (c : RawConfig) (hT : c.TAG_SIZE ≤ c.ADDR_SIZE) (hA : c.ADDR_SIZE ≤ 32)
    (hO : c.OFF_SIZE < 32) (a : Nat) (ha : a < 2 ^ c.ADDR_SIZE) :
    main_line c (addr_type.decode c a) = a - a % 2 ^ c.OFF_SIZE
    ∧ ∀ b, b < 2 ^ c.ADDR_SIZE →
        (main_line c (addr_type.decode c a) = main_line c (addr_type.decode c b)
          ↔ (addr_type.decode c a).m_tag = (addr_type.decode c b).m_tag) := by
  have h32 : ∀ x, x < 2 ^ c.ADDR_SIZE → x < 2 ^ 32 := fun x hx =>
    Nat.lt_of_lt_of_le hx (Nat.pow_le_pow_right (by decide) hA)
  have hbase : ∀ x, x < 2 ^ c.ADDR_SIZE →
      main_line c (addr_type.decode c x) = x - x % 2 ^ c.OFF_SIZE := by
    intro x hx
    unfold main_line
    rw [(decode_of_lt c hT x hx).1]
    exact land_mask_32 c hO x (h32 x hx)
  refine ⟨hbase a ha, fun b hb => ⟨fun e => ?_, fun e => main_line_of_tag c hT a b ha hb e⟩⟩
  rw [hbase a ha, hbase b hb] at e
  rw [(decode_of_lt c hT a ha).2, (decode_of_lt c hT b hb).2]
  have ea := Nat.div_add_mod a (2 ^ c.OFF_SIZE)
  have eb := Nat.div_add_mod b (2 ^ c.OFF_SIZE)
  have hP : 0 < 2 ^ c.OFF_SIZE := Nat.two_pow_pos _
  have e2 : 2 ^ c.OFF_SIZE * (a / 2 ^ c.OFF_SIZE) = 2 ^ c.OFF_SIZE * (b / 2 ^ c.OFF_SIZE) := by
    omega
  exact Nat.eq_of_mul_eq_mul_left hP e2

end raw_cache

namespace cache_wo

variable {T : Type}

/-- Flags and tags written by `fill`. -/
theorem fill_valid_tag (c : Config) (s : cache_wo T) (addr : addr_t) :
    (fill c s addr)._valid = write s._valid addr._line true
    ∧ (fill c s addr)._tag = write s._tag addr._line addr._tag := by
  unfold fill
  rw [fill_load_eq]
  split_ifs
  · rw [spill_eq]; exact ⟨rfl, rfl⟩
  · exact ⟨rfl, rfl⟩

/-- A line stays resident with its tag across every serviced request that is not a
miss on that line. -/
theorem resident_kept (c : Config) (s : cache_wo T) (p : Nat) (a : Int) (d : T)
    (s1 : cache_wo T) (p1 l t : Nat)
    (hserv : operate_iter c s p = Outcome.serviced a d s1 p1)
    (hv : s._valid l = true) (ht : s._tag l = t)
    (hno : (decompose c a.toNat)._line ≠ l ∨ (decompose c a.toNat)._tag = t) :
    s1._valid l = true ∧ s1._tag l = t := by
  obtain ⟨f1, f2, _, _, _⟩ := operate_iter_serviced_fields c s p a d s1 p1 hserv
  obtain ⟨g1, g2⟩ := fill_valid_tag c s (decompose c a.toNat)
  by_cases hh : hit s (decompose c a.toNat) = true
  · simp only [hh, if_true] at f1 f2
    rw [f1, f2]; exact ⟨hv, ht⟩
  · simp only [hh, Bool.false_eq_true, if_false] at f1 f2
    rw [f1, f2, g1, g2]
    rcases hno with hne | htag
    · have hne2 : l ≠ (decompose c a.toNat)._line := fun e => hne e.symm
      rw [write_other _ _ _ _ hne2, write_other _ _ _ _ hne2]
      exact ⟨hv, ht⟩
    · by_cases hl : l = (decompose c a.toNat)._line
      · rw [hl, write_same, write_same]; exact ⟨rfl, htag⟩
      · rw [write_other _ _ _ _ hl, write_other _ _ _ _ hl]
        exact ⟨hv, ht⟩

end cache_wo

/-! ## A line is valid from its first serviced request on -/

namespace cache_wo

variable {T : Type}

/-- A serviced request clears no valid flag. -/
theorem serviced_valid_mono (c : Config) (s : cache_wo T) (p : Nat) (a : Int) (d : T)
    (s1 : cache_wo T) (p1 i : Nat)
    (hserv : operate_iter c s p = Outcome.serviced a d s1 p1) (hv : s._valid i = true) :
    s1._valid i = true := by
  obtain ⟨f1, _, _, _, _⟩ := operate_iter_serviced_fields c s p a d s1 p1 hserv
  obtain ⟨g1, _⟩ := fill_valid_tag c s (decompose c a.toNat)
  by_cases hh : hit s (decompose c a.toNat) = true
  · simp only [hh, if_true] at f1
    rw [f1]; exact hv
  · simp only [hh, Bool.false_eq_true, if_false] at f1
    rw [f1, g1]
    by_cases hl : i = (decompose c a.toNat)._line
    · rw [hl, write_same]
    · rw [write_other _ _ _ _ hl]; exact hv

/-- After a serviced request the line of its address is valid. -/
theorem serviced_valid_line (c : Config) (s : cache_wo T) (p : Nat) (a : Int) (d : T)
    (s1 : cache_wo T) (p1 : Nat)
    (hserv : operate_iter c s p = Outcome.serviced a d s1 p1) :
    s1._valid (decompose c a.toNat)._line = true := by
  obtain ⟨f1, _, _, _, _⟩ := operate_iter_serviced_fields c s p a d s1 p1 hserv
  obtain ⟨g1, _⟩ := fill_valid_tag c s (decompose c a.toNat)
  by_cases hh : hit s (decompose c a.toNat) = true
  · simp only [hh, if_true] at f1
    rw [f1]
    simp only [hit, Bool.and_eq_true] at hh
    exact hh.1
  · simp only [hh, Bool.false_eq_true, if_false] at f1
    rw [f1, g1, write_same]

/-- At the instant after the serviced request `e`, every line that was valid at the
start of the loop or is the line of `e` or of an earlier serviced request is valid. -/
theorem trace_valid_after (c : Config) (i : Nat) (fuel : Nat) (s : cache_wo T) (p : Nat)
    (pre rest : List (Nat × Int × T × cache_wo T)) (e : Nat × Int × T × cache_wo T)
    (htr : operate_trace c fuel s p = pre ++ e :: rest)
    (hi : s._valid i = true
      ∨ i ∈ (pre ++ [e]).map (fun r => (decompose c r.2.1.toNat)._line)) :
    e.2.2.2._valid i = true := by
  induction fuel generalizing s p pre with
  | zero =>
    simp only [operate_trace] at htr
    cases pre <;> simp at htr
  | succ n ih =>
    unfold operate_trace at htr
    cases hit : operate_iter c s p with
    | blocked => rw [hit] at htr; cases pre <;> simp at htr
    | stopped s1 => rw [hit] at htr; cases pre <;> simp at htr
    | serviced a d s1 p1 =>
      rw [hit] at htr
      simp only at htr
      have hmono := serviced_valid_mono c s p a d s1 p1 i hit
      have hline := serviced_valid_line c s p a d s1 p1 hit
      cases pre with
      | nil =>
        simp only [List.nil_append, List.cons.injEq] at htr
        obtain ⟨he, _⟩ := htr
        subst he
        simp only [List.nil_append, List.map_cons, List.map_nil, List.mem_singleton] at hi
        rcases hi with hv | hl
        · exact hmono hv
        · rw [hl]; exact hline
      | cons x pre2 =>
        simp only [List.cons_append, List.cons.injEq] at htr
        obtain ⟨hx, htl⟩ := htr
        subst hx
        apply ih s1 p1 pre2 htl
        simp only [List.cons_append, List.map_cons, List.mem_cons] at hi
        rcases hi with hv | hl | hin
        · exact Or.inl (hmono hv)
        · left; rw [hl]; exact hline
        · exact Or.inr hin

/-- When the sentinel is popped, every line that was valid at the start of the loop or
is the line of a serviced request is valid. -/
theorem loop_valid_after (c : Config) (i : Nat) (fuel : Nat) (s : cache_wo T) (p : Nat)
    (sp : cache_wo T) (hsp : operate_loop c fuel s p = some sp)
    (hi : s._valid i = true
      ∨ i ∈ (operate_trace c fuel s p).map (fun r => (decompose c r.2.1.toNat)._line)) :
    sp._valid i = true := by
  induction fuel generalizing s p with
  | zero => simp [operate_loop] at hsp
  | succ n ih =>
    unfold operate_loop at hsp
    unfold operate_trace at hi
    cases hit : operate_iter c s p with
    | blocked => rw [hit] at hsp; simp at hsp
    | stopped s1 =>
      rw [hit] at hsp hi
      simp only [Option.some.injEq] at hsp
      subst hsp
      simp only [List.map_nil, List.not_mem_nil, or_false] at hi
      rw [(operate_iter_stopped_inv c s p s1 hit).1]
      exact hi
    | serviced a d s1 p1 =>
      rw [hit] at hsp hi
      simp only [List.map_cons, List.mem_cons] at hi
      apply ih s1 p1 hsp
      rcases hi with hv | hl | hin
      · exact Or.inl (serviced_valid_mono c s p a d s1 p1 i hit hv)
      · left; rw [hl]; exact serviced_valid_line c s p a d s1 p1 hit
      · exact Or.inr hin

/-- `flush` changes no valid flag. -/
theorem flush_valid (c : Config) (s : cache_wo T) : (flush c s)._valid = s._valid := by
  unfold flush
  generalize List.range c.N_LINES = l
  induction l generalizing s with
  | nil => rfl
  | cons a l ih =>
    rw [List.foldl_cons, ih]
    unfold flush_body
    split_ifs
    · rw [spill_eq]
    · rfl

/-- Each entry of the trace keeps `dirty[i] ⟹ valid[i]` if it held at the start (the
entries being taken by position). -/
theorem trace_keeps_at (c : Config) (i : Nat) (fuel : Nat) (s : cache_wo T) (p : Nat)
    (pre rest : List (Nat × Int × T × cache_wo T)) (e : Nat × Int × T × cache_wo T)
    (htr : operate_trace c fuel s p = pre ++ e :: rest) (h : DirtyImpValid s i) :
    DirtyImpValid e.2.2.2 i := by
  apply operate_trace_keeps c i fuel s p h e
  rw [htr]
  simp

end cache_wo

namespace cache_wo

variable {T : Type}

/-- A serviced request leaves the flags of every other line as they were. -/
theorem serviced_other_line (c : Config) (h : c.WF) (s : cache_wo T) (p : Nat) (a : Int)
    (d : T) (s1 : cache_wo T) (p1 i : Nat)
    (hserv : operate_iter c s p = Outcome.serviced a d s1 p1)
    (hne : i ≠ (decompose c a.toNat)._line) :
    s1._valid i = s._valid i ∧ s1._dirty i = s._dirty i := by
  obtain ⟨f1, _, _, _, f5⟩ := operate_iter_serviced_fields c s p a d s1 p1 hserv
  have hl : (decompose c a.toNat)._line < 2 ^ c.LINE_SIZE := Nat.mod_lt _ (Nat.two_pow_pos _)
  obtain ⟨g1, _, g3, _, _⟩ := fill_fields c h s (decompose c a.toNat) hl
  by_cases hh : hit s (decompose c a.toNat) = true
  · simp only [hh, if_true] at f1 f5
    rw [f1, f5, write_other _ _ _ _ hne]
    exact ⟨rfl, rfl⟩
  · simp only [hh, Bool.false_eq_true, if_false] at f1 f5
    rw [f1, f5, g1, g3, write_other _ _ _ _ hne, write_other _ _ _ _ hne,
      write_other _ _ _ _ hne]
    exact ⟨rfl, rfl⟩

/-- A line on which no request has been serviced yet has the flags it had at the start
of the loop. -/
theorem unserviced_line_kept (c : Config) (h : c.WF) (i : Nat) (fuel : Nat)
    (s : cache_wo T) (p : Nat) (pre rest : List (Nat × Int × T × cache_wo T))
    (e : Nat × Int × T × cache_wo T) (htr : operate_trace c fuel s p = pre ++ e :: rest)
    (hi : i ∉ (pre ++ [e]).map (fun r => (decompose c r.2.1.toNat)._line)) :
    e.2.2.2._valid i = s._valid i ∧ e.2.2.2._dirty i = s._dirty i := by
  induction fuel generalizing s p pre with
  | zero =>
    simp only [operate_trace] at htr
    cases pre <;> simp at htr
  | succ n ih =>
    unfold operate_trace at htr
    cases hit : operate_iter c s p with
    | blocked => rw [hit] at htr; cases pre <;> simp at htr
    | stopped s1 => rw [hit] at htr; cases pre <;> simp at htr
    | serviced a d s1 p1 =>
      rw [hit] at htr
      simp only at htr
      cases pre with
      | nil =>
        simp only [List.nil_append, List.cons.injEq] at htr
        obtain ⟨he, _⟩ := htr
        subst he
        simp only [List.nil_append, List.map_cons, List.map_nil, List.mem_singleton] at hi
        exact serviced_other_line c h s p a d s1 p1 i hit hi
      | cons x pre2 =>
        simp only [List.cons_append, List.cons.injEq] at htr
        obtain ⟨hx, htl⟩ := htr
        subst hx
        simp only [List.cons_append, List.map_cons, List.mem_cons, not_or] at hi
        obtain ⟨r1, r2⟩ := ih s1 p1 pre2 htl hi.2
        obtain ⟨q1, q2⟩ := serviced_other_line c h s p a d s1 p1 i hit hi.1
        exact ⟨r1.trans q1, r2.trans q2⟩

/-- A line whose `_dirty` flag was set before `operate` started is dirty and not valid
right after the invalidation loop and after every serviced request up to the first
one on that line. -/
theorem stale_until_serviced (c : Config) (h : c.WF) (s : cache_wo T) (i : Nat)
    (hi : i < c.N_LINES) (hd : s._dirty i = true) :
    ((invalidate c s)._dirty i = true ∧ (invalidate c s)._valid i = false)
    ∧ ∀ (pre rest : List (Nat × Int × T × cache_wo T)) (e : Nat × Int × T × cache_wo T),
        operate_trace c (operate_fuel c (invalidate c s)) (invalidate c s) 0
          = pre ++ e :: rest →
        i ∉ (pre ++ [e]).map (fun r => (decompose c r.2.1.toNat)._line) →
        e.2.2.2._dirty i = true ∧ e.2.2.2._valid i = false := by
  have h0 : (invalidate c s)._dirty i = true ∧ (invalidate c s)._valid i = false :=
    ⟨by rw [invalidate_dirty]; exact hd, invalidate_valid c s i hi⟩
  refine ⟨h0, fun pre rest e htr hni => ?_⟩
  obtain ⟨r1, r2⟩ := unserviced_line_kept c h i _ _ 0 pre rest e htr hni
  exact ⟨r2.trans h0.1, r1.trans h0.2⟩

end cache_wo

/-! ## The single-line cache at the index the code computes, and at the line base -/

namespace raw_cache

variable {T : Type}

/-- The line base of the specification is the index the code computes when addresses
have at most 32 bits and fewer than 32 offset bits. -/
theorem main_line_eq_main_base (c : RawConfig) (hT : c.TAG_SIZE ≤ c.ADDR_SIZE)
    (hA : c.ADDR_SIZE ≤ 32) (hO : c.OFF_SIZE < 32) (a : Nat) (ha : a < 2 ^ c.ADDR_SIZE) :
    main_line c (addr_type.decode c a) = main_base c a :=
  (main_line_32 c hT hA hO a ha).1

/-- `get_line` right after `set_line` at the same address returns the line written, and
the line is in memory from the index the code computes. -/
theorem set_then_get (c : RawConfig) (s : raw_cache T c.N_WORDS_PER_LINE)
    (main_mem : Nat → T) (addr : Nat) (L line0 : Fin c.N_WORDS_PER_LINE → T) :
    (get_line c (set_line c s main_mem addr L).1 (set_line c s main_mem addr L).2
        addr line0).2 = L
    ∧ ∀ off : Fin c.N_WORDS_PER_LINE,
        (set_line c s main_mem addr L).2 (main_line c (addr_type.decode c addr) + off.val)
          = L off := by
  obtain ⟨fv, ft, fl, fm, _⟩ := set_line_fields c s main_mem addr L
  have hhit : hit (set_line c s main_mem addr L).1 (addr_type.decode c addr) = true := by
    simp only [hit, fv, ft, Bool.true_and, beq_self_eq_true]
  refine ⟨?_, fm⟩
  rw [(get_line_fields c _ _ addr line0).2, if_pos hhit, fl]

/-- Write-through round trip for addresses of at most 32 bits: the line is in memory
at the line base of the address. -/
theorem set_then_get_32 (c : RawConfig) (hT : c.TAG_SIZE ≤ c.ADDR_SIZE)
    (hA : c.ADDR_SIZE ≤ 32) (hO : c.OFF_SIZE < 32) (s : raw_cache T c.N_WORDS_PER_LINE)
    (main_mem : Nat → T) (addr : Nat) (ha : addr < 2 ^ c.ADDR_SIZE)
    (L line0 : Fin c.N_WORDS_PER_LINE → T) :
    (get_line c (set_line c s main_mem addr L).1 (set_line c s main_mem addr L).2
        addr line0).2 = L
    ∧ ∀ off : Fin c.N_WORDS_PER_LINE,
        (set_line c s main_mem addr L).2 (main_base c addr + off.val) = L off := by
  obtain ⟨h1, h2⟩ := set_then_get c s main_mem addr L line0
  rw [main_line_eq_main_base c hT hA hO addr ha] at h2
  exact ⟨h1, h2⟩

/-- On a miss `get_line` returns the memory words from the index the code computes and
leaves the object unchanged. -/
theorem read_miss (c : RawConfig) (s : raw_cache T c.N_WORDS_PER_LINE)
    (main_mem : Nat → T) (addr : Nat) (line0 : Fin c.N_WORDS_PER_LINE → T)
    (hmiss : s.m_valid = false ∨ (addr_type.decode c addr).m_tag ≠ s.m_tag) :
    (get_line c s main_mem addr line0).2
        = (fun off => main_mem (main_line c (addr_type.decode c addr) + off.val))
    ∧ (get_line c s main_mem addr line0).1 = s
    ∧ ∀ a, hit (get_line c s main_mem addr line0).1 (addr_type.decode c a)
        = hit s (addr_type.decode c a) := by
  have hh : hit s (addr_type.decode c addr) = false := by
    unfold hit
    rcases hmiss with hv | ht
    · rw [hv]; rfl
    · have : ((addr_type.decode c addr).m_tag == s.m_tag) = false := by
        simpa using ht
      rw [this]; simp
  obtain ⟨g1, g2⟩ := get_line_fields c s main_mem addr line0
  refine ⟨?_, g1, fun a => by rw [g1]⟩
  rw [g2, hh]
  simp only [Bool.false_eq_true, if_false]

/-- Read-miss purity for addresses of at most 32 bits: the words returned are those at
the line base of the address. -/
theorem read_miss_32 (c : RawConfig) (hT : c.TAG_SIZE ≤ c.ADDR_SIZE)
    (hA : c.ADDR_SIZE ≤ 32) (hO : c.OFF_SIZE < 32) (s : raw_cache T c.N_WORDS_PER_LINE)
    (main_mem : Nat → T) (addr : Nat) (ha : addr < 2 ^ c.ADDR_SIZE)
    (line0 : Fin c.N_WORDS_PER_LINE → T)
    (hmiss : s.m_valid = false ∨ (addr_type.decode c addr).m_tag ≠ s.m_tag) :
    (get_line c s main_mem addr line0).2 = (fun off => main_mem (main_base c addr + off.val))
    ∧ (get_line c s main_mem addr line0).1 = s := by
  obtain ⟨h1, h2, _⟩ := read_miss c s main_mem addr line0 hmiss
  rw [main_line_eq_main_base c hT hA hO addr ha] at h1
  exact ⟨h1, h2⟩

/-- In every state reached from `init()`, `get_line` returns, hit or miss, the memory
words from the index the code computes. -/
theorem transparent (c : RawConfig) (hT : c.TAG_SIZE ≤ c.ADDR_SIZE)
    (s0 : raw_cache T c.N_WORDS_PER_LINE) (mem0 : Nat → T)
    (ops : List (Op T c.N_WORDS_PER_LINE)) (hops : ∀ op ∈ ops, op.addr < 2 ^ c.ADDR_SIZE) :
    Coherent c (run c (init s0, mem0) ops).1 (run c (init s0, mem0) ops).2
    ∧ (∀ a, a < 2 ^ c.ADDR_SIZE → ∀ line0 : Fin c.N_WORDS_PER_LINE → T,
        (get_line c (run c (init s0, mem0) ops).1 (run c (init s0, mem0) ops).2 a line0).2
          = fun off => (run c (init s0, mem0) ops).2
              (main_line c (addr_type.decode c a) + off.val)) := by
  have hinit : Coherent c (init s0) mem0 := by
    intro hv
    simp [init] at hv
  have hco := run_coherent c hT ops (init s0, mem0) hops hinit
  refine ⟨hco, fun a ha line0 => ?_⟩
  rw [(get_line_fields c _ _ a line0).2]
  by_cases hh : hit (run c (init s0, mem0) ops).1 (addr_type.decode c a) = true
  · rw [if_pos hh]
    simp only [hit, Bool.and_eq_true, beq_iff_eq] at hh
    funext off
    exact hco hh.1 a ha hh.2 off
  · rw [if_neg hh]

/-- Transparency for addresses of at most 32 bits: in every state reached from
`init()`, `get_line` returns, hit or miss, the memory words at the line base of the
address. -/
theorem transparent_32 (c : RawConfig) (hT : c.TAG_SIZE ≤ c.ADDR_SIZE)
    (hA : c.ADDR_SIZE ≤ 32) (hO : c.OFF_SIZE < 32)
    (s0 : raw_cache T c.N_WORDS_PER_LINE) (mem0 : Nat → T)
    (ops : List (Op T c.N_WORDS_PER_LINE)) (hops : ∀ op ∈ ops, op.addr < 2 ^ c.ADDR_SIZE)
    (a : Nat) (ha : a < 2 ^ c.ADDR_SIZE) (line0 : Fin c.N_WORDS_PER_LINE → T) :
    (get_line c (run c (init s0, mem0) ops).1 (run c (init s0, mem0) ops).2 a line0).2
      = fun off => (run c (init s0, mem0) ops).2 (main_base c a + off.val) := by
  rw [(transparent c hT s0 mem0 ops hops).2 a ha line0,
    main_line_eq_main_base c hT hA hO a ha]

end raw_cache

/-! ## Claims -/

/-- C1 (flush completeness). If `OPERATE_LOOP` pops the sentinel in state `sp`, then
`operate` returns `flush sp`, in which (a) no line is both valid and dirty, and (b) for
every line `i` that was valid and dirty in `sp` and every offset, main memory at
`compose(tag[i], i, 0) + off` equals cache storage at `i * entries_per_line + off`
(storage and tags being those of `sp`, which `flush` does not change). -/
theorem C1_flush_completeness {T : Type} (c : Config) (h : c.WF) (s sp : cache_wo T)
    (hpop : cache_wo.operate_loop c (cache_wo.operate_fuel c (cache_wo.invalidate c s))
      (cache_wo.invalidate c s) 0 = some sp) :
    cache_wo.operate c s = some (cache_wo.flush c sp)
    ∧ (∀ i, i < c.N_LINES →
        ¬ ((cache_wo.flush c sp)._valid i = true ∧ (cache_wo.flush c sp)._dirty i = true))
    ∧ (cache_wo.flush c sp)._tag = sp._tag
    ∧ (cache_wo.flush c sp)._cache_mem = sp._cache_mem
    ∧ (∀ i, i < c.N_LINES → sp._valid i = true → sp._dirty i = true →
        ∀ off, off < c.N_ENTRIES_PER_LINE →
          (cache_wo.flush c sp)._main_mem (compose c ((cache_wo.flush c sp)._tag i) i 0 + off)
            = (cache_wo.flush c sp)._cache_mem (i * c.N_ENTRIES_PER_LINE + off)) := by
  have F := cache_wo.flush_spec c h sp
  refine ⟨?_, ?_, F.tag_eq, F.cache_eq, ?_⟩
  · simp only [cache_wo.operate, hpop, Option.map_some']
  · intro i hi hvd
    rw [F.valid_eq, F.dirty_eq i] at hvd
    simp [hi, hvd.1] at hvd
  · intro i hi hv hd off hoff
    rw [F.tag_eq, F.cache_eq]
    exact F.written i hi hv hd off hoff

/-- C1 at `demo1`: the sentinel is popped with line 0 valid and dirty, and the flush
writes its two words (and the word of line 1) to memory. -/
theorem C1_flush_completeness_witness :
    cache_wo.operate_loop cfg8 (cache_wo.operate_fuel cfg8 (cache_wo.invalidate cfg8 demo1))
        (cache_wo.invalidate cfg8 demo1) 0 = some demo1_popped
    ∧ demo1_popped._valid 0 = true ∧ demo1_popped._dirty 0 = true
    ∧ cache_wo.operate cfg8 demo1 = some (cache_wo.flush cfg8 demo1_popped)
    ∧ (cache_wo.flush cfg8 demo1_popped)._main_mem 0 = 7
    ∧ (cache_wo.flush cfg8 demo1_popped)._main_mem 1 = 8
    ∧ (cache_wo.flush cfg8 demo1_popped)._main_mem 2 = 9
    ∧ (cache_wo.flush cfg8 demo1_popped)._main_mem 3 = 103 :=
  have hp : cache_wo.operate_loop cfg8
      (cache_wo.operate_fuel cfg8 (cache_wo.invalidate cfg8 demo1))
      (cache_wo.invalidate cfg8 demo1) 0 = some demo1_popped := by rfl
  have hc := C1_flush_completeness cfg8 (by decide) demo1 demo1_popped hp
  ⟨hp, by rfl, by rfl, hc.1, by rfl, by rfl, by rfl, by rfl⟩

/-- C2 (write-back correctness of `fill` on eviction). Let line `L` be valid and dirty
with resident tag `T1`, and let `a` have line index `L` and a tag different from `T1`.
Then `fill(a)` is the load of the line performed on the state `s1` left by
`spill(build(T1, L))`; in `s1` main memory at `compose(T1, L, 0) + off` holds the
pre-fill cache word `L * entries_per_line + off`; after the fill, storage word
`L * entries_per_line + off` equals the post-spill memory word `main_base(a) + off`,
main memory is still that of `s1`, `tag[L]` is the tag of `a`, `valid[L]` is true and
`dirty[L]` is false. -/
theorem C2_fill_writeback {T : Type} (c : Config) (h : c.WF) (s : cache_wo T)
    (a L T1 : Nat) (hL : (decompose c a)._line = L)
    (hv : s._valid L = true) (hd : s._dirty L = true) (hT1 : s._tag L = T1)
    (_hT2 : (decompose c a)._tag ≠ T1) :
    (∀ off, off < c.N_ENTRIES_PER_LINE →
        (cache_wo.spill c s (build c T1 L 0))._main_mem (compose c T1 L 0 + off)
          = s._cache_mem (L * c.N_ENTRIES_PER_LINE + off))
    ∧ cache_wo.fill c s (decompose c a)
        = cache_wo.fill_load c (cache_wo.spill c s (build c T1 L 0)) (decompose c a)
    ∧ (∀ off, off < c.N_ENTRIES_PER_LINE →
        (cache_wo.fill c s (decompose c a))._cache_mem (L * c.N_ENTRIES_PER_LINE + off)
          = (cache_wo.spill c s (build c T1 L 0))._main_mem
              ((decompose c a)._addr_main_first_of_line + off))
    ∧ (cache_wo.fill c s (decompose c a))._main_mem
        = (cache_wo.spill c s (build c T1 L 0))._main_mem
    ∧ (cache_wo.fill c s (decompose c a))._tag L = (decompose c a)._tag
    ∧ (cache_wo.fill c s (decompose c a))._valid L = true
    ∧ (cache_wo.fill c s (decompose c a))._dirty L = false := by
  have hLlt : L < 2 ^ c.LINE_SIZE := by
    rw [← hL]; exact Nat.mod_lt _ (Nat.two_pow_pos _)
  obtain ⟨_, _, bc, bm⟩ := build_zero c h T1 L hLlt
  have hfill : cache_wo.fill c s (decompose c a)
      = cache_wo.fill_load c (cache_wo.spill c s (build c T1 L 0)) (decompose c a) := by
    unfold cache_wo.fill
    rw [hL, hv, hd, hT1]
    rfl
  have hcf : (decompose c a)._addr_cache_first_of_line = L * c.N_ENTRIES_PER_LINE := by
    rw [← hL]; rfl
  refine ⟨?_, hfill, ?_, ?_, ?_, ?_, ?_⟩
  · intro off hoff
    rw [cache_wo.spill_eq]
    simp only [bc, bm]
    rw [if_pos (by omega)]
    congr 1; omega
  · intro off hoff
    rw [hfill, cache_wo.fill_load_eq]
    simp only [hcf]
    rw [if_pos (by omega)]
    congr 2; omega
  · rw [hfill, cache_wo.fill_load_eq]
  · rw [hfill, cache_wo.fill_load_eq]; simp only [hL, write_same]
  · rw [hfill, cache_wo.fill_load_eq]; simp only [hL, write_same]
  · rw [hfill, cache_wo.fill_load_eq]; simp only [hL, write_same]

/-- C2 at `demo2` and address 8: the dirty line of tag 0 goes to memory words 0, 1
and words 8, 9 are loaded. -/
theorem C2_fill_writeback_witness :
    ((decompose cfg8 8)._line = 0 ∧ demo2._valid 0 = true ∧ demo2._dirty 0 = true
      ∧ demo2._tag 0 = 0 ∧ (decompose cfg8 8)._tag ≠ 0)
    ∧ (cache_wo.fill cfg8 demo2 (decompose cfg8 8))._main_mem 0 = 50
    ∧ (cache_wo.fill cfg8 demo2 (decompose cfg8 8))._main_mem 1 = 51
    ∧ (cache_wo.fill cfg8 demo2 (decompose cfg8 8))._cache_mem 0 = 108
    ∧ (cache_wo.fill cfg8 demo2 (decompose cfg8 8))._cache_mem 1 = 109
    ∧ (cache_wo.fill cfg8 demo2 (decompose cfg8 8))._tag 0 = 1
    ∧ (cache_wo.fill cfg8 demo2 (decompose cfg8 8))._valid 0 = true
    ∧ (cache_wo.fill cfg8 demo2 (decompose cfg8 8))._dirty 0 = false :=
  have hc := C2_fill_writeback cfg8 (by decide) demo2 8 0 0 (by decide) (by rfl) (by rfl)
    (by rfl) (by decide)
  ⟨⟨by decide, by rfl, by rfl, by rfl, by decide⟩, by rfl, by rfl, by rfl, by rfl,
    hc.2.2.2.2.1, hc.2.2.2.2.2.1, hc.2.2.2.2.2.2⟩

/-- C3, as stated, fails: with stale `_dirty` flags line 0 is dirty and not valid right
after the invalidation loop (and stays so after the request on line 1 and after the
final flush). -/
theorem C3_stale_dirty_counterexample :
    ¬ (∀ st ∈ cache_wo.operate_instants cfg8 demo3,
        ∀ i, i < cfg8.N_LINES → cache_wo.DirtyImpValid st i) := by
  intro hall
  have h0 := hall (cache_wo.invalidate cfg8 demo3) (List.mem_cons_self _ _) 0 (by decide)
  have hv : (cache_wo.invalidate cfg8 demo3)._valid 0 = true := h0 (by rfl)
  have hf : (cache_wo.invalidate cfg8 demo3)._valid 0 = false := by rfl
  rw [hf] at hv
  exact absurd hv (by decide)

/-- C3 (amended). For every prior content of the arrays and every stream contents, at
every observable instant of `operate`, every line `i` that had `_dirty[i] = false`
before `operate` started, or that is the line of a request serviced up to that instant,
satisfies `dirty[i] ⟹ valid[i]`: right after the invalidation loop for the lines with
`_dirty[i] = false`; after the serviced request `e` (the requests `pre` having been
serviced before it) also for the lines of `pre` and of `e`; after the final flush also
for the lines of all serviced requests. -/
theorem C3_dirty_implies_valid {T : Type} (c : Config) (s : cache_wo T) (i : Nat) :
    (s._dirty i = false → cache_wo.DirtyImpValid (cache_wo.invalidate c s) i)
    ∧ (∀ (pre rest : List (Nat × Int × T × cache_wo T)) (e : Nat × Int × T × cache_wo T),
        cache_wo.operate_trace c (cache_wo.operate_fuel c (cache_wo.invalidate c s))
            (cache_wo.invalidate c s) 0 = pre ++ e :: rest →
        (s._dirty i = false
          ∨ i ∈ (pre ++ [e]).map (fun r => (decompose c r.2.1.toNat)._line)) →
        cache_wo.DirtyImpValid e.2.2.2 i)
    ∧ (∀ sf, cache_wo.operate c s = some sf →
        (s._dirty i = false
          ∨ i ∈ (cache_wo.operate_trace c (cache_wo.operate_fuel c (cache_wo.invalidate c s))
              (cache_wo.invalidate c s) 0).map (fun r => (decompose c r.2.1.toNat)._line)) →
        cache_wo.DirtyImpValid sf i)
    ∧ (s._dirty i = false →
        ∀ st ∈ cache_wo.operate_instants c s, cache_wo.DirtyImpValid st i) := by
  have h0 : s._dirty i = false → cache_wo.DirtyImpValid (cache_wo.invalidate c s) i := by
    intro hclean
    unfold cache_wo.DirtyImpValid
    rw [cache_wo.invalidate_dirty, hclean]
    intro hf; exact absurd hf (by decide)
  have hfin : ∀ sf, cache_wo.operate c s = some sf →
      (s._dirty i = false
        ∨ i ∈ (cache_wo.operate_trace c (cache_wo.operate_fuel c (cache_wo.invalidate c s))
            (cache_wo.invalidate c s) 0).map (fun r => (decompose c r.2.1.toNat)._line)) →
      cache_wo.DirtyImpValid sf i := by
    intro sf hsf hi
    unfold cache_wo.operate at hsf
    simp only [Option.map_eq_some'] at hsf
    obtain ⟨sp, hsp, rfl⟩ := hsf
    rcases hi with hclean | hin
    · exact cache_wo.flush_keeps c sp i
        (cache_wo.operate_loop_keeps c i _ _ 0 (h0 hclean) sp hsp)
    · intro _
      rw [cache_wo.flush_valid]
      exact cache_wo.loop_valid_after c i _ _ 0 sp hsp (Or.inr hin)
  refine ⟨h0, fun pre rest e htr hi => ?_, hfin, fun hclean st hst => ?_⟩
  · rcases hi with hclean | hin
    · exact cache_wo.trace_keeps_at c i _ _ 0 pre rest e htr (h0 hclean)
    · intro _
      exact cache_wo.trace_valid_after c i _ _ 0 pre rest e htr (Or.inr hin)
  · unfold cache_wo.operate_instants at hst
    simp only [List.mem_cons, List.mem_append, List.mem_map, Option.mem_toList] at hst
    rcases hst with rfl | ⟨e, he, rfl⟩ | hf
    · exact h0 hclean
    · exact cache_wo.operate_trace_keeps c i _ _ 0 (h0 hclean) e he
    · exact hfin st hf (Or.inl hclean)

/-- C3 (amended) at `demo3`, where every `_dirty` flag is stale: after the request on
line 1 has been serviced, line 1 is dirty and valid, while line 0, not yet serviced,
is still dirty and not valid. -/
theorem C3_dirty_implies_valid_witness :
    demo3._dirty 1 = true
    ∧ cache_wo.operate_trace cfg8 (cache_wo.operate_fuel cfg8 (cache_wo.invalidate cfg8 demo3))
        (cache_wo.invalidate cfg8 demo3) 0 = [] ++ (0, 2, 9, demo3_after) :: []
    ∧ (decompose cfg8 (Int.toNat 2))._line = 1
    ∧ demo3_after._dirty 1 = true
    ∧ demo3_after._valid 1 = true
    ∧ demo3_after._dirty 0 = true ∧ demo3_after._valid 0 = false :=
  have htr : cache_wo.operate_trace cfg8
      (cache_wo.operate_fuel cfg8 (cache_wo.invalidate cfg8 demo3))
      (cache_wo.invalidate cfg8 demo3) 0 = [] ++ (0, 2, 9, demo3_after) :: [] := by rfl
  have hd : demo3_after._dirty 1 = true := by rfl
  have hc := (C3_dirty_implies_valid cfg8 demo3 1).2.1 [] [] (0, 2, 9, demo3_after) htr
    (Or.inr (by decide))
  ⟨by rfl, htr, by decide, hd, hc hd, by rfl, by rfl⟩

/-- C4, failing input. `raw_cache<T, 40, 36, 2>`, memory word `i` holding `100 + i`,
`set_line(2^32, [10, 11])`: the following `get_line(2^32)` returns `[10, 11]`, but the
two memory words starting at the line base of the address (`2^32`, its 4 offset bits
being 0) still hold their old values; the line went to words 0 and 1. -/
theorem C4_line_base_not_written :
    raw_cache.main_base rcfg40 4294967296 = 4294967296
    ∧ rline2 0 = 10 ∧ rline2 1 = 11
    ∧ (raw_cache.get_line rcfg40
          (raw_cache.set_line rcfg40 rdemo2 (fun i => 100 + i) 4294967296 rline2).1
          (raw_cache.set_line rcfg40 rdemo2 (fun i => 100 + i) 4294967296 rline2).2
          4294967296 (fun _ => 0)).2 0 = 10
    ∧ (raw_cache.get_line rcfg40
          (raw_cache.set_line rcfg40 rdemo2 (fun i => 100 + i) 4294967296 rline2).1
          (raw_cache.set_line rcfg40 rdemo2 (fun i => 100 + i) 4294967296 rline2).2
          4294967296 (fun _ => 0)).2 1 = 11
    ∧ (raw_cache.set_line rcfg40 rdemo2 (fun i => 100 + i) 4294967296 rline2).2
          (raw_cache.main_base rcfg40 4294967296 + 0) = 4294967396
    ∧ (raw_cache.set_line rcfg40 rdemo2 (fun i => 100 + i) 4294967296 rline2).2
          (raw_cache.main_base rcfg40 4294967296 + 1) = 4294967397
    ∧ (raw_cache.set_line rcfg40 rdemo2 (fun i => 100 + i) 4294967296 rline2).2 0 = 10
    ∧ (raw_cache.set_line rcfg40 rdemo2 (fun i => 100 + i) 4294967296 rline2).2 1 = 11 := by
  refine ⟨by decide, by rfl, by rfl, by rfl, by rfl, by rfl, by rfl, by rfl, by rfl⟩

/-- C5, failing input. `raw_cache<T, 40, 36, 2>` after `init()`, memory word `i`
holding `100 + i`: `get_line(2^32)` misses and leaves the object unchanged, but returns
memory words 0 and 1 (`100, 101`), not the two words starting at the line base `2^32`
of the address (`4294967396, 4294967397`). -/
theorem C5_miss_reads_low_words :
    raw_cache.hit rdemo2 (addr_type.decode rcfg40 4294967296) = false
    ∧ raw_cache.main_base rcfg40 4294967296 = 4294967296
    ∧ (raw_cache.get_line rcfg40 rdemo2 (fun i => 100 + i) 4294967296 (fun _ => 0)).2 0 = 100
    ∧ (raw_cache.get_line rcfg40 rdemo2 (fun i => 100 + i) 4294967296 (fun _ => 0)).2 1 = 101
    ∧ (fun i => 100 + i) (raw_cache.main_base rcfg40 4294967296 + 0) = 4294967396
    ∧ (fun i => 100 + i) (raw_cache.main_base rcfg40 4294967296 + 1) = 4294967397
    ∧ (raw_cache.get_line rcfg40 rdemo2 (fun i => 100 + i) 4294967296 (fun _ => 0)).1
        = rdemo2 := by
  refine ⟨by rfl, by decide, by rfl, by rfl, by rfl, by rfl, by rfl⟩

/-- C6 (concrete scenario, memory outcome). With `ADDR_SIZE=8, LINE_SIZE=2, OFF_SIZE=1,
N_PORTS=1`, for every initial memory and array contents and all values `v1..v8`:
`operate` returns; afterwards main memory holds `v7, v8` at 0, 1, `v3, v4` at 8, 9 and
`v5, v6` at 16, 17, every other word being unchanged; `OPERATE_LOOP` performs four
fills, all on line 0, of which exactly the last three spill first (the lines of tags
0, 1, 2); right after each evicting request the two words of the evicted line are in
main memory, and words 0, 1 still hold `v1, v2` after the last request, so `v7, v8`
are written by the final flush. -/
theorem C6_scenario_memory {T : Type} (s0 : cache_wo T) (v1 v2 v3 v4 v5 v6 v7 v8 : T) :
    (cache_wo.operate cfg8 (scenario s0 v1 v2 v3 v4 v5 v6 v7 v8)).map
        (fun sf => [sf._main_mem 0, sf._main_mem 1, sf._main_mem 8, sf._main_mem 9,
          sf._main_mem 16, sf._main_mem 17])
      = some [v7, v8, v3, v4, v5, v6]
    ∧ (∀ x, x ∉ [0, 1, 8, 9, 16, 17] →
        (cache_wo.operate cfg8 (scenario s0 v1 v2 v3 v4 v5 v6 v7 v8)).map
          (fun sf => sf._main_mem x) = some (s0._main_mem x))
    ∧ (cache_wo.operate_fills cfg8
          (cache_wo.operate_fuel cfg8
            (cache_wo.invalidate cfg8 (scenario s0 v1 v2 v3 v4 v5 v6 v7 v8)))
          (cache_wo.invalidate cfg8 (scenario s0 v1 v2 v3 v4 v5 v6 v7 v8)) 0).map
        (fun e => (e.1, e.2.2))
      = [(0, none), (0, some 0), (0, some 1), (0, some 2)]
    ∧ (cache_wo.operate_trace cfg8
          (cache_wo.operate_fuel cfg8
            (cache_wo.invalidate cfg8 (scenario s0 v1 v2 v3 v4 v5 v6 v7 v8)))
          (cache_wo.invalidate cfg8 (scenario s0 v1 v2 v3 v4 v5 v6 v7 v8)) 0).map
        (fun e => (e.2.1,
          [e.2.2.2._main_mem 0, e.2.2.2._main_mem 1, e.2.2.2._main_mem 8, e.2.2.2._main_mem 9,
           e.2.2.2._main_mem 16, e.2.2.2._main_mem 17]))
      = [(0, [s0._main_mem 0, s0._main_mem 1, s0._main_mem 8, s0._main_mem 9,
              s0._main_mem 16, s0._main_mem 17]),
         (1, [s0._main_mem 0, s0._main_mem 1, s0._main_mem 8, s0._main_mem 9,
              s0._main_mem 16, s0._main_mem 17]),
         (8, [v1, v2, s0._main_mem 8, s0._main_mem 9, s0._main_mem 16, s0._main_mem 17]),
         (9, [v1, v2, s0._main_mem 8, s0._main_mem 9, s0._main_mem 16, s0._main_mem 17]),
         (16, [v1, v2, v3, v4, s0._main_mem 16, s0._main_mem 17]),
         (17, [v1, v2, v3, v4, s0._main_mem 16, s0._main_mem 17]),
         (0, [v1, v2, v3, v4, v5, v6]),
         (1, [v1, v2, v3, v4, v5, v6])] := by
  obtain ⟨sp, hsp, h0, h1, h2, h3, hd, ht, hc0, hc1, hm⟩ :=
    scenario_loop s0 v1 v2 v3 v4 v5 v6 v7 v8
  have hop : cache_wo.operate cfg8 (scenario s0 v1 v2 v3 v4 v5 v6 v7 v8)
      = some (cache_wo.flush cfg8 sp) := by
    simp only [cache_wo.operate, hsp, Option.map_some']
  have hfl := scenario_flush sp h0 h1 h2 h3 hd ht
  refine ⟨?_, ?_, ?_, ?_⟩
  · rw [hop]
    simp only [Option.map_some', hfl, hm, hc0, hc1, write_apply, if_true, Nat.reduceEqDiff,
      OfNat.ofNat_ne_zero, OfNat.zero_ne_ofNat, if_false, reduceIte]
  · intro x hx
    simp only [List.mem_cons, List.mem_singleton, List.not_mem_nil, or_false, not_or] at hx
    obtain ⟨x0, x1, x8, x9, x16, x17⟩ := hx
    rw [hop]
    simp only [Option.map_some', hfl, hm, write_apply, x0, x1, x8, x9, x16, x17, if_false]
  · rw [scenario_fills]; rfl
  · have ht := scenario_trace s0 v1 v2 v3 v4 v5 v6 v7 v8
    have hmap := congrArg (List.map (fun e : Int × Nat × List T => (e.1, e.2.2))) ht
    simp only [List.map_map] at hmap
    exact hmap

/-- C7, as stated, fails: in the scenario the tags installed on line 0 are not
`0, 4, 8, 0` (address 8 has tag `8 / 2 ^ 3 = 1`, address 16 has tag 2). -/
theorem C7_tag_sequence_counterexample :
    (cache_wo.operate_fills cfg8
        (cache_wo.operate_fuel cfg8 (cache_wo.invalidate cfg8 (scenario demo2 1 2 3 4 5 6 7 8)))
        (cache_wo.invalidate cfg8 (scenario demo2 1 2 3 4 5 6 7 8)) 0).map
      (fun e => (e.1, e.2.1))
      ≠ [(0, 0), (0, 4), (0, 8), (0, 0)] := by
  rw [scenario_fills]
  decide

/-- C7 (amended). With `ADDR_SIZE=8, LINE_SIZE=2, OFF_SIZE=1, N_PORTS=1` (`TAG_SIZE=5`),
servicing writes to addresses `0,1,8,9,16,17,0,1` in that order performs four fills,
all on line index 0, installing the tags `0, 1, 2, 0` in turn; `tag[0]` after the
eight requests is `0,0,1,1,2,2,0,0`. -/
theorem C7_tag_sequence {T : Type} (s0 : cache_wo T) (v1 v2 v3 v4 v5 v6 v7 v8 : T) :
    cfg8.TAG_SIZE = 5
    ∧ (cache_wo.operate_fills cfg8
          (cache_wo.operate_fuel cfg8
            (cache_wo.invalidate cfg8 (scenario s0 v1 v2 v3 v4 v5 v6 v7 v8)))
          (cache_wo.invalidate cfg8 (scenario s0 v1 v2 v3 v4 v5 v6 v7 v8)) 0).map
        (fun e => (e.1, e.2.1))
      = [(0, 0), (0, 1), (0, 2), (0, 0)]
    ∧ (cache_wo.operate_trace cfg8
          (cache_wo.operate_fuel cfg8
            (cache_wo.invalidate cfg8 (scenario s0 v1 v2 v3 v4 v5 v6 v7 v8)))
          (cache_wo.invalidate cfg8 (scenario s0 v1 v2 v3 v4 v5 v6 v7 v8)) 0).map
        (fun e => (e.2.1, e.2.2.2._tag 0))
      = [(0, 0), (1, 0), (8, 1), (9, 1), (16, 2), (17, 2), (0, 0), (1, 0)] := by
  refine ⟨by decide, ?_, ?_⟩
  · rw [scenario_fills]; rfl
  · have ht := scenario_trace s0 v1 v2 v3 v4 v5 v6 v7 v8
    have hmap := congrArg (List.map (fun e : Int × Nat × List T => (e.1, e.2.1))) ht
    simp only [List.map_map] at hmap
    exact hmap

/-- C8 (round-robin service order). For every `N_PORTS ≥ 1` and every contents of the
streams, the `k`-th request serviced by `OPERATE_LOOP` (`k = 0, 1, ...`) was read from
port `k % N_PORTS` and is the element number `k / N_PORTS` of the address and data
streams of that port as they were when `operate` started. -/
theorem C8_round_robin {T : Type} (c : Config) (hN : 1 ≤ c.N_PORTS) (s : cache_wo T)
    (k : Nat)
    (hk : k < (cache_wo.operate_trace c (cache_wo.operate_fuel c (cache_wo.invalidate c s))
      (cache_wo.invalidate c s) 0).length) :
    ((cache_wo.operate_trace c (cache_wo.operate_fuel c (cache_wo.invalidate c s))
        (cache_wo.invalidate c s) 0).get ⟨k, hk⟩).1 = k % c.N_PORTS
    ∧ (s._wr_addr (k % c.N_PORTS))[k / c.N_PORTS]?
        = some ((cache_wo.operate_trace c (cache_wo.operate_fuel c (cache_wo.invalidate c s))
            (cache_wo.invalidate c s) 0).get ⟨k, hk⟩).2.1
    ∧ (s._wr_data (k % c.N_PORTS))[k / c.N_PORTS]?
        = some ((cache_wo.operate_trace c (cache_wo.operate_fuel c (cache_wo.invalidate c s))
            (cache_wo.invalidate c s) 0).get ⟨k, hk⟩).2.2.1 := by
  have he : (cache_wo.operate_trace c (cache_wo.operate_fuel c (cache_wo.invalidate c s))
      (cache_wo.invalidate c s) 0)[k]?
      = some ((cache_wo.operate_trace c (cache_wo.operate_fuel c (cache_wo.invalidate c s))
          (cache_wo.invalidate c s) 0).get ⟨k, hk⟩) := by
    rw [List.getElem?_eq_getElem hk]; rfl
  have h := cache_wo.operate_trace_order c _ _ 0 (by omega) k _ he
  rw [Nat.zero_add, cache_wo.invalidate_wr_addr, cache_wo.invalidate_wr_data] at h
  exact h

/-- C8 at `demo4` (two ports) and `k = 2`: the third serviced request is element 1 of
port 0. -/
theorem C8_round_robin_witness :
    (cache_wo.operate_trace cfg8p2 (cache_wo.operate_fuel cfg8p2 (cache_wo.invalidate cfg8p2 demo4))
        (cache_wo.invalidate cfg8p2 demo4) 0).map (fun e => (e.1, e.2.1, e.2.2.1))
      = [(0, 0, 10), (1, 2, 20), (0, 4, 30)]
    ∧ (demo4._wr_addr (2 % cfg8p2.N_PORTS))[2 / cfg8p2.N_PORTS]? = some 4
    ∧ (demo4._wr_data (2 % cfg8p2.N_PORTS))[2 / cfg8p2.N_PORTS]? = some 30 :=
  have hk : 2 < (cache_wo.operate_trace cfg8p2
      (cache_wo.operate_fuel cfg8p2 (cache_wo.invalidate cfg8p2 demo4))
      (cache_wo.invalidate cfg8p2 demo4) 0).length := by decide
  have hc := C8_round_robin cfg8p2 (by decide) demo4 2 hk
  ⟨by rfl, hc.2.1.trans (by rfl), hc.2.2.trans (by rfl)⟩

/-- C9, failing input. Two ports, three stores `cache[0] = 10; cache[200] = 20;
cache[4] = 30;` then `stop_operation`: address 200 is queued on port 1 as `-56`, so
`operate` services only the first write, takes the second for the sentinel, flushes and
returns; the writes to 200 and to 4 are never serviced (their data stay queued, memory
words 200 and 4 keep their old values). -/
theorem C9_unserviced_writes :
    demo9._wr_addr 0 = [0, 4, -1] ∧ demo9._wr_addr 1 = [-56, -1]
    ∧ demo9._wr_data 0 = [10, 30] ∧ demo9._wr_data 1 = [20]
    ∧ (cache_wo.operate_trace cfg8p2
          (cache_wo.operate_fuel cfg8p2 (cache_wo.invalidate cfg8p2 demo9))
          (cache_wo.invalidate cfg8p2 demo9) 0).map (fun e => (e.1, e.2.1, e.2.2.1))
        = [(0, 0, 10)]
    ∧ (cache_wo.operate cfg8p2 demo9).map
          (fun sf => (sf._main_mem 0, sf._main_mem 4, sf._main_mem 200,
            sf._wr_addr 0, sf._wr_data 0, sf._wr_addr 1, sf._wr_data 1))
        = some (10, 104, 300, [4, -1], [30], [-1], [20]) := by
  refine ⟨by rfl, by rfl, by rfl, by rfl, by rfl, by rfl⟩

/-- C10, failing input. With `ADDR_SIZE = 8` the store `cache[128] = 77;` queues the
address as the `ap_int<8>` value `-128`; `OPERATE_LOOP` pops it, finds it negative and
breaks: no request is serviced, the datum stays queued and memory word 128 is not
written. -/
theorem C10_address_128_is_sentinel :
    toSigned cfg8.ADDR_SIZE 128 = -128
    ∧ demo10._wr_addr 0 = [-128, -1] ∧ demo10._wr_data 0 = [77]
    ∧ cache_wo.operate_trace cfg8 (cache_wo.operate_fuel cfg8 (cache_wo.invalidate cfg8 demo10))
          (cache_wo.invalidate cfg8 demo10) 0 = []
    ∧ (cache_wo.operate cfg8 demo10).map
          (fun sf => (sf._main_mem 128, sf._wr_addr 0, sf._wr_data 0))
        = some (228, [-1], [77]) := by
  refine ⟨by decide, by rfl, by rfl, by rfl, by rfl⟩

/-- C11, as stated, fails: on an engine with empty streams a second `stop_operation`
leaves two sentinels on port 0 where one call leaves one. -/
theorem C11_stop_twice_counterexample :
    (cache_wo.stop_operation cfg8 (cache_wo.stop_operation cfg8 demo11))._wr_addr 0 = [-1, -1]
    ∧ (cache_wo.stop_operation cfg8 demo11)._wr_addr 0 = [-1]
    ∧ ¬ (∀ p, (cache_wo.stop_operation cfg8 (cache_wo.stop_operation cfg8 demo11))._wr_addr p
          = (cache_wo.stop_operation cfg8 demo11)._wr_addr p) := by
  have h2 : (cache_wo.stop_operation cfg8 (cache_wo.stop_operation cfg8 demo11))._wr_addr 0
      = [-1, -1] := by rfl
  have h1 : (cache_wo.stop_operation cfg8 demo11)._wr_addr 0 = [-1] := by rfl
  refine ⟨h2, h1, fun hall => ?_⟩
  have h := hall 0
  rw [h2, h1] at h
  exact absurd h (by decide)

/-- C11 (amended). Every call of `stop_operation` appends one sentinel to the address
stream of every port `q < N_PORTS` and changes nothing else: after two calls each of
these streams is the stream after one call with one more sentinel at its end, and all
other components of the engine state are the same after one and after two calls. -/
theorem C11_stop_appends {T : Type} (c : Config) (s : cache_wo T) :
    (∀ q, (cache_wo.stop_operation c s)._wr_addr q
        = if q < c.N_PORTS then s._wr_addr q ++ [toSigned c.ADDR_SIZE (-1)] else s._wr_addr q)
    ∧ (∀ q, (cache_wo.stop_operation c (cache_wo.stop_operation c s))._wr_addr q
        = if q < c.N_PORTS
          then (cache_wo.stop_operation c s)._wr_addr q ++ [toSigned c.ADDR_SIZE (-1)]
          else (cache_wo.stop_operation c s)._wr_addr q)
    ∧ (cache_wo.stop_operation c (cache_wo.stop_operation c s))._wr_data
        = (cache_wo.stop_operation c s)._wr_data
    ∧ (cache_wo.stop_operation c (cache_wo.stop_operation c s))._valid
        = (cache_wo.stop_operation c s)._valid
    ∧ (cache_wo.stop_operation c (cache_wo.stop_operation c s))._dirty
        = (cache_wo.stop_operation c s)._dirty
    ∧ (cache_wo.stop_operation c (cache_wo.stop_operation c s))._tag
        = (cache_wo.stop_operation c s)._tag
    ∧ (cache_wo.stop_operation c (cache_wo.stop_operation c s))._cache_mem
        = (cache_wo.stop_operation c s)._cache_mem
    ∧ (cache_wo.stop_operation c (cache_wo.stop_operation c s))._main_mem
        = (cache_wo.stop_operation c s)._main_mem
    ∧ (cache_wo.stop_operation c (cache_wo.stop_operation c s)).set_curr_port
        = (cache_wo.stop_operation c s).set_curr_port := by
  have key : ∀ t : cache_wo T,
      (∀ q, (cache_wo.stop_operation c t)._wr_addr q
        = if q < c.N_PORTS then t._wr_addr q ++ [toSigned c.ADDR_SIZE (-1)] else t._wr_addr q)
      ∧ (cache_wo.stop_operation c t)._wr_data = t._wr_data
      ∧ (cache_wo.stop_operation c t)._valid = t._valid
      ∧ (cache_wo.stop_operation c t)._dirty = t._dirty
      ∧ (cache_wo.stop_operation c t)._tag = t._tag
      ∧ (cache_wo.stop_operation c t)._cache_mem = t._cache_mem
      ∧ (cache_wo.stop_operation c t)._main_mem = t._main_mem
      ∧ (cache_wo.stop_operation c t).set_curr_port = t.set_curr_port := by
    intro t
    refine ⟨fun q => (cache_wo.stop_operation_loop _ t c.N_PORTS).2 q, ?_⟩
    unfold cache_wo.stop_operation
    generalize List.range c.N_PORTS = l
    induction l generalizing t with
    | nil => exact ⟨rfl, rfl, rfl, rfl, rfl, rfl, rfl⟩
    | cons a l ih => rw [List.foldl_cons]; exact ih _
  obtain ⟨k1, _⟩ := key s
  obtain ⟨k2, r1, r2, r3, r4, r5, r6, r7⟩ := key (cache_wo.stop_operation c s)
  exact ⟨k1, k2, r1, r2, r3, r4, r5, r6, r7⟩

/-- C13 (`compose` is the inverse of `decompose`). For widths with
`TAG_SIZE + LINE_SIZE + OFF_SIZE = ADDR_SIZE`: every `ADDR_SIZE`-bit address is the
composition of its tag, line and offset, and the composition of its tag and line with
offset 0 is its line base; for all `t < 2^TAG_SIZE`, `l < 2^LINE_SIZE`,
`o < 2^OFF_SIZE` the decomposition of `compose(t, l, o)` has tag `t`, line `l`, offset
`o` and cache index `l * entries_per_line + o`; hence `build(t, l)` has line `l` and
tag `t`. -/
theorem C13_compose_inverse (c : Config) (h : c.WF) :
    (∀ a, a < 2 ^ c.ADDR_SIZE →
        compose c (decompose c a)._tag (decompose c a)._line (decompose c a)._off = a
        ∧ compose c (decompose c a)._tag (decompose c a)._line 0
            = (decompose c a)._addr_main_first_of_line
        ∧ (decompose c a)._addr_main_first_of_line = a - a % 2 ^ c.OFF_SIZE)
    ∧ (∀ t l o, t < 2 ^ c.TAG_SIZE → l < 2 ^ c.LINE_SIZE → o < 2 ^ c.OFF_SIZE →
        (decompose c (compose c t l o))._tag = t
        ∧ (decompose c (compose c t l o))._line = l
        ∧ (decompose c (compose c t l o))._off = o
        ∧ (decompose c (compose c t l o))._addr_cache = l * c.N_ENTRIES_PER_LINE + o)
    ∧ (∀ t l, t < 2 ^ c.TAG_SIZE → l < 2 ^ c.LINE_SIZE →
        (build c t l 0)._line = l ∧ (build c t l 0)._tag = t) := by
  refine ⟨fun a ha => ⟨compose_decompose c h a ha, compose_decompose_base c h a ha, ?_⟩,
    fun t l o ht hl ho => ?_, fun t l ht hl => ?_⟩
  · simp only [decompose, Nat.mod_eq_of_lt ha]
  · obtain ⟨h1, h2, h3, h4, _⟩ := decompose_compose c h t l o ht hl ho
    exact ⟨h1, h2, h3, h4⟩
  · obtain ⟨h1, h2, _⟩ := decompose_compose c h t l 0 ht hl (Nat.two_pow_pos _)
    exact ⟨h2, h1⟩

/-- C13 at the scenario widths: address 137 = tag 17, line 0, offset 1. -/
theorem C13_compose_inverse_witness :
    cfg8.WF
    ∧ (decompose cfg8 137)._tag = 17 ∧ (decompose cfg8 137)._line = 0
    ∧ (decompose cfg8 137)._off = 1
    ∧ compose cfg8 (decompose cfg8 137)._tag (decompose cfg8 137)._line
        (decompose cfg8 137)._off = 137
    ∧ (decompose cfg8 (compose cfg8 17 2 1))._line = 2
    ∧ (build cfg8 17 2 0)._tag = 17 :=
  have hc := C13_compose_inverse cfg8 (by decide)
  ⟨by decide, by decide, by decide, by decide, (hc.1 137 (by decide)).1,
    (hc.2.1 17 2 1 (by decide) (by decide) (by decide)).2.1,
    (hc.2.2 17 2 (by decide) (by decide)).2⟩

/-- C12 (hit correctness, write-back deferral). Let line `l` hold tag `t` and be valid
(which is the case right after `fill` for any address with line `l` and tag `t`, and
stays so after the serviced write). A serviced write `(a, d)` with line `l` and tag `t`
is a hit; it leaves main memory, all tags and all valid flags unchanged; afterwards
cache storage at `cache_index(a) = l * entries_per_line + offset(a)` holds `d`, every
other storage word keeps its value, and line `l` is dirty. Line `l` stays valid with
tag `t` across every serviced request that is not a miss on line `l`. -/
theorem C12_hit_write {T : Type} (c : Config) (s : cache_wo T) (p : Nat) (a : Int) (d : T)
    (s1 : cache_wo T) (p1 l t : Nat)
    (hserv : cache_wo.operate_iter c s p = cache_wo.Outcome.serviced a d s1 p1)
    (hline : (decompose c a.toNat)._line = l) (htag : (decompose c a.toNat)._tag = t)
    (hv : s._valid l = true) (ht : s._tag l = t) :
    (∀ s0 : cache_wo T, (cache_wo.fill c s0 (decompose c a.toNat))._valid l = true
        ∧ (cache_wo.fill c s0 (decompose c a.toNat))._tag l = t)
    ∧ cache_wo.hit s (decompose c a.toNat) = true
    ∧ s1._main_mem = s._main_mem ∧ s1._tag = s._tag ∧ s1._valid = s._valid
    ∧ (decompose c a.toNat)._addr_cache
        = l * c.N_ENTRIES_PER_LINE + (decompose c a.toNat)._off
    ∧ s1._cache_mem (l * c.N_ENTRIES_PER_LINE + (decompose c a.toNat)._off) = d
    ∧ (∀ x, x ≠ l * c.N_ENTRIES_PER_LINE + (decompose c a.toNat)._off →
        s1._cache_mem x = s._cache_mem x)
    ∧ s1._dirty l = true
    ∧ (∀ (s2 s3 : cache_wo T) (p2 p3 : Nat) (a2 : Int) (d2 : T),
        cache_wo.operate_iter c s2 p2 = cache_wo.Outcome.serviced a2 d2 s3 p3 →
        s2._valid l = true → s2._tag l = t →
        ((decompose c a2.toNat)._line ≠ l ∨ (decompose c a2.toNat)._tag = t) →
        s3._valid l = true ∧ s3._tag l = t) := by
  have hh : cache_wo.hit s (decompose c a.toNat) = true := by
    simp only [cache_wo.hit, hline, htag, hv, ht, Bool.true_and, beq_self_eq_true]
  obtain ⟨f1, f2, f3, f4, f5⟩ := cache_wo.operate_iter_serviced_fields c s p a d s1 p1 hserv
  simp only [hh, if_true] at f1 f2 f3 f4 f5
  have hci : (decompose c a.toNat)._addr_cache
      = l * c.N_ENTRIES_PER_LINE + (decompose c a.toNat)._off := by
    rw [← hline]; rfl
  refine ⟨fun s0 => ?_, hh, f3, f2, f1, hci, ?_, fun x hx => ?_, ?_,
    fun s2 s3 p2 p3 a2 d2 hs2 hv2 ht2 hno =>
      cache_wo.resident_kept c s2 p2 a2 d2 s3 p3 l t hs2 hv2 ht2 hno⟩
  · unfold cache_wo.fill
    rw [cache_wo.fill_load_eq]
    simp only [hline, htag, write_same, and_self]
  · rw [f4, hci, write_same]
  · rw [f4, hci, write_other _ _ _ _ hx]
  · rw [f5, hline, write_same]

/-- C12 at `demo12`: the write `(1, 9)` hits line 0; memory words 0, 1 keep 100, 101,
storage word 1 becomes 9 and storage word 0 keeps 50. -/
theorem C12_hit_write_witness :
    cache_wo.operate_iter cfg8 demo12 0 = cache_wo.Outcome.serviced 1 9 demo12_after 0
    ∧ (decompose cfg8 (Int.toNat 1))._line = 0 ∧ (decompose cfg8 (Int.toNat 1))._tag = 0
    ∧ demo12._valid 0 = true ∧ demo12._tag 0 = 0
    ∧ demo12_after._main_mem = demo12._main_mem
    ∧ demo12_after._cache_mem 1 = 9 ∧ demo12_after._cache_mem 0 = 50 :=
  have hs : cache_wo.operate_iter cfg8 demo12 0
      = cache_wo.Outcome.serviced 1 9 demo12_after 0 := by rfl
  have hc := C12_hit_write cfg8 demo12 0 1 9 demo12_after 0 0 0 hs (by decide) (by decide)
    (by rfl) (by rfl)
  ⟨hs, by decide, by decide, by rfl, by rfl, hc.2.2.1, by rfl, by rfl⟩

/-- C17 (locality of one serviced request). Servicing a request `(a, d)` with line
index `l` leaves `valid[i]`, `dirty[i]`, `tag[i]` and every storage word
`i * entries_per_line + off` of every other line `i ≠ l` unchanged, and leaves every
main-memory word outside the `entries_per_line` words starting at
`compose(old tag[l], l, 0)` unchanged. -/
theorem C17_service_local {T : Type} (c : Config) (h : c.WF) (s : cache_wo T) (p : Nat)
    (a : Int) (d : T) (s1 : cache_wo T) (p1 l : Nat)
    (hserv : cache_wo.operate_iter c s p = cache_wo.Outcome.serviced a d s1 p1)
    (hline : (decompose c a.toNat)._line = l) :
    (∀ i, i ≠ l →
        s1._valid i = s._valid i ∧ s1._dirty i = s._dirty i ∧ s1._tag i = s._tag i
        ∧ ∀ off, off < c.N_ENTRIES_PER_LINE →
            s1._cache_mem (i * c.N_ENTRIES_PER_LINE + off)
              = s._cache_mem (i * c.N_ENTRIES_PER_LINE + off))
    ∧ (∀ x, ¬ (compose c (s._tag l) l 0 ≤ x
              ∧ x < compose c (s._tag l) l 0 + c.N_ENTRIES_PER_LINE) →
        s1._main_mem x = s._main_mem x) := by
  obtain ⟨f1, f2, f3, f4, f5⟩ := cache_wo.operate_iter_serviced_fields c s p a d s1 p1 hserv
  have hl : (decompose c a.toNat)._line < 2 ^ c.LINE_SIZE := Nat.mod_lt _ (Nat.two_pow_pos _)
  have ho : (decompose c a.toNat)._off < c.N_ENTRIES_PER_LINE := by
    rw [N_ENTRIES_PER_LINE_eq]; exact Nat.mod_lt _ (Nat.two_pow_pos _)
  have hci : (decompose c a.toNat)._addr_cache
      = l * c.N_ENTRIES_PER_LINE + (decompose c a.toNat)._off := by
    rw [← hline]; rfl
  have hcf : (decompose c a.toNat)._addr_cache_first_of_line = l * c.N_ENTRIES_PER_LINE := by
    rw [← hline]; rfl
  have hsep : ∀ i, i ≠ l → ∀ off, off < c.N_ENTRIES_PER_LINE → ∀ off2,
      off2 < c.N_ENTRIES_PER_LINE →
      i * c.N_ENTRIES_PER_LINE + off ≠ l * c.N_ENTRIES_PER_LINE + off2 := by
    intro i hi off hoff off2 hoff2 e
    apply hi
    have h1 : (i * c.N_ENTRIES_PER_LINE + off) / c.N_ENTRIES_PER_LINE = i := by
      rw [Nat.add_comm, Nat.add_mul_div_right _ _ (by omega), Nat.div_eq_of_lt hoff]; omega
    have h2 : (l * c.N_ENTRIES_PER_LINE + off2) / c.N_ENTRIES_PER_LINE = l := by
      rw [Nat.add_comm, Nat.add_mul_div_right _ _ (by omega), Nat.div_eq_of_lt hoff2]; omega
    rw [← h1, ← h2, e]
  obtain ⟨g1, g2, g3, g4, g5⟩ := cache_wo.fill_fields c h s (decompose c a.toNat) hl
  by_cases hh : cache_wo.hit s (decompose c a.toNat) = true
  · simp only [hh, if_true] at f1 f2 f3 f4 f5
    refine ⟨fun i hi => ⟨by rw [f1], ?_, by rw [f2], fun off hoff => ?_⟩, fun x _ => by rw [f3]⟩
    · rw [f5, hline, write_other _ _ _ _ hi]
    · rw [f4, hci, write_other _ _ _ _ (hsep i hi off hoff _ ho)]
  · simp only [hh, Bool.false_eq_true, if_false] at f1 f2 f3 f4 f5
    refine ⟨fun i hi => ⟨?_, ?_, ?_, fun off hoff => ?_⟩, fun x hx => ?_⟩
    · rw [f1, g1, hline, write_other _ _ _ _ hi]
    · rw [f5, g3, hline, write_other _ _ _ _ hi, write_other _ _ _ _ hi]
    · rw [f2, g2, hline, write_other _ _ _ _ hi]
    · rw [f4, hci, write_other _ _ _ _ (hsep i hi off hoff _ ho), g5, hcf, if_neg]
      intro hcon
      exact hsep i hi off hoff (i * c.N_ENTRIES_PER_LINE + off - l * c.N_ENTRIES_PER_LINE)
        (by omega) (by omega)
    · rw [f3, g4, hline, if_neg]
      intro hcon
      exact hx hcon.2

/-- C17 at `demo17`: the write `(9, 7)` evicts line 0 (tag 0); line 1 and its storage
words 2, 3 are untouched and memory words 2 and 9 keep their values. -/
theorem C17_service_local_witness :
    cfg8.WF
    ∧ cache_wo.operate_iter cfg8 demo17 0 = cache_wo.Outcome.serviced 9 7 demo17_after 0
    ∧ (decompose cfg8 (Int.toNat 9))._line = 0
    ∧ demo17_after._tag 0 = 1 ∧ demo17_after._main_mem 0 = 50
    ∧ demo17_after._main_mem 1 = 51
    ∧ demo17_after._cache_mem 2 = demo17._cache_mem 2
    ∧ demo17_after._main_mem 9 = demo17._main_mem 9 :=
  have hs : cache_wo.operate_iter cfg8 demo17 0
      = cache_wo.Outcome.serviced 9 7 demo17_after 0 := by rfl
  have hc := C17_service_local cfg8 (by decide) demo17 0 9 7 demo17_after 0 0 hs (by decide)
  ⟨by decide, hs, by decide, by rfl, by rfl, by rfl,
    ((hc.1 1 (by decide)).2.2.2 0 (by decide)), hc.2 9 (by decide)⟩

/-- C14, failing input. `raw_cache<T, 40, 36, 2>` (4 offset bits) and the 40-bit
address `2^32`: the mask `-1U << OFF_SIZE` is the 32-bit value `0xFFFFFFF0`, so the
line base computed by `get_line` and `set_line` is 0, not `2^32` (the address with its
4 low bits cleared); address 0 has a different tag and the same span start;
`set_line` at `2^32` overwrites memory words 0, 1 and leaves word `2^32` alone, and a
missing `get_line` at `2^32` reads word 0. -/
theorem C14_high_address_bits_lost :
    rcfg40.OFF_SIZE = 4
    ∧ raw_cache.line_mask rcfg40 = 4294967280
    ∧ raw_cache.main_line rcfg40 (addr_type.decode rcfg40 4294967296) = 0
    ∧ 4294967296 - 4294967296 % 2 ^ rcfg40.OFF_SIZE = 4294967296
    ∧ (addr_type.decode rcfg40 4294967296).m_tag = 268435456
    ∧ (addr_type.decode rcfg40 0).m_tag = 0
    ∧ raw_cache.main_line rcfg40 (addr_type.decode rcfg40 0) = 0
    ∧ (raw_cache.set_line rcfg40 rdemo2 (fun i => 100 + i) 4294967296 rline2).2 0 = 10
    ∧ (raw_cache.set_line rcfg40 rdemo2 (fun i => 100 + i) 4294967296 rline2).2 1 = 11
    ∧ (raw_cache.set_line rcfg40 rdemo2 (fun i => 100 + i) 4294967296 rline2).2 4294967296
        = 4294967396
    ∧ (raw_cache.get_line rcfg40 rdemo2 (fun i => 100 + i) 4294967296 (fun _ => 0)).2 0
        = 100 := by
  refine ⟨by decide, by decide, by decide, by decide, by decide, by decide, by decide,
    by rfl, by rfl, by rfl, by rfl⟩

/-- C16, failing input. `raw_cache<T, 40, 36, 2>`, memory word `i` holding `100 + i`,
the calls `init(); set_line(2^32, [10, 11]); get_line(5, ..)`: the state reached is
valid with the tag `2^28` of address `2^32` and holds `[10, 11]`, while the memory words
at the line base `2^32` of that tag hold `4294967396, 4294967397`: the cache is not
coherent with memory at the line base, and `get_line(2^32)` (a hit) returns `[10, 11]`,
not the memory words starting at the line base of the address. -/
theorem C16_not_coherent_at_line_base :
    (raw_cache.run rcfg40 (raw_cache.init rdemo2, fun i => 100 + i)
        [raw_cache.Op.set_line 4294967296 rline2,
         raw_cache.Op.get_line 5 (fun _ => 0)]).1.m_valid = true
    ∧ (raw_cache.run rcfg40 (raw_cache.init rdemo2, fun i => 100 + i)
        [raw_cache.Op.set_line 4294967296 rline2,
         raw_cache.Op.get_line 5 (fun _ => 0)]).1.m_tag
        = (addr_type.decode rcfg40 4294967296).m_tag
    ∧ raw_cache.main_base rcfg40 4294967296 = 4294967296
    ∧ (raw_cache.run rcfg40 (raw_cache.init rdemo2, fun i => 100 + i)
        [raw_cache.Op.set_line 4294967296 rline2,
         raw_cache.Op.get_line 5 (fun _ => 0)]).1.m_line 0 = 10
    ∧ (raw_cache.run rcfg40 (raw_cache.init rdemo2, fun i => 100 + i)
        [raw_cache.Op.set_line 4294967296 rline2,
         raw_cache.Op.get_line 5 (fun _ => 0)]).2
          (raw_cache.main_base rcfg40 4294967296 + 0) = 4294967396
    ∧ (raw_cache.get_line rcfg40
          (raw_cache.run rcfg40 (raw_cache.init rdemo2, fun i => 100 + i)
            [raw_cache.Op.set_line 4294967296 rline2,
             raw_cache.Op.get_line 5 (fun _ => 0)]).1
          (raw_cache.run rcfg40 (raw_cache.init rdemo2, fun i => 100 + i)
            [raw_cache.Op.set_line 4294967296 rline2,
             raw_cache.Op.get_line 5 (fun _ => 0)]).2
          4294967296 (fun _ => 0)).2 0 = 10
    ∧ (raw_cache.get_line rcfg40
          (raw_cache.run rcfg40 (raw_cache.init rdemo2, fun i => 100 + i)
            [raw_cache.Op.set_line 4294967296 rline2,
             raw_cache.Op.get_line 5 (fun _ => 0)]).1
          (raw_cache.run rcfg40 (raw_cache.init rdemo2, fun i => 100 + i)
            [raw_cache.Op.set_line 4294967296 rline2,
             raw_cache.Op.get_line 5 (fun _ => 0)]).2
          4294967296 (fun _ => 0)).2 1 = 11
    ∧ (raw_cache.run rcfg40 (raw_cache.init rdemo2, fun i => 100 + i)
        [raw_cache.Op.set_line 4294967296 rline2,
         raw_cache.Op.get_line 5 (fun _ => 0)]).2
          (raw_cache.main_base rcfg40 4294967296 + 1) = 4294967397 := by
  refine ⟨by rfl, by rfl, by decide, by rfl, by rfl, by rfl, by rfl, by rfl⟩

/-- C18 (zero-width tag). With `TAG_SIZE = 0` the member `m_tag` is 1 bit wide, every
decoded tag and the tag stored by `set_line` are 0; so after `set_line(a, L)` a
`get_line(a')` at any address is a hit and returns `L`, and after `init()` every
`get_line` is a miss (and returns the memory words at the line base). -/
theorem C18_zero_width_tag {T : Type} (c : RawConfig) (h0 : c.TAG_SIZE = 0)
    (s : raw_cache T c.N_WORDS_PER_LINE) (main_mem : Nat → T) (a a2 : Nat)
    (L line0 : Fin c.N_WORDS_PER_LINE → T) :
    c.TAG_WIDTH = 1
    ∧ (addr_type.decode c a2).m_tag = 0
    ∧ (raw_cache.set_line c s main_mem a L).1.m_tag = 0
    ∧ raw_cache.hit (raw_cache.set_line c s main_mem a L).1 (addr_type.decode c a2) = true
    ∧ (raw_cache.get_line c (raw_cache.set_line c s main_mem a L).1
          (raw_cache.set_line c s main_mem a L).2 a2 line0).2 = L
    ∧ raw_cache.hit (raw_cache.init s) (addr_type.decode c a2) = false
    ∧ (raw_cache.get_line c (raw_cache.init s) main_mem a2 line0).2
        = fun off => main_mem (raw_cache.main_line c (addr_type.decode c a2) + off.val) := by
  have htag : ∀ x, (addr_type.decode c x).m_tag = 0 := by
    intro x
    simp only [addr_type.decode, h0, pow_zero, Nat.mod_one]
  obtain ⟨fv, ft, fl, _, _⟩ := raw_cache.set_line_fields c s main_mem a L
  have hhit : raw_cache.hit (raw_cache.set_line c s main_mem a L).1 (addr_type.decode c a2)
      = true := by
    simp only [raw_cache.hit, fv, ft, htag, Bool.true_and, beq_self_eq_true]
  have hmiss : raw_cache.hit (raw_cache.init s) (addr_type.decode c a2) = false := by
    simp only [raw_cache.hit, raw_cache.init, Bool.false_and]
  refine ⟨?_, htag a2, by rw [ft, htag], hhit, ?_, hmiss, ?_⟩
  · simp only [RawConfig.TAG_WIDTH, h0, lt_self_iff_false, if_false]
  · rw [(raw_cache.get_line_fields c _ _ a2 line0).2, if_pos hhit, fl]
  · rw [(raw_cache.get_line_fields c _ _ a2 line0).2, hmiss]
    simp only [Bool.false_eq_true, if_false]

/-- C18 at 8-bit addresses without tag bits: `set_line` at address 200, `get_line` at
address 3. -/
theorem C18_zero_width_tag_witness :
    rcfg0.TAG_SIZE = 0
    ∧ raw_cache.hit (raw_cache.set_line rcfg0 rdemo (fun i => 100 + i) 200 rline).1
        (addr_type.decode rcfg0 3) = true
    ∧ (raw_cache.get_line rcfg0 (raw_cache.set_line rcfg0 rdemo (fun i => 100 + i) 200 rline).1
          (raw_cache.set_line rcfg0 rdemo (fun i => 100 + i) 200 rline).2 3 (fun _ => 0)).2 2
        = 12
    ∧ raw_cache.hit (raw_cache.init rdemo) (addr_type.decode rcfg0 3) = false :=
  have hc := C18_zero_width_tag rcfg0 (by decide) rdemo (fun i => 100 + i) 200 3 rline
    (fun _ => 0)
  ⟨by decide, hc.2.2.2.1, (congrFun hc.2.2.2.2.1 (2 : Fin 4)).trans (by rfl), hc.2.2.2.2.2.1⟩

/-- C15 (end-to-end transparency of the write-back engine). For widths with
`LINE_SIZE + OFF_SIZE ≤ ADDR_SIZE`, every initial main memory, every initial content of
the cache arrays and every stream contents: if `operate` returns after servicing the
requests `(a_1, v_1), ..., (a_k, v_k)` (non-negative `ADDR_SIZE`-bit addresses), main
memory equals the initial memory updated by `mem[a_1] := v_1; ...; mem[a_k] := v_k`
applied in order, and every word that is not one of the `a_i` is unchanged. -/
theorem C15_write_back_transparent {T : Type} (c : Config) (h : c.WF) (s sf : cache_wo T)
    (hb : ∀ e ∈ cache_wo.operate_trace c (cache_wo.operate_fuel c (cache_wo.invalidate c s))
        (cache_wo.invalidate c s) 0, e.2.1.toNat < 2 ^ c.ADDR_SIZE)
    (hret : cache_wo.operate c s = some sf) :
    sf._main_mem = direct s._main_mem
        ((cache_wo.operate_trace c (cache_wo.operate_fuel c (cache_wo.invalidate c s))
          (cache_wo.invalidate c s) 0).map (fun e => (e.2.1, e.2.2.1)))
    ∧ ∀ x, (∀ e ∈ cache_wo.operate_trace c (cache_wo.operate_fuel c (cache_wo.invalidate c s))
          (cache_wo.invalidate c s) 0, e.2.1.toNat ≠ x) →
        sf._main_mem x = s._main_mem x := by
  have hm := cache_wo.operate_transparent c h s sf hb hret
  refine ⟨hm, fun x hx => ?_⟩
  rw [hm]
  apply cache_wo.direct_frame
  intro r hr
  obtain ⟨e, he, rfl⟩ := List.mem_map.mp hr
  exact hx e he

/-- C15 at `demo1`: the writes `(0, 7), (1, 8), (2, 9)` are serviced, `operate` returns,
and memory is the initial memory with words 0, 1, 2 assigned. -/
theorem C15_write_back_transparent_witness :
    cfg8.WF
    ∧ (cache_wo.operate_trace cfg8 (cache_wo.operate_fuel cfg8 (cache_wo.invalidate cfg8 demo1))
          (cache_wo.invalidate cfg8 demo1) 0).map (fun e => (e.2.1, e.2.2.1))
        = [(0, 7), (1, 8), (2, 9)]
    ∧ cache_wo.operate cfg8 demo1 = some (cache_wo.flush cfg8 demo1_popped)
    ∧ (cache_wo.flush cfg8 demo1_popped)._main_mem
        = direct demo1._main_mem [(0, 7), (1, 8), (2, 9)]
    ∧ (cache_wo.flush cfg8 demo1_popped)._main_mem 5 = 105 :=
  have htr : (cache_wo.operate_trace cfg8
      (cache_wo.operate_fuel cfg8 (cache_wo.invalidate cfg8 demo1))
      (cache_wo.invalidate cfg8 demo1) 0).map (fun e => (e.2.1, e.2.2.1))
      = [(0, 7), (1, 8), (2, 9)] := by rfl
  have hb : ∀ e ∈ cache_wo.operate_trace cfg8
      (cache_wo.operate_fuel cfg8 (cache_wo.invalidate cfg8 demo1))
      (cache_wo.invalidate cfg8 demo1) 0, e.2.1.toNat < 2 ^ cfg8.ADDR_SIZE := by
    intro e he
    have hm : (e.2.1, e.2.2.1) ∈ [((0 : Int), 7), (1, 8), (2, 9)] := by
      rw [← htr]; exact List.mem_map.mpr ⟨e, he, rfl⟩
    simp only [List.mem_cons, Prod.mk.injEq, List.mem_singleton, List.not_mem_nil,
      or_false] at hm
    rcases hm with ⟨e1, _⟩ | ⟨e1, _⟩ | ⟨e1, _⟩ <;> rw [e1] <;> decide
  have hret : cache_wo.operate cfg8 demo1 = some (cache_wo.flush cfg8 demo1_popped) := by rfl
  have hc := C15_write_back_transparent cfg8 (by decide) demo1
    (cache_wo.flush cfg8 demo1_popped) hb hret
  ⟨by decide, htr, hret, by rw [hc.1, htr], by rfl⟩

end DaCH
